import Mathlib

/-!
# Bounded-depth forced-mate search (`src/usi/mate.cpp`)

A shallow embedding of the mate search of `mate.cpp`.

* The board collaborators the file calls but does not define (`Position`, move generation,
  legality tests, `doMove`/`undoMove`, the one-ply oracle, the repetition classifier) are
  the fields of a structure `Board`; every function of `mate.cpp` takes it as a parameter.
* `Position&` is threaded explicitly: every search function returns its result together with
  the position it leaves behind.
* The fixed buffer `moveList_[MaxCheckMoves]` is a list of the entries written by the
  generator; every access of the filter loop is checked against the capacity.
* `mateMoveInOddPly`, `mateMoveInEvenPly` and `mateMoveInOddPlyReturnMove` recurse on an
  `int` depth that only stops at `depth == 4`; they take a fuel argument bounding the chain of
  nested calls of these depth-parameterised functions (each call uses one unit), and report
  `Fault.outOfFuel` when the chain is longer. `mateMoveIn3Ply` and `mateMoveIn2Ply` do not
  recurse and take no fuel.
* `depth` is an unbounded integer: `depth - 1` overflows a C++ `int` only after some `2^31`
  nested calls, and signed overflow is undefined behaviour.
* The contracts of the collaborators (`undoMove` reverses `doMove`, the generator writes at
  most `MaxCheckMoves` entries, `isDraw` returns one of its enumerators) are not built into
  `Board`; the theorems that need them take them as hypotheses.
* Claims about the calls a search makes (the flag passed to `doMove`, the number of moves
  applied, the depths the recursors are entered with) are stated on the same searches run on
  instrumented positions, `probe B`, whose log is proved to be the only difference.
-/

namespace Mate

/-- Ways in which a call does not return a value. -/
inductive Fault where
  /-- The chain of nested calls is longer than the fuel allows. -/
  | outOfFuel
  /-- An access outside the `MaxCheckMoves`-entry buffer. -/
  | outOfBounds
  /-- The `assert(size() <= MaxCheckMoves)` of the `MovePicker` constructor fails. -/
  | assertFailed
  /-- The `default: UNREACHABLE;` branch of the repetition switch. -/
  | unreachable
  deriving DecidableEq

/-- Result of a call: a value, or a fault. -/
inductive Res (α : Type) where
  | ok (a : α)
  | fault (f : Fault)
  deriving DecidableEq

/-- Values of the repetition classifier `isDraw`: the six enumerators named in the switch of
`mateMoveInOddPlyReturnMove`, and any other raw value. -/
inductive RepetitionType where
  | NotRepetition
  | RepetitionDraw
  | RepetitionWin
  | RepetitionLose
  | RepetitionSuperior
  | RepetitionInferior
  | other (raw : Int)
  deriving DecidableEq

/-- The collaborators `mate.cpp` uses from `position.hpp`, `move.hpp` and `generateMoves.hpp`.
`ExtMove` is represented by its `move` field, the only one `mate.cpp` reads or writes. -/
structure Board (Position Move CheckInfo Bitboard : Type) where
  /-- `Move::moveNone()`. -/
  moveNone : Move
  /-- The entries `generateMoves<Check>(moveList_, pos)` writes from `moveList_[0]` on. -/
  generateMovesCheck : Position → List Move
  /-- The entries `generateMoves<Evasion>(moveList_, pos)` writes from `moveList_[0]` on. -/
  generateMovesEvasion : Position → List Move
  /-- `pos.pinnedBB()`. -/
  pinnedBB : Position → Bitboard
  /-- `pos.pseudoLegalMoveIsEvasion(move, pinned)`. -/
  pseudoLegalMoveIsEvasion : Position → Move → Bitboard → Bool
  /-- `pos.pseudoLegalMoveIsLegal<false, false>(move, pinned)`. -/
  pseudoLegalMoveIsLegal : Position → Move → Bitboard → Bool
  /-- `CheckInfo ci(pos)`. -/
  checkInfo : Position → CheckInfo
  /-- `pos.moveGivesCheck(move, ci)`. -/
  moveGivesCheck : Position → Move → CheckInfo → Bool
  /-- `pos.doMove(move, state, ci, givesCheck)`. -/
  doMove : Position → Move → CheckInfo → Bool → Position
  /-- `pos.undoMove(move)`. -/
  undoMove : Position → Move → Position
  /-- `pos.mateMoveIn1Ply()`. -/
  mateMoveIn1Ply : Position → Move
  /-- `pos.isDraw(checkMaxPly)`. -/
  isDraw : Position → Int → RepetitionType

/-- `const constexpr size_t MaxCheckMoves = 73;` -/
def MaxCheckMoves : Nat := 73

section Defs

variable {Position Move CheckInfo Bitboard : Type}

/-- Read of `moveList_[i].move`: defined only inside the `MaxCheckMoves`-entry buffer and on
an entry that has been written. -/
def readAt (buf : List Move) (i : Nat) : Option Move :=
  if i < MaxCheckMoves then buf[i]? else none

/-- The filter loop of the `MovePicker` constructor
```
while (curr != last_) {
    if (!keep(curr->move)) curr->move = (--last_)->move;
    else ++curr;
}
```
on the buffer `buf` with `curr` and `last_` as indices. Every iteration advances `curr` or
decrements `last_`; the first argument bounds the number of iterations. -/
def removeLoop (keep : Move → Bool) : Nat → List Move → Nat → Nat → Res (List Move × Nat)
  | 0, buf, curr, last =>
    if curr = last then Res.ok (buf, last) else Res.fault Fault.outOfFuel
  | fuel + 1, buf, curr, last =>
    if curr = last then Res.ok (buf, last)
    else
      match readAt buf curr with
      | none => Res.fault Fault.outOfBounds
      | some m =>
        if !keep m then
          if last = 0 then Res.fault Fault.outOfBounds
          else
            match readAt buf (last - 1) with
            | none => Res.fault Fault.outOfBounds
            | some x => removeLoop keep fuel (buf.set curr x) curr (last - 1)
        else removeLoop keep fuel buf (curr + 1) last

/-- End of the `MovePicker` constructor: `assert(size() <= MaxCheckMoves)`, after which the
picker exposes the entries from `begin()` to `end()`. -/
def pickerRange (buf : List Move) (last : Nat) : Res (List Move) :=
  if last ≤ MaxCheckMoves then Res.ok (buf.take last) else Res.fault Fault.assertFailed

/-- Generation followed by the filter loop, as in both filtering branches of the constructor:
`last_` starts at the number of generated entries and `curr` at `moveList_`. -/
def pickFiltered (keep : Move → Bool) (gen : List Move) : Res (List Move) :=
  match removeLoop keep gen.length gen 0 gen.length with
  | Res.ok (buf, last) => pickerRange buf last
  | Res.fault f => Res.fault f

/-- `MovePicker<or_node, INCHECK>(pos)`: the list of moves from `begin()` to `end()`. -/
def MovePicker (B : Board Position Move CheckInfo Bitboard) (or_node INCHECK : Bool)
    (pos : Position) : Res (List Move) :=
  if or_node then
    if INCHECK then
      pickFiltered (fun m => B.pseudoLegalMoveIsEvasion pos m (B.pinnedBB pos))
        (B.generateMovesCheck pos)
    else
      pickerRange (B.generateMovesCheck pos) (B.generateMovesCheck pos).length
  else
    pickFiltered (fun m => B.pseudoLegalMoveIsLegal pos m (B.pinnedBB pos))
      (B.generateMovesEvasion pos)

/-- Body of the `for` loop of `mateMoveIn2Ply` over the remaining evasions. -/
def mateMoveIn2PlyLoop [DecidableEq Move] (B : Board Position Move CheckInfo Bitboard)
    (ci : CheckInfo) :
    List Move → Position → Bool × Position
  | [], pos => (true, pos)
  | m :: ms, pos =>
    if B.moveGivesCheck pos m ci then (false, pos)
    else
      let pos1 := B.doMove pos m ci false
      if B.mateMoveIn1Ply pos1 = B.moveNone then (false, B.undoMove pos1 m)
      else mateMoveIn2PlyLoop B ci ms (B.undoMove pos1 m)

/-- `bool mateMoveIn2Ply(Position& pos)`. -/
def mateMoveIn2Ply [DecidableEq Move] (B : Board Position Move CheckInfo Bitboard)
    (pos : Position) :
    Res (Bool × Position) :=
  match MovePicker B false false pos with
  | Res.fault f => Res.fault f
  | Res.ok ml => Res.ok (mateMoveIn2PlyLoop B (B.checkInfo pos) ml pos)

/-- Body of the `for` loop shared by the attacker nodes `mateMoveIn3Ply` and
`mateMoveInOddPly`: apply the move with `givesCheck = true`, run the defender check `child`
on the position, undo, return `true` on the first success. -/
def attackLoop (B : Board Position Move CheckInfo Bitboard) (ci : CheckInfo)
    (child : Position → Res (Bool × Position)) : List Move → Position → Res (Bool × Position)
  | [], pos => Res.ok (false, pos)
  | m :: ms, pos =>
    match child (B.doMove pos m ci true) with
    | Res.fault f => Res.fault f
    | Res.ok (true, pos2) => Res.ok (true, B.undoMove pos2 m)
    | Res.ok (false, pos2) => attackLoop B ci child ms (B.undoMove pos2 m)

/-- `template <bool INCHECK> bool mateMoveIn3Ply(Position& pos)`. -/
def mateMoveIn3Ply [DecidableEq Move] (B : Board Position Move CheckInfo Bitboard)
    (INCHECK : Bool) (pos : Position) : Res (Bool × Position) :=
  match MovePicker B true INCHECK pos with
  | Res.fault f => Res.fault f
  | Res.ok ml => attackLoop B (B.checkInfo pos) (mateMoveIn2Ply B) ml pos

/-- Body of the `for` loop of `mateMoveInEvenPly`: `attack givesCheck` is the attacker
sub-search selected by `depth == 4` and by `givesCheck`. -/
def defendLoop (B : Board Position Move CheckInfo Bitboard) (ci : CheckInfo)
    (attack : Bool → Position → Res (Bool × Position)) :
    List Move → Position → Res (Bool × Position)
  | [], pos => Res.ok (true, pos)
  | m :: ms, pos =>
    let givesCheck := B.moveGivesCheck pos m ci
    match attack givesCheck (B.doMove pos m ci givesCheck) with
    | Res.fault f => Res.fault f
    | Res.ok (false, pos2) => Res.ok (false, B.undoMove pos2 m)
    | Res.ok (true, pos2) => defendLoop B ci attack ms (B.undoMove pos2 m)

mutual

/-- `template <bool INCHECK = false> bool mateMoveInOddPly(Position& pos, const int depth)`. -/
def mateMoveInOddPly [DecidableEq Move] (B : Board Position Move CheckInfo Bitboard) :
    Nat → Bool → Position → Int → Res (Bool × Position)
  | 0, _, _, _ => Res.fault Fault.outOfFuel
  | fuel + 1, INCHECK, pos, depth =>
    match MovePicker B true INCHECK pos with
    | Res.fault f => Res.fault f
    | Res.ok ml =>
      attackLoop B (B.checkInfo pos) (fun p => mateMoveInEvenPly B fuel p (depth - 1)) ml pos

/-- `bool mateMoveInEvenPly(Position& pos, const int depth)`. -/
def mateMoveInEvenPly [DecidableEq Move] (B : Board Position Move CheckInfo Bitboard) :
    Nat → Position → Int → Res (Bool × Position)
  | 0, _, _ => Res.fault Fault.outOfFuel
  | fuel + 1, pos, depth =>
    match MovePicker B false false pos with
    | Res.fault f => Res.fault f
    | Res.ok ml =>
      defendLoop B (B.checkInfo pos)
        (fun givesCheck p =>
          if depth = 4 then mateMoveIn3Ply B givesCheck p
          else mateMoveInOddPly B fuel givesCheck p (depth - 1))
        ml pos

end

/-- Body of the `for` loop of `mateMoveInOddPlyReturnMove`. -/
def returnMoveLoop (B : Board Position Move CheckInfo Bitboard) (ci : CheckInfo)
    (child : Position → Res (Bool × Position)) : List Move → Position → Res (Move × Position)
  | [], pos => Res.ok (B.moveNone, pos)
  | m :: ms, pos =>
    let pos1 := B.doMove pos m ci true
    match B.isDraw pos1 16 with
    | RepetitionType.NotRepetition =>
      match child pos1 with
      | Res.fault f => Res.fault f
      | Res.ok (true, pos2) => Res.ok (m, B.undoMove pos2 m)
      | Res.ok (false, pos2) => returnMoveLoop B ci child ms (B.undoMove pos2 m)
    | RepetitionType.RepetitionDraw
    | RepetitionType.RepetitionWin
    | RepetitionType.RepetitionLose
    | RepetitionType.RepetitionSuperior
    | RepetitionType.RepetitionInferior => returnMoveLoop B ci child ms (B.undoMove pos1 m)
    | RepetitionType.other _ => Res.fault Fault.unreachable

/-- `Move mateMoveInOddPlyReturnMove(Position& pos, const int depth)`. -/
def mateMoveInOddPlyReturnMove [DecidableEq Move] (B : Board Position Move CheckInfo Bitboard) :
    Nat → Position → Int → Res (Move × Position)
  | 0, _, _ => Res.fault Fault.outOfFuel
  | fuel + 1, pos, depth =>
    match MovePicker B true false pos with
    | Res.fault f => Res.fault f
    | Res.ok ml =>
      returnMoveLoop B (B.checkInfo pos) (fun p => mateMoveInEvenPly B fuel p (depth - 1)) ml pos

/-- Contract of `undoMove`: it exactly reverses `doMove` of the same move. -/
def UndoRestores (B : Board Position Move CheckInfo Bitboard) : Prop :=
  ∀ pos m ci givesCheck, B.undoMove (B.doMove pos m ci givesCheck) m = pos

/-- Contract of the generator: it writes at most `MaxCheckMoves` entries. -/
def GeneratorFits (B : Board Position Move CheckInfo Bitboard) : Prop :=
  ∀ pos, (B.generateMovesCheck pos).length ≤ MaxCheckMoves ∧
    (B.generateMovesEvasion pos).length ≤ MaxCheckMoves

/-- Contract of the repetition classifier: it returns one of the six enumerators. -/
def ClassifierInRange (B : Board Position Move CheckInfo Bitboard) : Prop :=
  ∀ pos n raw, B.isDraw pos n ≠ RepetitionType.other raw

/-- The position on which an attacker node runs its defender check for the candidate `m`:
`pos.doMove(ml.move, state, ci, true)` with `ci` computed from `pos`. -/
def afterAttack (B : Board Position Move CheckInfo Bitboard) (pos : Position) (m : Move) :
    Position :=
  B.doMove pos m (B.checkInfo pos) true

/-- The value `givesCheck = pos.moveGivesCheck(ml.move, ci)` of a defender node for the
evasion `e`, with `ci` computed from `pos`. -/
def evasionGivesCheck (B : Board Position Move CheckInfo Bitboard) (pos : Position)
    (e : Move) : Bool :=
  B.moveGivesCheck pos e (B.checkInfo pos)

/-- The position on which `mateMoveInEvenPly` runs its attacker sub-search for the evasion
`e`: `pos.doMove(ml.move, state, ci, givesCheck)`. -/
def afterEvasion (B : Board Position Move CheckInfo Bitboard) (pos : Position) (e : Move) :
    Position :=
  B.doMove pos e (B.checkInfo pos) (evasionGivesCheck B pos e)

/-- The attacker sub-search `mateMoveInEvenPly` runs at `depth` after an evasion:
`mateMoveIn3Ply<givesCheck>` when `depth == 4`, else `mateMoveInOddPly<givesCheck>` at
`depth - 1`. -/
def evenSubSearch [DecidableEq Move] (B : Board Position Move CheckInfo Bitboard) (fuel : Nat)
    (depth : Int) (givesCheck : Bool) (pos : Position) : Res (Bool × Position) :=
  if depth = 4 then mateMoveIn3Ply B givesCheck pos
  else mateMoveInOddPly B fuel givesCheck pos (depth - 1)

/-- The candidate `m` wins at the root entry called on `pos` at `depth`: the position after
`m` is classified `NotRepetition` and `mateMoveInEvenPly` returns `true` on it at
`depth - 1`, leaving it unchanged. -/
def RootWins [DecidableEq Move] (B : Board Position Move CheckInfo Bitboard) (fuel : Nat)
    (pos : Position) (depth : Int) (m : Move) : Prop :=
  B.isDraw (afterAttack B pos m) 16 = RepetitionType.NotRepetition ∧
    mateMoveInEvenPly B fuel (afterAttack B pos m) (depth - 1)
      = Res.ok (true, afterAttack B pos m)

/-- The entries the generator writes for `MovePicker<or_node, INCHECK>(pos)`:
`generateMoves<Check>` at an attacker node, `generateMoves<Evasion>` at a defender node. -/
def generatedMoves (B : Board Position Move CheckInfo Bitboard) (or_node : Bool)
    (pos : Position) : List Move :=
  if or_node then B.generateMovesCheck pos else B.generateMovesEvasion pos

/-- Contract of a faithful one-ply oracle: a move it returns is a generated check after which
the defender selector lists no evasion. -/
def FaithfulOracle (B : Board Position Move CheckInfo Bitboard) : Prop :=
  ∀ pos, B.mateMoveIn1Ply pos ≠ B.moveNone →
    B.mateMoveIn1Ply pos ∈ B.generateMovesCheck pos ∧
      MovePicker B false false (afterAttack B pos (B.mateMoveIn1Ply pos)) = Res.ok []

/-- The root entry called on `pos` at `depth` examines the candidate `m` and passes on to the
next one: the position after `m` is classified as one of the five repetitions, or it is
classified `NotRepetition` and `mateMoveInEvenPly` returns `false` on it. -/
def RootPasses [DecidableEq Move] (B : Board Position Move CheckInfo Bitboard) (fuel : Nat)
    (pos : Position) (depth : Int) (m : Move) : Prop :=
  B.isDraw (afterAttack B pos m) 16 = RepetitionType.RepetitionDraw ∨
  B.isDraw (afterAttack B pos m) 16 = RepetitionType.RepetitionWin ∨
  B.isDraw (afterAttack B pos m) 16 = RepetitionType.RepetitionLose ∨
  B.isDraw (afterAttack B pos m) 16 = RepetitionType.RepetitionSuperior ∨
  B.isDraw (afterAttack B pos m) 16 = RepetitionType.RepetitionInferior ∨
  (B.isDraw (afterAttack B pos m) 16 = RepetitionType.NotRepetition ∧
    mateMoveInEvenPly B fuel (afterAttack B pos m) (depth - 1)
      = Res.ok (false, afterAttack B pos m))

end Defs

/-! ## Concrete boards

Positions of `demo` are the moves played so far, most recent first. From the empty history
the attacker has the checks 7, 1 and 2: 7 leads to a repetition, 1 is refuted by the evasion
4, and 2 mates. After the history 4, 3, 5 the only evasion 6 gives check. `chase` is a perpetual check: every position has one check and one evasion. `maze` hides
a perpetual check behind one of its checks. -/

/-- Checks of `demo`. -/
def demoCheck : List Nat → List Nat
  | [] => [7, 1, 2]
  | [3, 1] => [5]
  | [3, 2] => [5]
  | _ => []

/-- Pseudo-legal evasions of `demo`; 9 is the illegal one. -/
def demoEvasion : List Nat → List Nat
  | [1] => [3, 9, 4]
  | [2] => [3]
  | [5, 3, 1] => [6]
  | [5, 3, 4] => [6]
  | _ => []

/-- One-ply oracle of `demo`; 0 is `moveNone`. -/
def demoOracle : List Nat → Nat
  | [6, 5, 3, 1] => 8
  | [6, 5, 3, 4] => 8
  | _ => 0

/-- Repetition classifier of `demo`. -/
def demoDraw : List Nat → RepetitionType
  | [7] => RepetitionType.RepetitionDraw
  | _ => RepetitionType.NotRepetition

/-- A small game tree with a forced mate in five plies from the empty history. -/
def demo : Board (List Nat) Nat Unit Unit where
  moveNone := 0
  generateMovesCheck := demoCheck
  generateMovesEvasion := demoEvasion
  pinnedBB := fun _ => ()
  pseudoLegalMoveIsEvasion := fun _ m _ => m != 7
  pseudoLegalMoveIsLegal := fun _ m _ => m != 9
  checkInfo := fun _ => ()
  moveGivesCheck := fun pos m _ => pos == [5, 3, 4] && m == 6
  doMove := fun pos m _ _ => m :: pos
  undoMove := fun pos _ => pos.tail
  mateMoveIn1Ply := demoOracle
  isDraw := fun pos _ => demoDraw pos

/-- A perpetual check: positions count the plies played, every position has the check 1 and
the evasion 1, and the one-ply oracle never finds a mate. -/
def chase : Board Nat Nat Unit Unit where
  moveNone := 0
  generateMovesCheck := fun _ => [1]
  generateMovesEvasion := fun _ => [1]
  pinnedBB := fun _ => ()
  pseudoLegalMoveIsEvasion := fun _ _ _ => true
  pseudoLegalMoveIsLegal := fun _ _ _ => true
  checkInfo := fun _ => ()
  moveGivesCheck := fun _ _ _ => false
  doMove := fun pos _ _ _ => pos + 1
  undoMove := fun pos _ => pos - 1
  mateMoveIn1Ply := fun _ => 0
  isDraw := fun _ _ => RepetitionType.NotRepetition

/-- Checks of `maze`: one check in the perpetual zone (the histories that started with 7 from
the empty history), the checks 7 and 2 from the empty history, the check 7 from the history
9, and the line 4, 5, 6 from the history 8. -/
def mazeCheck (pos : List Nat) : List Nat :=
  if pos.getLast? = some 7 then [1]
  else
    match pos with
    | [] => [7, 2]
    | [9] => [7]
    | [8] => [4]
    | [5, 4, 8] => [6]
    | _ => []

/-- Evasions of `maze`: one evasion in the perpetual zone, the evasion 5 after the check 4
from the history 8, none elsewhere. -/
def mazeEvasion (pos : List Nat) : List Nat :=
  if pos.getLast? = some 7 then [1]
  else
    match pos with
    | [4, 8] => [5]
    | _ => []

/-- One-ply oracle of `maze`: it finds the mating check 6 after the history 8, 4, 5 and
nothing elsewhere; 0 is `moveNone`. -/
def mazeOracle : List Nat → Nat
  | [5, 4, 8] => 6
  | _ => 0

/-- Repetition classifier of `maze`: the check 7 repeats a position. -/
def mazeDraw : List Nat → RepetitionType
  | [7] => RepetitionType.RepetitionDraw
  | [7, 9] => RepetitionType.RepetitionDraw
  | _ => RepetitionType.NotRepetition

/-- A board with a perpetual check behind the check 7. From the empty history the check 7
repeats a position, is not an evasion, and starts a perpetual check, while the check 2 leaves
no evasion. From the history 9 the only check 7 repeats a position and leaves no evasion.
From the history 8 there is a mate in three plies that the one-ply oracle reports with a
generated check. -/
def maze : Board (List Nat) Nat Unit Unit where
  moveNone := 0
  generateMovesCheck := mazeCheck
  generateMovesEvasion := mazeEvasion
  pinnedBB := fun _ => ()
  pseudoLegalMoveIsEvasion := fun _ m _ => m != 7
  pseudoLegalMoveIsLegal := fun _ _ _ => true
  checkInfo := fun _ => ()
  moveGivesCheck := fun _ _ _ => false
  doMove := fun pos m _ _ => m :: pos
  undoMove := fun pos _ => pos.tail
  mateMoveIn1Ply := mazeOracle
  isDraw := fun pos _ => mazeDraw pos

/-- Checks of `glitch`. -/
def glitchCheck : List Nat → List Nat
  | [] => [5, 7, 2]
  | _ => []

/-- Evasions of `glitch`. -/
def glitchEvasion : List Nat → List Nat
  | [5] => [4]
  | _ => []

/-- Repetition classifier of `glitch`: after the check 7 it returns a value outside its
enumeration. -/
def glitchDraw : List Nat → RepetitionType
  | [7] => RepetitionType.other 99
  | _ => RepetitionType.NotRepetition

/-- A board whose repetition classifier leaves its enumeration. From the empty history the
check 5 is refuted by the evasion 4, the check 7 is classified outside the enumeration, and
the check 2 leaves no evasion. -/
def glitch : Board (List Nat) Nat Unit Unit where
  moveNone := 0
  generateMovesCheck := glitchCheck
  generateMovesEvasion := glitchEvasion
  pinnedBB := fun _ => ()
  pseudoLegalMoveIsEvasion := fun _ _ _ => true
  pseudoLegalMoveIsLegal := fun _ _ _ => true
  checkInfo := fun _ => ()
  moveGivesCheck := fun _ _ _ => false
  doMove := fun pos m _ _ => m :: pos
  undoMove := fun pos _ => pos.tail
  mateMoveIn1Ply := fun _ => 0
  isDraw := fun pos _ => glitchDraw pos

/-! ## Instrumented positions

To observe the calls a search makes, the search is run on positions that carry a record: the
number of moves applied and not yet undone, and a log of the `doMove` calls received. The
searches themselves are the ones above, run on the board `probe B`; `tracedOddPly` and
`tracedEvenPly` are the two recursors with one more line, which logs the depth they are
entered with. -/

/-- An observation: a recursor is entered at some depth, or `doMove` is called on `pos` with
the move `m`, the `CheckInfo` `ci` and the flag `givesCheck`, which brings the number of
applied moves to `applied`. -/
inductive Event (Position Move CheckInfo : Type) where
  | enterOddPly (depth : Int)
  | enterEvenPly (depth : Int)
  | doMove (pos : Position) (m : Move) (ci : CheckInfo) (givesCheck : Bool) (applied : Nat)
  deriving DecidableEq

/-- A position together with the number of moves applied on top of the position the search
started from, and the log of observations. -/
structure Probe (Position Move CheckInfo : Type) where
  pos : Position
  applied : Nat
  log : List (Event Position Move CheckInfo)
  deriving DecidableEq

section Instrument

variable {Position Move CheckInfo Bitboard : Type}

/-- Append an observation to the log. -/
def Probe.note (s : Probe Position Move CheckInfo) (e : Event Position Move CheckInfo) :
    Probe Position Move CheckInfo :=
  { pos := s.pos, applied := s.applied, log := s.log ++ [e] }

/-- The board `B` on instrumented positions: every query is answered by `B` on the position
carried; `doMove` also counts the move and logs the call, `undoMove` also uncounts it. -/
def probe (B : Board Position Move CheckInfo Bitboard) :
    Board (Probe Position Move CheckInfo) Move CheckInfo Bitboard where
  moveNone := B.moveNone
  generateMovesCheck := fun s => B.generateMovesCheck s.pos
  generateMovesEvasion := fun s => B.generateMovesEvasion s.pos
  pinnedBB := fun s => B.pinnedBB s.pos
  pseudoLegalMoveIsEvasion := fun s m pinned => B.pseudoLegalMoveIsEvasion s.pos m pinned
  pseudoLegalMoveIsLegal := fun s m pinned => B.pseudoLegalMoveIsLegal s.pos m pinned
  checkInfo := fun s => B.checkInfo s.pos
  moveGivesCheck := fun s m ci => B.moveGivesCheck s.pos m ci
  doMove := fun s m ci givesCheck =>
    { pos := B.doMove s.pos m ci givesCheck
      applied := s.applied + 1
      log := s.log ++ [Event.doMove s.pos m ci givesCheck (s.applied + 1)] }
  undoMove := fun s m =>
    { pos := B.undoMove s.pos m, applied := s.applied - 1, log := s.log }
  mateMoveIn1Ply := fun s => B.mateMoveIn1Ply s.pos
  isDraw := fun s checkMaxPly => B.isDraw s.pos checkMaxPly

mutual

/-- The recursor `mateMoveInOddPly` on instrumented positions, logging the depth it is
entered with. -/
def tracedOddPly [DecidableEq Move] (B : Board Position Move CheckInfo Bitboard) :
    Nat → Bool → Probe Position Move CheckInfo → Int →
      Res (Bool × Probe Position Move CheckInfo)
  | 0, _, _, _ => Res.fault Fault.outOfFuel
  | fuel + 1, INCHECK, s, depth =>
    match MovePicker (probe B) true INCHECK (s.note (Event.enterOddPly depth)) with
    | Res.fault f => Res.fault f
    | Res.ok ml =>
      attackLoop (probe B) ((probe B).checkInfo (s.note (Event.enterOddPly depth)))
        (fun p => tracedEvenPly B fuel p (depth - 1)) ml (s.note (Event.enterOddPly depth))

/-- The recursor `mateMoveInEvenPly` on instrumented positions, logging the depth it is
entered with. -/
def tracedEvenPly [DecidableEq Move] (B : Board Position Move CheckInfo Bitboard) :
    Nat → Probe Position Move CheckInfo → Int → Res (Bool × Probe Position Move CheckInfo)
  | 0, _, _ => Res.fault Fault.outOfFuel
  | fuel + 1, s, depth =>
    match MovePicker (probe B) false false (s.note (Event.enterEvenPly depth)) with
    | Res.fault f => Res.fault f
    | Res.ok ml =>
      defendLoop (probe B) ((probe B).checkInfo (s.note (Event.enterEvenPly depth)))
        (fun givesCheck p =>
          if depth = 4 then mateMoveIn3Ply (probe B) givesCheck p
          else tracedOddPly B fuel givesCheck p (depth - 1))
        ml (s.note (Event.enterEvenPly depth))

end

/-- Forget the record carried by the position a search hands back. -/
def eraseProbe {α : Type} : Res (α × Probe Position Move CheckInfo) → Res (α × Position)
  | Res.ok (a, s) => Res.ok (a, s.pos)
  | Res.fault f => Res.fault f

/-- A search started on `s` has handed back `s2`: the position and the number of applied
moves are those of `s`, and the log of `s2` is the log of `s` followed by observations that
all satisfy `Q`. -/
def Probe.Extends (Q : Event Position Move CheckInfo → Prop)
    (s s2 : Probe Position Move CheckInfo) : Prop :=
  s2.pos = s.pos ∧ s2.applied = s.applied ∧ ∃ new, s2.log = s.log ++ new ∧ ∀ e ∈ new, Q e

/-- A logged `doMove` call is consistent: its `CheckInfo` is the one of the position the move
is applied to, and its flag is `moveGivesCheck` of the move on that position. -/
def GoodCall (B : Board Position Move CheckInfo Bitboard) :
    Event Position Move CheckInfo → Prop
  | Event.doMove pos m ci givesCheck _ =>
    ci = B.checkInfo pos ∧ givesCheck = B.moveGivesCheck pos m ci
  | _ => True

/-- An observation is within the bounds of a defender search entered at the even depth `d`:
recursors are entered at depths from 4 to `d` only, with the parity of their role, and never
more than `most` moves are applied. -/
def WithinDepth (d : Int) (most : Nat) : Event Position Move CheckInfo → Prop
  | Event.enterOddPly k => 5 ≤ k ∧ k ≤ d ∧ k % 2 = 1
  | Event.enterEvenPly k => 4 ≤ k ∧ k ≤ d ∧ k % 2 = 0
  | Event.doMove _ _ _ _ applied => applied ≤ most

/-- Assumption of claim C18 on the generator: every generated check gives check. -/
def ChecksGiveCheck (B : Board Position Move CheckInfo Bitboard) : Prop :=
  ∀ pos, ∀ m ∈ B.generateMovesCheck pos, B.moveGivesCheck pos m (B.checkInfo pos) = true

end Instrument

/-- Checks of `honest`. -/
def honestCheck : List Nat → List Nat
  | [] => [1]
  | [1] => [3]
  | [3, 1] => [5]
  | _ => []

/-- Evasions of `honest`. -/
def honestEvasion : List Nat → List Nat
  | [1] => [3]
  | [5, 3, 1] => [6]
  | _ => []

/-- One-ply oracle of `honest`; 0 is `moveNone`. -/
def honestOracle : List Nat → Nat
  | [6, 5, 3, 1] => 8
  | _ => 0

/-- A forced line 1, 3, 5, 6 on which a move gives check exactly when it is a generated
check of the position; the evasion 3 gives check. -/
def honest : Board (List Nat) Nat Unit Unit where
  moveNone := 0
  generateMovesCheck := honestCheck
  generateMovesEvasion := honestEvasion
  pinnedBB := fun _ => ()
  pseudoLegalMoveIsEvasion := fun _ _ _ => true
  pseudoLegalMoveIsLegal := fun _ _ _ => true
  checkInfo := fun _ => ()
  moveGivesCheck := fun pos m _ => decide (m ∈ honestCheck pos)
  doMove := fun pos m _ _ => m :: pos
  undoMove := fun pos _ => pos.tail
  mateMoveIn1Ply := honestOracle
  isDraw := fun _ _ => RepetitionType.NotRepetition

/-! ## The candidate move selector -/

section Picker

variable {Move : Type}

theorem readAt_append_cons (pre : List Move) (m : Move) (rest : List Move)
    (h : pre.length < MaxCheckMoves) : readAt (pre ++ m :: rest) pre.length = some m := by
  have hget : (pre ++ m :: rest)[pre.length]? = some m := by
    induction pre with
    | nil => simp
    | cons a pre ih => simpa using ih (by simp at h; omega)
  simp [readAt, h, hget]

theorem set_append_cons (pre : List Move) (m x : Move) (rest : List Move) :
    (pre ++ m :: rest).set pre.length x = pre ++ x :: rest := by
  induction pre with
  | nil => rfl
  | cons a pre ih => simp [List.set, ih]

/-- Invariant of the filter loop: with the buffer split as `pre ++ mid ++ suf`, `curr` at the
start of `mid` and `last_` at its end, the loop ends with the buffer `pre ++ kept ++ suf2` and
`last_` at the end of `kept`, where `kept` holds the accepted entries of `mid`. -/
theorem removeLoop_sound (keep : Move → Bool) :
    ∀ (n fuel : Nat) (pre mid suf : List Move), mid.length = n → n ≤ fuel →
      pre.length + mid.length ≤ MaxCheckMoves →
      ∃ kept suf2, removeLoop keep fuel (pre ++ mid ++ suf) pre.length (pre.length + mid.length)
          = Res.ok (pre ++ kept ++ suf2, pre.length + kept.length) ∧
        kept.Perm (mid.filter keep) := by
  intro n
  induction n with
  | zero =>
    intro fuel pre mid suf hn _ _
    have hmid : mid = [] := List.length_eq_zero.mp hn
    subst hmid
    refine ⟨[], suf, ?_, by simp⟩
    cases fuel <;> simp [removeLoop]
  | succ n ih =>
    intro fuel pre mid suf hn hfuel hcap
    obtain ⟨fuel, rfl⟩ : ∃ f, fuel = f + 1 := ⟨fuel - 1, by omega⟩
    match mid, hn with
    | m :: mid1, hn =>
      have hlen : mid1.length = n := by simpa using hn
      have hpre : pre.length < MaxCheckMoves := by simp at hcap; omega
      have hne : ¬ pre.length = pre.length + (m :: mid1).length := by simp
      have hread : readAt (pre ++ m :: mid1 ++ suf) pre.length = some m := by
        simpa using readAt_append_cons pre m (mid1 ++ suf) hpre
      rw [removeLoop, if_neg hne, hread]
      by_cases hk : keep m = true
      · simp only [hk, Bool.not_true, Bool.false_eq_true, if_false]
        obtain ⟨kept, suf2, heq, hperm⟩ := ih fuel (pre ++ [m]) mid1 suf hlen (by omega)
          (by simp at hcap ⊢; omega)
        refine ⟨m :: kept, suf2, ?_, ?_⟩
        · have e1 : pre ++ m :: mid1 ++ suf = pre ++ [m] ++ mid1 ++ suf := by simp
          have e2 : pre.length + 1 = (pre ++ [m]).length := by simp
          have e3 : pre.length + (m :: mid1).length = (pre ++ [m]).length + mid1.length := by
            simp; omega
          rw [e1, e3, e2, heq]
          simp
          omega
        · simpa [List.filter_cons, hk] using hperm
      · have hk2 : keep m = false := by simpa using hk
        have hl0 : ¬ pre.length + (m :: mid1).length = 0 := by simp
        simp only [hk2, Bool.not_false, if_true, if_neg hl0]
        rcases List.eq_nil_or_concat mid1 with hnil | ⟨L, x, hL⟩
        · subst hnil
          have hr2 : readAt (pre ++ [m] ++ suf) (pre.length + [m].length - 1) = some m := by
            simpa using readAt_append_cons pre m suf hpre
          simp only [hr2]
          obtain ⟨kept, suf2, heq, hperm⟩ := ih fuel pre [] (m :: suf) (by simpa using hlen)
            (by omega) (by simp; omega)
          refine ⟨kept, suf2, ?_, ?_⟩
          · have e1 : (pre ++ [m] ++ suf).set pre.length m = pre ++ [] ++ m :: suf := by
              simp
            have e3 : pre.length + [m].length - 1 = pre.length + ([] : List Move).length := by
              simp
            rw [e1, e3, heq]
          · simpa [List.filter_cons, hk2] using hperm
        · rw [List.concat_eq_append] at hL
          subst hL
          have hLn : L.length + 1 = n := by simpa using hlen
          have hr2 : readAt (pre ++ m :: (L ++ [x]) ++ suf)
              (pre.length + (m :: (L ++ [x])).length - 1) = some x := by
            have := readAt_append_cons (pre ++ m :: L) x suf (by simp at hcap ⊢; omega)
            have e : pre.length + (m :: (L ++ [x])).length - 1 = (pre ++ m :: L).length := by
              simp
            rw [e]
            simpa using this
          simp only [hr2]
          obtain ⟨kept, suf2, heq, hperm⟩ := ih fuel pre (x :: L) (x :: suf) (by simpa using hLn)
            (by omega) (by simp at hcap ⊢; omega)
          refine ⟨kept, suf2, ?_, ?_⟩
          · have e1 : (pre ++ m :: (L ++ [x]) ++ suf).set pre.length x
                = pre ++ x :: L ++ x :: suf := by
              simp
            have e3 : pre.length + (m :: (L ++ [x])).length - 1
                = pre.length + (x :: L).length := by
              simp
            rw [e1, e3, heq]
          · refine hperm.trans ?_
            have hp : (x :: L).Perm (L ++ [x]) := by
              simpa using (List.perm_append_comm : ([x] ++ L).Perm (L ++ [x]))
            simpa [List.filter_cons, hk2] using hp.filter keep

/-- The filter loop never moves `last_` forward. -/
theorem removeLoop_last_le (keep : Move → Bool) :
    ∀ (fuel : Nat) (buf : List Move) (curr last : Nat) (buf2 : List Move) (last2 : Nat),
      removeLoop keep fuel buf curr last = Res.ok (buf2, last2) → last2 ≤ last := by
  intro fuel
  induction fuel with
  | zero =>
    intro buf curr last buf2 last2 h
    simp only [removeLoop] at h
    split at h
    · injection h with h; injection h with _ h2; omega
    · cases h
  | succ fuel ih =>
    intro buf curr last buf2 last2 h
    rw [removeLoop] at h
    split at h
    · injection h with h; injection h with _ h2; omega
    · split at h
      · cases h
      · split at h
        · split at h
          · cases h
          · split at h
            · cases h
            · have := ih _ _ _ _ _ h
              omega
        · exact ih _ _ _ _ _ h

/-- The filter loop ends within `last_ - curr` iterations. -/
theorem removeLoop_fuel (keep : Move → Bool) :
    ∀ (fuel : Nat) (buf : List Move) (curr last : Nat), curr ≤ last → last - curr ≤ fuel →
      removeLoop keep fuel buf curr last ≠ Res.fault Fault.outOfFuel := by
  intro fuel
  induction fuel with
  | zero =>
    intro buf curr last h1 h2
    have : curr = last := by omega
    simp [removeLoop, this]
  | succ fuel ih =>
    intro buf curr last h1 h2
    rw [removeLoop]
    split
    · simp
    · split
      · simp
      · split
        · split
          · simp
          · split
            · simp
            · exact ih _ _ _ (by omega) (by omega)
        · exact ih _ _ _ (by omega) (by omega)

theorem pickFiltered_sound (keep : Move → Bool) (gen : List Move)
    (h : gen.length ≤ MaxCheckMoves) :
    ∃ kept, pickFiltered keep gen = Res.ok kept ∧ kept.Perm (gen.filter keep) := by
  obtain ⟨kept, suf2, heq, hperm⟩ :=
    removeLoop_sound keep gen.length gen.length [] gen [] rfl (le_refl _) (by simpa using h)
  refine ⟨kept, ?_, hperm⟩
  have hlen : kept.length ≤ MaxCheckMoves := by
    have h1 := hperm.length_eq
    have h2 := List.length_filter_le keep gen
    omega
  simp only [List.nil_append, List.append_nil, List.length_nil, Nat.zero_add] at heq
  simp [pickFiltered, heq, pickerRange, hlen]

theorem pickFiltered_length_le (keep : Move → Bool) (gen l : List Move)
    (h : pickFiltered keep gen = Res.ok l) : l.length ≤ gen.length := by
  unfold pickFiltered at h
  split at h
  · rename_i buf last heq
    have hle := removeLoop_last_le keep _ _ _ _ _ _ heq
    unfold pickerRange at h
    split at h
    · injection h with h
      subst h
      simp only [List.length_take]
      omega
    · cases h
  · cases h

theorem pickFiltered_fuel (keep : Move → Bool) (gen : List Move) :
    pickFiltered keep gen ≠ Res.fault Fault.outOfFuel := by
  unfold pickFiltered
  split
  · unfold pickerRange
    split <;> simp
  · rename_i f heq
    intro hf
    injection hf with hf
    subst hf
    exact removeLoop_fuel keep _ _ _ _ (Nat.zero_le _) (by simp) heq

end Picker

/-! ## The loops of the search functions -/

section Loops

variable {Position Move CheckInfo Bitboard : Type}
variable (B : Board Position Move CheckInfo Bitboard)

theorem MovePicker_ok (hgen : GeneratorFits B) (or_node INCHECK : Bool) (pos : Position) :
    ∃ ml, MovePicker B or_node INCHECK pos = Res.ok ml := by
  unfold MovePicker
  split
  · split
    · obtain ⟨l, h, _⟩ := pickFiltered_sound
        (fun m => B.pseudoLegalMoveIsEvasion pos m (B.pinnedBB pos)) _ (hgen pos).1
      exact ⟨l, h⟩
    · exact ⟨(B.generateMovesCheck pos).take (B.generateMovesCheck pos).length,
        by simp [pickerRange, (hgen pos).1]⟩
  · obtain ⟨l, h, _⟩ := pickFiltered_sound
      (fun m => B.pseudoLegalMoveIsLegal pos m (B.pinnedBB pos)) _ (hgen pos).2
    exact ⟨l, h⟩

theorem MovePicker_fuel (or_node INCHECK : Bool) (pos : Position) :
    MovePicker B or_node INCHECK pos ≠ Res.fault Fault.outOfFuel := by
  unfold MovePicker
  split
  · split
    · exact pickFiltered_fuel _ _
    · unfold pickerRange
      split <;> simp
  · exact pickFiltered_fuel _ _

theorem mateMoveIn2PlyLoop_restores [DecidableEq Move] (hundo : UndoRestores B) (ci : CheckInfo)
    (ml : List Move) (pos : Position) : (mateMoveIn2PlyLoop B ci ml pos).2 = pos := by
  induction ml with
  | nil => rfl
  | cons m ms ih =>
    simp only [mateMoveIn2PlyLoop, hundo pos m ci false]
    split
    · rfl
    · split
      · rfl
      · exact ih

theorem mateMoveIn2PlyLoop_true_iff [DecidableEq Move] (hundo : UndoRestores B) (ci : CheckInfo)
    (ml : List Move) (pos : Position) :
    (mateMoveIn2PlyLoop B ci ml pos).1 = true ↔
      ∀ e ∈ ml, B.moveGivesCheck pos e ci = false ∧
        B.mateMoveIn1Ply (B.doMove pos e ci false) ≠ B.moveNone := by
  induction ml with
  | nil => simp [mateMoveIn2PlyLoop]
  | cons m ms ih =>
    simp only [mateMoveIn2PlyLoop, hundo pos m ci false, List.mem_cons, forall_eq_or_imp]
    by_cases hg : B.moveGivesCheck pos m ci = true
    · simp [hg]
    · by_cases h1 : B.mateMoveIn1Ply (B.doMove pos m ci false) = B.moveNone
      · simp [hg, h1]
      · have hg2 : B.moveGivesCheck pos m ci = false := by simpa using hg
        simp only [hg2, h1, if_false, Bool.false_eq_true]
        rw [ih]
        simp [h1]

theorem attackLoop_restores (hundo : UndoRestores B) (ci : CheckInfo)
    (child : Position → Res (Bool × Position))
    (hchild : ∀ p b p2, child p = Res.ok (b, p2) → p2 = p)
    (ml : List Move) (pos : Position) (b : Bool) (pos2 : Position)
    (h : attackLoop B ci child ml pos = Res.ok (b, pos2)) : pos2 = pos := by
  induction ml with
  | nil =>
    simp only [attackLoop] at h
    injection h with h
    injection h with _ h
    exact h.symm
  | cons m ms ih =>
    simp only [attackLoop] at h
    split at h
    · cases h
    · rename_i p2 hc
      have := hchild _ _ _ hc
      subst this
      rw [hundo] at h
      injection h with h
      injection h with _ h
      exact h.symm
    · rename_i p2 hc
      have := hchild _ _ _ hc
      subst this
      rw [hundo] at h
      exact ih h

theorem attackLoop_total (hundo : UndoRestores B) (ci : CheckInfo)
    (child : Position → Res (Bool × Position)) (ml : List Move) (pos : Position)
    (hchild : ∀ m ∈ ml, ∃ b, child (B.doMove pos m ci true) = Res.ok (b, B.doMove pos m ci true)) :
    ∃ b, attackLoop B ci child ml pos = Res.ok (b, pos) ∧
      (b = true ↔ ∃ m ∈ ml,
        child (B.doMove pos m ci true) = Res.ok (true, B.doMove pos m ci true)) := by
  induction ml with
  | nil => exact ⟨false, rfl, by simp⟩
  | cons m ms ih =>
    obtain ⟨b, hb⟩ := hchild m (List.mem_cons_self _ _)
    cases b with
    | true =>
      refine ⟨true, ?_, ?_⟩
      · simp [attackLoop, hb, hundo pos m ci true]
      · simp [hb]
    | false =>
      obtain ⟨b2, h2, hiff⟩ := ih (fun x hx => hchild x (List.mem_cons_of_mem _ hx))
      refine ⟨b2, ?_, ?_⟩
      · simp [attackLoop, hb, hundo pos m ci true, h2]
      · simp [hiff, hb]

theorem attackLoop_fuel (ci : CheckInfo) (child : Position → Res (Bool × Position))
    (hchild : ∀ p, child p ≠ Res.fault Fault.outOfFuel) (ml : List Move) :
    ∀ pos, attackLoop B ci child ml pos ≠ Res.fault Fault.outOfFuel := by
  induction ml with
  | nil => intro pos; simp [attackLoop]
  | cons m ms ih =>
    intro pos
    simp only [attackLoop]
    split
    · rename_i f hc
      intro hf
      injection hf with hf
      subst hf
      exact hchild _ hc
    · simp
    · exact ih _

theorem defendLoop_restores (hundo : UndoRestores B) (ci : CheckInfo)
    (attack : Bool → Position → Res (Bool × Position))
    (hattack : ∀ g p b p2, attack g p = Res.ok (b, p2) → p2 = p)
    (ml : List Move) (pos : Position) (b : Bool) (pos2 : Position)
    (h : defendLoop B ci attack ml pos = Res.ok (b, pos2)) : pos2 = pos := by
  induction ml with
  | nil =>
    simp only [defendLoop] at h
    injection h with h
    injection h with _ h
    exact h.symm
  | cons m ms ih =>
    simp only [defendLoop] at h
    split at h
    · cases h
    · rename_i p2 hc
      have := hattack _ _ _ _ hc
      subst this
      rw [hundo] at h
      injection h with h
      injection h with _ h
      exact h.symm
    · rename_i p2 hc
      have := hattack _ _ _ _ hc
      subst this
      rw [hundo] at h
      exact ih h

theorem defendLoop_total (hundo : UndoRestores B) (ci : CheckInfo)
    (attack : Bool → Position → Res (Bool × Position)) (ml : List Move) (pos : Position)
    (hattack : ∀ m ∈ ml, ∃ b,
      attack (B.moveGivesCheck pos m ci) (B.doMove pos m ci (B.moveGivesCheck pos m ci))
        = Res.ok (b, B.doMove pos m ci (B.moveGivesCheck pos m ci))) :
    ∃ b, defendLoop B ci attack ml pos = Res.ok (b, pos) ∧
      (b = true ↔ ∀ m ∈ ml,
        attack (B.moveGivesCheck pos m ci) (B.doMove pos m ci (B.moveGivesCheck pos m ci))
          = Res.ok (true, B.doMove pos m ci (B.moveGivesCheck pos m ci))) := by
  induction ml with
  | nil => exact ⟨true, rfl, by simp⟩
  | cons m ms ih =>
    obtain ⟨b, hb⟩ := hattack m (List.mem_cons_self _ _)
    cases b with
    | false =>
      refine ⟨false, ?_, ?_⟩
      · simp [defendLoop, hb, hundo pos m ci]
      · simp [hb]
    | true =>
      obtain ⟨b2, h2, hiff⟩ := ih (fun x hx => hattack x (List.mem_cons_of_mem _ hx))
      refine ⟨b2, ?_, ?_⟩
      · simp [defendLoop, hb, hundo pos m ci, h2]
      · simp [hiff, hb]

theorem defendLoop_fuel (ci : CheckInfo) (attack : Bool → Position → Res (Bool × Position))
    (hattack : ∀ g p, attack g p ≠ Res.fault Fault.outOfFuel) (ml : List Move) :
    ∀ pos, defendLoop B ci attack ml pos ≠ Res.fault Fault.outOfFuel := by
  induction ml with
  | nil => intro pos; simp [defendLoop]
  | cons m ms ih =>
    intro pos
    simp only [defendLoop]
    split
    · rename_i f hc
      intro hf
      injection hf with hf
      subst hf
      exact hattack _ _ hc
    · simp
    · exact ih _

theorem returnMoveLoop_restores (hundo : UndoRestores B) (ci : CheckInfo)
    (child : Position → Res (Bool × Position))
    (hchild : ∀ p b p2, child p = Res.ok (b, p2) → p2 = p)
    (ml : List Move) (pos : Position) (r : Move) (pos2 : Position)
    (h : returnMoveLoop B ci child ml pos = Res.ok (r, pos2)) : pos2 = pos := by
  induction ml with
  | nil =>
    simp only [returnMoveLoop] at h
    injection h with h
    injection h with _ h
    exact h.symm
  | cons m ms ih =>
    simp only [returnMoveLoop] at h
    split at h
    · split at h
      · cases h
      · rename_i p2 hc
        have := hchild _ _ _ hc
        subst this
        rw [hundo] at h
        injection h with h
        injection h with _ h
        exact h.symm
      · rename_i p2 hc
        have := hchild _ _ _ hc
        subst this
        rw [hundo] at h
        exact ih h
    all_goals first
      | (rw [hundo] at h; exact ih h)
      | cases h

/-- A move returned by the loop of the root entry is a candidate whose position is not a
repetition and on which the defender check succeeded. -/
theorem returnMoveLoop_sound (hundo : UndoRestores B) (ci : CheckInfo)
    (child : Position → Res (Bool × Position))
    (hchild : ∀ p b p2, child p = Res.ok (b, p2) → p2 = p)
    (ml : List Move) (pos : Position) (r : Move) (pos2 : Position)
    (h : returnMoveLoop B ci child ml pos = Res.ok (r, pos2)) (hr : r ≠ B.moveNone) :
    r ∈ ml ∧ B.isDraw (B.doMove pos r ci true) 16 = RepetitionType.NotRepetition ∧
      child (B.doMove pos r ci true) = Res.ok (true, B.doMove pos r ci true) := by
  induction ml with
  | nil =>
    simp only [returnMoveLoop] at h
    injection h with h
    injection h with h _
    exact absurd h.symm hr
  | cons m ms ih =>
    simp only [returnMoveLoop] at h
    split at h
    · rename_i hd
      split at h
      · cases h
      · rename_i p2 hc
        have := hchild _ _ _ hc
        subst this
        injection h with h
        injection h with h _
        subst h
        exact ⟨List.mem_cons_self _ _, hd, hc⟩
      · rename_i p2 hc
        have := hchild _ _ _ hc
        subst this
        rw [hundo] at h
        obtain ⟨h1, h2⟩ := ih h
        exact ⟨List.mem_cons_of_mem _ h1, h2⟩
    all_goals first
      | (rw [hundo] at h
         obtain ⟨h1, h2⟩ := ih h
         exact ⟨List.mem_cons_of_mem _ h1, h2⟩)
      | cases h

/-- The loop of the root entry returns the first candidate whose position is not a repetition
and on which the defender check succeeds, and `moveNone` when there is none. -/
theorem returnMoveLoop_total (hundo : UndoRestores B) (ci : CheckInfo)
    (child : Position → Res (Bool × Position)) (ml : List Move) (pos : Position)
    (hrange : ∀ m ∈ ml, ∀ raw, B.isDraw (B.doMove pos m ci true) 16 ≠ RepetitionType.other raw)
    (hchild : ∀ m ∈ ml, B.isDraw (B.doMove pos m ci true) 16 = RepetitionType.NotRepetition →
      ∃ b, child (B.doMove pos m ci true) = Res.ok (b, B.doMove pos m ci true)) :
    ∃ r, returnMoveLoop B ci child ml pos = Res.ok (r, pos) ∧
      ((∃ pre suf, ml = pre ++ r :: suf ∧
          (B.isDraw (B.doMove pos r ci true) 16 = RepetitionType.NotRepetition ∧
            child (B.doMove pos r ci true) = Res.ok (true, B.doMove pos r ci true)) ∧
          ∀ x ∈ pre, ¬ (B.isDraw (B.doMove pos x ci true) 16 = RepetitionType.NotRepetition ∧
            child (B.doMove pos x ci true) = Res.ok (true, B.doMove pos x ci true))) ∨
        (r = B.moveNone ∧
          ∀ x ∈ ml, ¬ (B.isDraw (B.doMove pos x ci true) 16 = RepetitionType.NotRepetition ∧
            child (B.doMove pos x ci true) = Res.ok (true, B.doMove pos x ci true)))) := by
  induction ml with
  | nil => exact ⟨B.moveNone, rfl, Or.inr ⟨rfl, by simp⟩⟩
  | cons m ms ih =>
    obtain ⟨r, hr, hcase⟩ := ih (fun x hx => hrange x (List.mem_cons_of_mem _ hx))
      (fun x hx => hchild x (List.mem_cons_of_mem _ hx))
    have hskip : ¬ (B.isDraw (B.doMove pos m ci true) 16 = RepetitionType.NotRepetition ∧
        child (B.doMove pos m ci true) = Res.ok (true, B.doMove pos m ci true)) →
        returnMoveLoop B ci child ms pos = returnMoveLoop B ci child (m :: ms) pos →
        ∃ r, returnMoveLoop B ci child (m :: ms) pos = Res.ok (r, pos) ∧
          ((∃ pre suf, m :: ms = pre ++ r :: suf ∧
            (B.isDraw (B.doMove pos r ci true) 16 = RepetitionType.NotRepetition ∧
              child (B.doMove pos r ci true) = Res.ok (true, B.doMove pos r ci true)) ∧
            ∀ x ∈ pre, ¬ (B.isDraw (B.doMove pos x ci true) 16 = RepetitionType.NotRepetition ∧
              child (B.doMove pos x ci true) = Res.ok (true, B.doMove pos x ci true))) ∨
          (r = B.moveNone ∧
            ∀ x ∈ m :: ms, ¬ (B.isDraw (B.doMove pos x ci true) 16 = RepetitionType.NotRepetition ∧
              child (B.doMove pos x ci true) = Res.ok (true, B.doMove pos x ci true)))) := by
      intro hbad heq
      refine ⟨r, heq ▸ hr, ?_⟩
      rcases hcase with ⟨pre, suf, hml, hgood, hpre⟩ | ⟨hnone, hall⟩
      · refine Or.inl ⟨m :: pre, suf, by simp [hml], hgood, ?_⟩
        intro x hx
        rcases List.mem_cons.mp hx with rfl | hx
        · exact hbad
        · exact hpre x hx
      · refine Or.inr ⟨hnone, ?_⟩
        intro x hx
        rcases List.mem_cons.mp hx with rfl | hx
        · exact hbad
        · exact hall x hx
    cases hd : B.isDraw (B.doMove pos m ci true) 16 with
    | NotRepetition =>
      obtain ⟨b, hb⟩ := hchild m (List.mem_cons_self _ _) hd
      cases b with
      | true =>
        refine ⟨m, by simp [returnMoveLoop, hd, hb, hundo pos m ci true], Or.inl ⟨[], ms, rfl, ⟨hd, hb⟩, by simp⟩⟩
      | false =>
        exact hskip (by simp [hb]) (by simp [returnMoveLoop, hd, hb, hundo pos m ci true])
    | other raw => exact absurd hd (hrange m (List.mem_cons_self _ _) raw)
    | RepetitionDraw => exact hskip (by simp [hd]) (by simp [returnMoveLoop, hd, hundo pos m ci true])
    | RepetitionWin => exact hskip (by simp [hd]) (by simp [returnMoveLoop, hd, hundo pos m ci true])
    | RepetitionLose => exact hskip (by simp [hd]) (by simp [returnMoveLoop, hd, hundo pos m ci true])
    | RepetitionSuperior =>
      exact hskip (by simp [hd]) (by simp [returnMoveLoop, hd, hundo pos m ci true])
    | RepetitionInferior =>
      exact hskip (by simp [hd]) (by simp [returnMoveLoop, hd, hundo pos m ci true])

/-- The loop of the root entry runs the defender check only on positions classified
`NotRepetition`: two checks that agree on those positions give the same run. -/
theorem returnMoveLoop_congr (ci : CheckInfo) (child child2 : Position → Res (Bool × Position))
    (hagree : ∀ p, B.isDraw p 16 = RepetitionType.NotRepetition → child p = child2 p)
    (ml : List Move) :
    ∀ pos, returnMoveLoop B ci child ml pos = returnMoveLoop B ci child2 ml pos := by
  induction ml with
  | nil => intro pos; rfl
  | cons m ms ih =>
    intro pos
    cases hd : B.isDraw (B.doMove pos m ci true) 16 with
    | NotRepetition => simp [returnMoveLoop, hd, ih, ← hagree _ hd]
    | RepetitionDraw => simp [returnMoveLoop, hd, ih]
    | RepetitionWin => simp [returnMoveLoop, hd, ih]
    | RepetitionLose => simp [returnMoveLoop, hd, ih]
    | RepetitionSuperior => simp [returnMoveLoop, hd, ih]
    | RepetitionInferior => simp [returnMoveLoop, hd, ih]
    | other raw => simp [returnMoveLoop, hd]

theorem returnMoveLoop_fuel (ci : CheckInfo) (child : Position → Res (Bool × Position))
    (hchild : ∀ p, child p ≠ Res.fault Fault.outOfFuel) (ml : List Move) :
    ∀ pos, returnMoveLoop B ci child ml pos ≠ Res.fault Fault.outOfFuel := by
  induction ml with
  | nil => intro pos; simp [returnMoveLoop]
  | cons m ms ih =>
    intro pos
    simp only [returnMoveLoop]
    split
    · split
      · rename_i f hc
        intro hf
        injection hf with hf
        subst hf
        exact hchild _ hc
      · simp
      · exact ih _
    all_goals first
      | exact ih _
      | simp

end Loops

/-! ## The search functions -/

section Search

variable {Position Move CheckInfo Bitboard : Type} [DecidableEq Move]
variable (B : Board Position Move CheckInfo Bitboard)

theorem mateMoveIn2Ply_restores (hundo : UndoRestores B) (pos : Position) (b : Bool)
    (pos2 : Position) (h : mateMoveIn2Ply B pos = Res.ok (b, pos2)) : pos2 = pos := by
  unfold mateMoveIn2Ply at h
  split at h
  · cases h
  · rename_i ml _
    injection h with h
    rw [← mateMoveIn2PlyLoop_restores B hundo (B.checkInfo pos) ml pos, h]

theorem mateMoveIn2Ply_total (hundo : UndoRestores B) (hgen : GeneratorFits B)
    (pos : Position) : ∃ b, mateMoveIn2Ply B pos = Res.ok (b, pos) := by
  obtain ⟨ml, hml⟩ := MovePicker_ok B hgen false false pos
  refine ⟨(mateMoveIn2PlyLoop B (B.checkInfo pos) ml pos).1, ?_⟩
  simp only [mateMoveIn2Ply, hml]
  congr 1
  exact Prod.ext rfl (mateMoveIn2PlyLoop_restores B hundo _ ml pos)

theorem mateMoveIn2Ply_fuel (pos : Position) :
    mateMoveIn2Ply B pos ≠ Res.fault Fault.outOfFuel := by
  unfold mateMoveIn2Ply
  split
  · rename_i f hf
    intro h
    injection h with h
    subst h
    exact MovePicker_fuel B _ _ _ hf
  · simp

theorem mateMoveIn3Ply_restores (hundo : UndoRestores B) (INCHECK : Bool) (pos : Position)
    (b : Bool) (pos2 : Position) (h : mateMoveIn3Ply B INCHECK pos = Res.ok (b, pos2)) :
    pos2 = pos := by
  unfold mateMoveIn3Ply at h
  split at h
  · cases h
  · exact attackLoop_restores B hundo _ _ (mateMoveIn2Ply_restores B hundo) _ _ _ _ h

theorem mateMoveIn3Ply_total (hundo : UndoRestores B) (hgen : GeneratorFits B)
    (INCHECK : Bool) (pos : Position) : ∃ b, mateMoveIn3Ply B INCHECK pos = Res.ok (b, pos) := by
  obtain ⟨ml, hml⟩ := MovePicker_ok B hgen true INCHECK pos
  obtain ⟨b, hb, _⟩ := attackLoop_total B hundo (B.checkInfo pos) (mateMoveIn2Ply B) ml pos
    (fun m _ => mateMoveIn2Ply_total B hundo hgen _)
  exact ⟨b, by simp only [mateMoveIn3Ply, hml, hb]⟩

theorem mateMoveIn3Ply_fuel (INCHECK : Bool) (pos : Position) :
    mateMoveIn3Ply B INCHECK pos ≠ Res.fault Fault.outOfFuel := by
  unfold mateMoveIn3Ply
  split
  · rename_i f hf
    intro h
    injection h with h
    subst h
    exact MovePicker_fuel B _ _ _ hf
  · exact attackLoop_fuel B _ _ (mateMoveIn2Ply_fuel B) _ _

/-- Every returning call of the two recursors leaves the position it was given. -/
theorem recursors_restore (hundo : UndoRestores B) :
    ∀ fuel : Nat,
      (∀ (INCHECK : Bool) (pos : Position) (depth : Int) (b : Bool) (pos2 : Position),
        mateMoveInOddPly B fuel INCHECK pos depth = Res.ok (b, pos2) → pos2 = pos) ∧
      (∀ (pos : Position) (depth : Int) (b : Bool) (pos2 : Position),
        mateMoveInEvenPly B fuel pos depth = Res.ok (b, pos2) → pos2 = pos) := by
  intro fuel
  induction fuel with
  | zero =>
    constructor
    · intro INCHECK pos depth b pos2 h
      simp [mateMoveInOddPly] at h
    · intro pos depth b pos2 h
      simp [mateMoveInEvenPly] at h
  | succ fuel ih =>
    constructor
    · intro INCHECK pos depth b pos2 h
      rw [mateMoveInOddPly] at h
      split at h
      · cases h
      · exact attackLoop_restores B hundo _ _ (fun p b p2 hp => ih.2 p _ b p2 hp) _ _ _ _ h
    · intro pos depth b pos2 h
      rw [mateMoveInEvenPly] at h
      split at h
      · cases h
      · refine defendLoop_restores B hundo _ _ ?_ _ _ _ _ h
        intro g p b p2 hp
        split at hp
        · exact mateMoveIn3Ply_restores B hundo _ _ _ _ hp
        · exact ih.1 _ _ _ _ _ hp

/-- At an even depth from 4 on (defender) or an odd depth from 5 on (attacker), a call with
fuel at least `depth - 3` returns a value and leaves the position it was given. -/
theorem recursors_total (hundo : UndoRestores B) (hgen : GeneratorFits B) :
    ∀ fuel : Nat,
      (∀ (INCHECK : Bool) (pos : Position) (depth : Int), 5 ≤ depth → depth % 2 = 1 →
        depth ≤ fuel + 3 → ∃ b, mateMoveInOddPly B fuel INCHECK pos depth = Res.ok (b, pos)) ∧
      (∀ (pos : Position) (depth : Int), 4 ≤ depth → depth % 2 = 0 →
        depth ≤ fuel + 3 → ∃ b, mateMoveInEvenPly B fuel pos depth = Res.ok (b, pos)) := by
  intro fuel
  induction fuel with
  | zero =>
    constructor
    · intro _ _ depth h1 _ h3
      omega
    · intro _ depth h1 _ h3
      omega
  | succ fuel ih =>
    constructor
    · intro INCHECK pos depth h1 h2 h3
      obtain ⟨ml, hml⟩ := MovePicker_ok B hgen true INCHECK pos
      obtain ⟨b, hb, _⟩ := attackLoop_total B hundo (B.checkInfo pos)
        (fun p => mateMoveInEvenPly B fuel p (depth - 1)) ml pos
        (fun m _ => ih.2 _ (depth - 1) (by omega) (by omega) (by push_cast at h3 ⊢; omega))
      exact ⟨b, by rw [mateMoveInOddPly]; simp only [hml, hb]⟩
    · intro pos depth h1 h2 h3
      obtain ⟨ml, hml⟩ := MovePicker_ok B hgen false false pos
      obtain ⟨b, hb, _⟩ := defendLoop_total B hundo (B.checkInfo pos)
        (fun givesCheck p =>
          if depth = 4 then mateMoveIn3Ply B givesCheck p
          else mateMoveInOddPly B fuel givesCheck p (depth - 1)) ml pos
        (by
          intro m _
          by_cases hd : depth = 4
          · simp only [hd, if_true]
            exact mateMoveIn3Ply_total B hundo hgen _ _
          · simp only [hd, if_false]
            exact ih.1 _ _ (depth - 1) (by omega) (by omega) (by push_cast at h3 ⊢; omega))
      exact ⟨b, by rw [mateMoveInEvenPly]; simp only [hml, hb]⟩

/-- At an even depth from 4 on (defender) or an odd depth from 5 on (attacker), a call with
fuel at least `depth - 3` does not run out of fuel, whatever the board does. -/
theorem recursors_fuel :
    ∀ fuel : Nat,
      (∀ (INCHECK : Bool) (pos : Position) (depth : Int), 5 ≤ depth → depth % 2 = 1 →
        depth ≤ fuel + 3 → mateMoveInOddPly B fuel INCHECK pos depth ≠ Res.fault Fault.outOfFuel) ∧
      (∀ (pos : Position) (depth : Int), 4 ≤ depth → depth % 2 = 0 →
        depth ≤ fuel + 3 → mateMoveInEvenPly B fuel pos depth ≠ Res.fault Fault.outOfFuel) := by
  intro fuel
  induction fuel with
  | zero =>
    constructor
    · intro _ _ depth h1 _ h3
      omega
    · intro _ depth h1 _ h3
      omega
  | succ fuel ih =>
    constructor
    · intro INCHECK pos depth h1 h2 h3
      rw [mateMoveInOddPly]
      split
      · rename_i f hf
        intro h
        injection h with h
        subst h
        exact MovePicker_fuel B _ _ _ hf
      · exact attackLoop_fuel B _ _
          (fun p => ih.2 p (depth - 1) (by omega) (by omega) (by push_cast at h3 ⊢; omega)) _ _
    · intro pos depth h1 h2 h3
      rw [mateMoveInEvenPly]
      split
      · rename_i f hf
        intro h
        injection h with h
        subst h
        exact MovePicker_fuel B _ _ _ hf
      · refine defendLoop_fuel B _ _ ?_ _ _
        intro g p
        by_cases hd : depth = 4
        · simp only [hd, if_true]
          exact mateMoveIn3Ply_fuel B _ _
        · simp only [hd, if_false]
          exact ih.1 _ _ (depth - 1) (by omega) (by omega) (by push_cast at h3 ⊢; omega)

theorem root_restores (hundo : UndoRestores B) (fuel : Nat) (pos : Position) (depth : Int)
    (r : Move) (pos2 : Position)
    (h : mateMoveInOddPlyReturnMove B fuel pos depth = Res.ok (r, pos2)) : pos2 = pos := by
  cases fuel with
  | zero => simp [mateMoveInOddPlyReturnMove] at h
  | succ fuel =>
    rw [mateMoveInOddPlyReturnMove] at h
    split at h
    · cases h
    · exact returnMoveLoop_restores B hundo _ _
        (fun p b p2 hp => (recursors_restore B hundo fuel).2 p _ b p2 hp) _ _ _ _ h

theorem root_fuel (fuel : Nat) (pos : Position) (depth : Int) (h5 : 5 ≤ depth)
    (hodd : depth % 2 = 1) (hfuel : depth ≤ fuel + 3) :
    mateMoveInOddPlyReturnMove B fuel pos depth ≠ Res.fault Fault.outOfFuel := by
  cases fuel with
  | zero => omega
  | succ fuel =>
    rw [mateMoveInOddPlyReturnMove]
    split
    · rename_i f hf
      intro h
      injection h with h
      subst h
      exact MovePicker_fuel B _ _ _ hf
    · exact returnMoveLoop_fuel B _ _
        (fun p => (recursors_fuel B fuel).2 p (depth - 1) (by omega) (by omega)
          (by push_cast at hfuel ⊢; omega)) _ _

end Search

/-! ## Facts about the two boards -/

theorem demo_undo : UndoRestores demo := fun _ _ _ _ => rfl

theorem demo_gen : GeneratorFits demo := by
  intro pos
  constructor
  · show (demoCheck pos).length ≤ MaxCheckMoves
    unfold demoCheck
    split <;> decide
  · show (demoEvasion pos).length ≤ MaxCheckMoves
    unfold demoEvasion
    split <;> decide

theorem demo_range : ClassifierInRange demo := by
  intro pos n raw
  show demoDraw pos ≠ _
  unfold demoDraw
  split <;> simp

theorem chase_picker (or_node INCHECK : Bool) (pos : Nat) :
    MovePicker chase or_node INCHECK pos = Res.ok [1] := by
  cases or_node <;> cases INCHECK <;> rfl

/-- On the perpetual check, a recursor called at a depth below 4 runs out of any fuel. -/
theorem chase_diverges :
    ∀ fuel : Nat,
      (∀ (INCHECK : Bool) (pos : Nat) (depth : Int), depth < 4 →
        mateMoveInOddPly chase fuel INCHECK pos depth = Res.fault Fault.outOfFuel) ∧
      (∀ (pos : Nat) (depth : Int), depth < 4 →
        mateMoveInEvenPly chase fuel pos depth = Res.fault Fault.outOfFuel) := by
  intro fuel
  induction fuel with
  | zero => exact ⟨fun _ _ _ _ => rfl, fun _ _ _ => rfl⟩
  | succ fuel ih =>
    constructor
    · intro INCHECK pos depth hd
      rw [mateMoveInOddPly, chase_picker]
      simp only [attackLoop, ih.2 _ (depth - 1) (by omega)]
    · intro pos depth hd
      have h4 : depth ≠ 4 := by omega
      rw [mateMoveInEvenPly, chase_picker]
      simp only [defendLoop, if_neg h4, ih.1 _ _ (depth - 1) (by omega)]

theorem chase_root_diverges (fuel : Nat) (pos : Nat) (depth : Int) (hd : depth < 5) :
    mateMoveInOddPlyReturnMove chase fuel pos depth = Res.fault Fault.outOfFuel := by
  cases fuel with
  | zero => rfl
  | succ fuel =>
    rw [mateMoveInOddPlyReturnMove, chase_picker]
    have hdraw : chase.isDraw (chase.doMove pos 1 (chase.checkInfo pos) true) 16
        = RepetitionType.NotRepetition := rfl
    simp only [returnMoveLoop, hdraw, (chase_diverges fuel).2 _ (depth - 1) (by omega)]

/-! ## The claims -/

section Claims

variable {Position Move CheckInfo Bitboard : Type} [DecidableEq Move]

/-- Claim C1 (root soundness): if `mateMoveInOddPlyReturnMove(P, N)` returns a move `m` other
than `Move::moveNone()`, then `m` is one of the candidates of `MovePicker<true,false>(P)`, the
position obtained by applying `m` to `P` is classified `NotRepetition` by `isDraw(16)`, and
`mateMoveInEvenPly` returns `true` on that position at depth `N - 1`. This holds for every
depth `N`, odd or not, when `undoMove` reverses `doMove`. -/
theorem c1_root_soundness (B : Board Position Move CheckInfo Bitboard) (hundo : UndoRestores B)
    (fuel : Nat) (P : Position) (N : Int) (m : Move) (P2 : Position)
    (hret : mateMoveInOddPlyReturnMove B (fuel + 1) P N = Res.ok (m, P2))
    (hm : m ≠ B.moveNone) :
    ∃ ml, MovePicker B true false P = Res.ok ml ∧ m ∈ ml ∧
      B.isDraw (afterAttack B P m) 16 = RepetitionType.NotRepetition ∧
      mateMoveInEvenPly B fuel (afterAttack B P m) (N - 1)
        = Res.ok (true, afterAttack B P m) := by
  rw [mateMoveInOddPlyReturnMove] at hret
  split at hret
  · cases hret
  · rename_i ml hml
    exact ⟨ml, hml, returnMoveLoop_sound B hundo _ _
      (fun p b p2 hp => (recursors_restore B hundo fuel).2 p _ b p2 hp) _ _ _ _ hret hm⟩

/-- On `demo` the root entry at depth 5 returns the move 2, which is a candidate, leads to a
position that is not a repetition, and passes the defender check at depth 4. -/
theorem c1_root_soundness_witness :
    mateMoveInOddPlyReturnMove demo 3 [] 5 = Res.ok (2, []) ∧
      ∃ ml, MovePicker demo true false [] = Res.ok ml ∧ 2 ∈ ml ∧
        demo.isDraw [2] 16 = RepetitionType.NotRepetition ∧
        mateMoveInEvenPly demo 2 [2] 4 = Res.ok (true, [2]) :=
  ⟨by decide, c1_root_soundness demo demo_undo 2 [] 5 2 [] (by decide) (by decide)⟩

/-- Claim C2, as stated for every depth, fails at depth 3: on the perpetual check the root
entry called at depth 3 calls `mateMoveInEvenPly` at depth 2, which never meets `depth == 4`,
so no amount of fuel lets the call return. -/
theorem c2_root_depth3_counterexample :
    ¬ ∃ fuel : Nat, mateMoveInOddPlyReturnMove chase fuel 0 3 ≠ Res.fault Fault.outOfFuel :=
  fun ⟨fuel, h⟩ => h (chase_root_diverges fuel 0 3 (by decide))

/-- Claim C2 (root entry result and repetition exclusion), amended to odd depths from 5 on:
with `undoMove` reversing `doMove`, the generator within the buffer and the classifier within
its enumeration, `mateMoveInOddPlyReturnMove(P, N)` returns, with `P` restored, the first
candidate of `MovePicker<true,false>(P)` in list order whose position is `NotRepetition` and
on which `mateMoveInEvenPly` at `N - 1` is `true`, and `moveNone` when there is no such
candidate. When `moveNone` is not itself a candidate, it is returned exactly when no candidate
wins, and a candidate whose position is a repetition is never returned. The defender check is
run only on positions classified `NotRepetition`: replacing it by any check that agrees with it
on those positions gives the same run. -/
theorem c2_root_first_winner (B : Board Position Move CheckInfo Bitboard)
    (hundo : UndoRestores B) (hgen : GeneratorFits B) (hrange : ClassifierInRange B)
    (P : Position) (N : Int) (h5 : 5 ≤ N) (hodd : N % 2 = 1) (fuel : Nat)
    (hfuel : N ≤ fuel + 4) :
    ∃ ml r, MovePicker B true false P = Res.ok ml ∧
      mateMoveInOddPlyReturnMove B (fuel + 1) P N = Res.ok (r, P) ∧
      ((∃ pre suf, ml = pre ++ r :: suf ∧ RootWins B fuel P N r ∧
          ∀ x ∈ pre, ¬ RootWins B fuel P N x) ∨
        (r = B.moveNone ∧ ∀ x ∈ ml, ¬ RootWins B fuel P N x)) ∧
      (B.moveNone ∉ ml → (r = B.moveNone ↔ ∀ x ∈ ml, ¬ RootWins B fuel P N x)) ∧
      (B.moveNone ∉ ml → ∀ x ∈ ml,
        B.isDraw (afterAttack B P x) 16 ≠ RepetitionType.NotRepetition → r ≠ x) ∧
      (∀ child2 : Position → Res (Bool × Position),
        (∀ p, B.isDraw p 16 = RepetitionType.NotRepetition →
          mateMoveInEvenPly B fuel p (N - 1) = child2 p) →
        returnMoveLoop B (B.checkInfo P) child2 ml P = Res.ok (r, P)) := by
  obtain ⟨ml, hml⟩ := MovePicker_ok B hgen true false P
  obtain ⟨r, hr, hcase⟩ := returnMoveLoop_total B hundo (B.checkInfo P)
    (fun p => mateMoveInEvenPly B fuel p (N - 1)) ml P
    (fun m _ raw => hrange _ _ raw)
    (fun m _ _ => (recursors_total B hundo hgen fuel).2 _ (N - 1) (by omega) (by omega)
      (by omega))
  have hcase2 : (∃ pre suf, ml = pre ++ r :: suf ∧ RootWins B fuel P N r ∧
        ∀ x ∈ pre, ¬ RootWins B fuel P N x) ∨
      (r = B.moveNone ∧ ∀ x ∈ ml, ¬ RootWins B fuel P N x) := hcase
  refine ⟨ml, r, hml, ?_, hcase2, ?_, ?_, ?_⟩
  · rw [mateMoveInOddPlyReturnMove]
    simp only [hml, hr]
  · intro hnone
    rcases hcase2 with ⟨pre, suf, hsplit, hwin, _⟩ | ⟨hnil, hall⟩
    · have hmem : r ∈ ml := by rw [hsplit]; simp
      constructor
      · intro h
        exact absurd (h ▸ hmem) hnone
      · intro h
        exact absurd hwin (h r hmem)
    · exact ⟨fun _ => hall, fun _ => hnil⟩
  · intro hnone x hx hrep hrx
    rcases hcase2 with ⟨pre, suf, _, hwin, _⟩ | ⟨hnil, _⟩
    · exact hrep (hrx ▸ hwin.1)
    · exact hnone (hnil ▸ hrx ▸ hx)
  · intro child2 hagree
    rw [← returnMoveLoop_congr B (B.checkInfo P) _ child2 hagree ml P]
    exact hr

/-- On `demo` at depth 5 the candidates are 7, 1 and 2: the root entry skips 7 (a repetition)
and 1 (refuted) and returns 2, not `moveNone`, since the candidate 2 wins. -/
theorem c2_root_first_winner_witness :
    UndoRestores demo ∧ GeneratorFits demo ∧ ClassifierInRange demo ∧
      MovePicker demo true false [] = Res.ok [7, 1, 2] ∧
      demo.isDraw (afterAttack demo [] 7) 16 = RepetitionType.RepetitionDraw ∧
      ∃ r, mateMoveInOddPlyReturnMove demo 3 [] 5 = Res.ok (r, []) ∧
        ((∃ pre suf, [7, 1, 2] = pre ++ r :: suf ∧ RootWins demo 2 [] 5 r ∧
            ∀ x ∈ pre, ¬ RootWins demo 2 [] 5 x) ∨
          (r = demo.moveNone ∧ ∀ x ∈ [7, 1, 2], ¬ RootWins demo 2 [] 5 x)) ∧
        (r = demo.moveNone ↔ ∀ x ∈ [7, 1, 2], ¬ RootWins demo 2 [] 5 x) ∧
        r ≠ 7 := by
  have hpick : MovePicker demo true false [] = Res.ok [7, 1, 2] := by decide
  obtain ⟨ml, r, hml, hroot, hfirst, hnone, hrep, _⟩ :=
    c2_root_first_winner demo demo_undo demo_gen demo_range [] 5 (by decide) (by decide) 2
      (by decide)
  rw [hpick] at hml
  injection hml with hml
  subst hml
  exact ⟨demo_undo, demo_gen, demo_range, hpick, by decide, r, hroot, hfirst,
    hnone (by decide), hrep (by decide) 7 (by decide) (by decide)⟩

/-- Claim C3 (position restoration): when `undoMove` reverses `doMove`, every returning call
of `mateMoveIn2Ply`, `mateMoveIn3Ply<INCHECK>`, `mateMoveInOddPly<INCHECK>`,
`mateMoveInEvenPly` and `mateMoveInOddPlyReturnMove` leaves the position it was called with;
consequently running the same search again on the position left behind gives the same
result. -/
theorem c3_position_restored (B : Board Position Move CheckInfo Bitboard)
    (hundo : UndoRestores B) :
    (∀ pos b pos2, mateMoveIn2Ply B pos = Res.ok (b, pos2) →
      pos2 = pos ∧ mateMoveIn2Ply B pos2 = Res.ok (b, pos2)) ∧
    (∀ INCHECK pos b pos2, mateMoveIn3Ply B INCHECK pos = Res.ok (b, pos2) →
      pos2 = pos ∧ mateMoveIn3Ply B INCHECK pos2 = Res.ok (b, pos2)) ∧
    (∀ fuel INCHECK pos depth b pos2,
      mateMoveInOddPly B fuel INCHECK pos depth = Res.ok (b, pos2) →
      pos2 = pos ∧ mateMoveInOddPly B fuel INCHECK pos2 depth = Res.ok (b, pos2)) ∧
    (∀ fuel pos depth b pos2, mateMoveInEvenPly B fuel pos depth = Res.ok (b, pos2) →
      pos2 = pos ∧ mateMoveInEvenPly B fuel pos2 depth = Res.ok (b, pos2)) ∧
    (∀ fuel pos depth r pos2, mateMoveInOddPlyReturnMove B fuel pos depth = Res.ok (r, pos2) →
      pos2 = pos ∧ mateMoveInOddPlyReturnMove B fuel pos2 depth = Res.ok (r, pos2)) := by
  refine ⟨?_, ?_, ?_, ?_, ?_⟩
  · intro pos b pos2 h
    have := mateMoveIn2Ply_restores B hundo pos b pos2 h
    subst this
    exact ⟨rfl, h⟩
  · intro INCHECK pos b pos2 h
    have := mateMoveIn3Ply_restores B hundo INCHECK pos b pos2 h
    subst this
    exact ⟨rfl, h⟩
  · intro fuel INCHECK pos depth b pos2 h
    have := (recursors_restore B hundo fuel).1 INCHECK pos depth b pos2 h
    subst this
    exact ⟨rfl, h⟩
  · intro fuel pos depth b pos2 h
    have := (recursors_restore B hundo fuel).2 pos depth b pos2 h
    subst this
    exact ⟨rfl, h⟩
  · intro fuel pos depth r pos2 h
    have := root_restores B hundo fuel pos depth r pos2 h
    subst this
    exact ⟨rfl, h⟩

/-- On `demo` the five searches return and leave the position they were called with. -/
theorem c3_position_restored_witness :
    UndoRestores demo ∧
      mateMoveIn2Ply demo [5, 3, 1] = Res.ok (true, [5, 3, 1]) ∧
      mateMoveIn3Ply demo false [3, 1] = Res.ok (true, [3, 1]) ∧
      mateMoveInOddPly demo 2 true [] 5 = Res.ok (true, []) ∧
      mateMoveInEvenPly demo 1 [1] 4 = Res.ok (false, [1]) ∧
      mateMoveInOddPlyReturnMove demo 3 [] 5 = Res.ok (2, []) :=
  have h := c3_position_restored demo demo_undo
  ⟨demo_undo,
    (h.1 [5, 3, 1] true [5, 3, 1] (by decide)).2,
    (h.2.1 false [3, 1] true [3, 1] (by decide)).2,
    (h.2.2.1 2 true [] 5 true [] (by decide)).2,
    (h.2.2.2.1 1 [1] 4 false [1] (by decide)).2,
    (h.2.2.2.2 3 [] 5 2 [] (by decide)).2⟩

/-- Claim C4 (defender node): for every even depth `d >= 4`, with `undoMove` reversing
`doMove`, the generator within the buffer and fuel for `d - 3` nested calls,
`mateMoveInEvenPly(P, d)` returns, with `P` restored, `true` exactly when for every evasion
`e` of `MovePicker<false,false>(P)` the attacker sub-search succeeds on the position after
`e`: `mateMoveIn3Ply` when `d == 4` and `mateMoveInOddPly` at `d - 1` otherwise, in the
variant `INCHECK = moveGivesCheck(e)`. One evasion whose sub-search does not succeed makes the
node return `false`, wherever it stands in the list. -/
theorem c4_defender_node (B : Board Position Move CheckInfo Bitboard) (hundo : UndoRestores B)
    (hgen : GeneratorFits B) (P : Position) (d : Int) (h4 : 4 ≤ d) (heven : d % 2 = 0)
    (fuel : Nat) (hfuel : d ≤ fuel + 4) :
    ∃ ml b, MovePicker B false false P = Res.ok ml ∧
      mateMoveInEvenPly B (fuel + 1) P d = Res.ok (b, P) ∧
      (b = true ↔ ∀ e ∈ ml,
        evenSubSearch B fuel d (evasionGivesCheck B P e) (afterEvasion B P e)
          = Res.ok (true, afterEvasion B P e)) ∧
      (∀ e ∈ ml, evenSubSearch B fuel d (evasionGivesCheck B P e) (afterEvasion B P e)
          ≠ Res.ok (true, afterEvasion B P e) → b = false) := by
  obtain ⟨ml, hml⟩ := MovePicker_ok B hgen false false P
  obtain ⟨b, hb, hiff⟩ := defendLoop_total B hundo (B.checkInfo P)
    (fun givesCheck p => evenSubSearch B fuel d givesCheck p) ml P
    (by
      intro m _
      unfold evenSubSearch
      by_cases hd : d = 4
      · simp only [hd, if_true]
        exact mateMoveIn3Ply_total B hundo hgen _ _
      · simp only [hd, if_false]
        exact (recursors_total B hundo hgen fuel).1 _ _ (d - 1) (by omega) (by omega)
          (by omega))
  refine ⟨ml, b, hml, ?_, hiff, ?_⟩
  · rw [mateMoveInEvenPly]
    simp only [hml]
    exact hb
  · intro e he hfail
    cases b with
    | false => rfl
    | true => exact absurd (hiff.mp rfl e he) hfail

/-- On `demo` the defender node at depth 4 after the check 1 has the evasions 3 and 4; the
sub-search succeeds after 3 and fails after 4, and the node returns `false`. -/
theorem c4_defender_node_witness :
    MovePicker demo false false [1] = Res.ok [3, 4] ∧
      mateMoveIn3Ply demo false [3, 1] = Res.ok (true, [3, 1]) ∧
      mateMoveIn3Ply demo false [4, 1] = Res.ok (false, [4, 1]) ∧
      ∃ ml b, MovePicker demo false false [1] = Res.ok ml ∧
        mateMoveInEvenPly demo (0 + 1) [1] 4 = Res.ok (b, [1]) ∧
        (b = true ↔ ∀ e ∈ ml,
          evenSubSearch demo 0 4 (evasionGivesCheck demo [1] e) (afterEvasion demo [1] e)
            = Res.ok (true, afterEvasion demo [1] e)) ∧
        (∀ e ∈ ml,
          evenSubSearch demo 0 4 (evasionGivesCheck demo [1] e) (afterEvasion demo [1] e)
            ≠ Res.ok (true, afterEvasion demo [1] e) → b = false) :=
  ⟨by decide, by decide, by decide,
    c4_defender_node demo demo_undo demo_gen [1] 4 (by decide) (by decide) 0 (by decide)⟩

/-- Claim C5 (attacker node): for every odd depth `d >= 5` and both values of `INCHECK`, with
`undoMove` reversing `doMove`, the generator within the buffer and fuel for `d - 3` nested
calls, `mateMoveInOddPly<INCHECK>(P, d)` returns, with `P` restored, `true` exactly when some
candidate `m` of `MovePicker<true,INCHECK>(P)` has `mateMoveInEvenPly` return `true` at depth
`d - 1` on the position after `m`. One winning candidate makes the node return `true`,
wherever it stands in the list. -/
theorem c5_attacker_node (B : Board Position Move CheckInfo Bitboard) (hundo : UndoRestores B)
    (hgen : GeneratorFits B) (INCHECK : Bool) (P : Position) (d : Int) (h5 : 5 ≤ d)
    (hodd : d % 2 = 1) (fuel : Nat) (hfuel : d ≤ fuel + 4) :
    ∃ ml b, MovePicker B true INCHECK P = Res.ok ml ∧
      mateMoveInOddPly B (fuel + 1) INCHECK P d = Res.ok (b, P) ∧
      (b = true ↔ ∃ m ∈ ml,
        mateMoveInEvenPly B fuel (afterAttack B P m) (d - 1)
          = Res.ok (true, afterAttack B P m)) ∧
      (∀ m ∈ ml, mateMoveInEvenPly B fuel (afterAttack B P m) (d - 1)
          = Res.ok (true, afterAttack B P m) → b = true) := by
  obtain ⟨ml, hml⟩ := MovePicker_ok B hgen true INCHECK P
  obtain ⟨b, hb, hiff⟩ := attackLoop_total B hundo (B.checkInfo P)
    (fun p => mateMoveInEvenPly B fuel p (d - 1)) ml P
    (fun m _ => (recursors_total B hundo hgen fuel).2 _ (d - 1) (by omega) (by omega)
      (by omega))
  refine ⟨ml, b, hml, ?_, hiff, fun m hm hwin => hiff.mpr ⟨m, hm, hwin⟩⟩
  rw [mateMoveInOddPly]
  simp only [hml]
  exact hb

/-- On `demo` the attacker node at depth 5 has the candidates 7, 1 and 2; the candidate 1 is
refuted, and the node returns `true`. -/
theorem c5_attacker_node_witness :
    MovePicker demo true false [] = Res.ok [7, 1, 2] ∧
      mateMoveInEvenPly demo 1 [1] 4 = Res.ok (false, [1]) ∧
      mateMoveInEvenPly demo 1 [2] 4 = Res.ok (true, [2]) ∧
      ∃ ml b, MovePicker demo true false [] = Res.ok ml ∧
        mateMoveInOddPly demo (1 + 1) false [] 5 = Res.ok (b, []) ∧
        (b = true ↔ ∃ m ∈ ml,
          mateMoveInEvenPly demo 1 (afterAttack demo [] m) (5 - 1)
            = Res.ok (true, afterAttack demo [] m)) ∧
        (∀ m ∈ ml, mateMoveInEvenPly demo 1 (afterAttack demo [] m) (5 - 1)
            = Res.ok (true, afterAttack demo [] m) → b = true) :=
  ⟨by decide, by decide, by decide,
    c5_attacker_node demo demo_undo demo_gen false [] 5 (by decide) (by decide) 1 (by decide)⟩

/-- Claim C6, as stated from depth 3 on, fails at depth 3: on the perpetual check
`mateMoveInOddPly` called at depth 3 calls `mateMoveInEvenPly` at depth 2, which never meets
`depth == 4`; the depth goes on decreasing below the leaf checks and no amount of fuel lets
the call end. -/
theorem c6_depth3_counterexample :
    ¬ ∃ fuel : Nat, mateMoveInOddPly chase fuel false 0 3 ≠ Res.fault Fault.outOfFuel :=
  fun ⟨fuel, h⟩ => h ((chase_diverges fuel).1 false 0 3 (by decide))

/-- Claim C6 (termination of the attacker recursor), amended to odd depths from 5 on: for
every board, whatever its generator returns, a call of `mateMoveInOddPly` or of
`mateMoveInOddPlyReturnMove` at an odd depth `d >= 5` never needs a chain of more than `d - 3`
nested calls of the depth-parameterised functions (depths `d`, `d - 1`, ..., `4`), below which
come `mateMoveIn3Ply`, `mateMoveIn2Ply` and the one-ply oracle: `d` levels in all. When the
collaborators meet their contracts the call returns a value. -/
theorem c6_attacker_terminates (B : Board Position Move CheckInfo Bitboard) (INCHECK : Bool)
    (P : Position) (d : Int) (h5 : 5 ≤ d) (hodd : d % 2 = 1) (fuel : Nat)
    (hfuel : d ≤ fuel + 3) :
    mateMoveInOddPly B fuel INCHECK P d ≠ Res.fault Fault.outOfFuel ∧
      mateMoveInOddPlyReturnMove B fuel P d ≠ Res.fault Fault.outOfFuel ∧
      (UndoRestores B → GeneratorFits B →
        ∃ b, mateMoveInOddPly B fuel INCHECK P d = Res.ok (b, P)) ∧
      (UndoRestores B → GeneratorFits B → ClassifierInRange B →
        ∃ r, mateMoveInOddPlyReturnMove B fuel P d = Res.ok (r, P)) := by
  refine ⟨(recursors_fuel B fuel).1 INCHECK P d h5 hodd hfuel, root_fuel B fuel P d h5 hodd hfuel,
    fun hundo hgen => (recursors_total B hundo hgen fuel).1 INCHECK P d h5 hodd hfuel, ?_⟩
  intro hundo hgen hrange
  cases fuel with
  | zero => omega
  | succ fuel =>
    obtain ⟨ml, hml⟩ := MovePicker_ok B hgen true false P
    obtain ⟨r, hr, _⟩ := returnMoveLoop_total B hundo (B.checkInfo P)
      (fun p => mateMoveInEvenPly B fuel p (d - 1)) ml P
      (fun m _ raw => hrange _ _ raw)
      (fun m _ _ => (recursors_total B hundo hgen fuel).2 _ (d - 1) (by omega) (by omega)
        (by push_cast at hfuel ⊢; omega))
    exact ⟨r, by rw [mateMoveInOddPlyReturnMove]; simp only [hml, hr]⟩

/-- On `demo` at depth 5 two units of fuel are enough for both attacker entries. -/
theorem c6_attacker_terminates_witness :
    mateMoveInOddPly demo 2 false [] 5 ≠ Res.fault Fault.outOfFuel ∧
      mateMoveInOddPlyReturnMove demo 2 [] 5 ≠ Res.fault Fault.outOfFuel ∧
      (∃ b, mateMoveInOddPly demo 2 false [] 5 = Res.ok (b, [])) ∧
      (∃ r, mateMoveInOddPlyReturnMove demo 2 [] 5 = Res.ok (r, [])) :=
  have h := c6_attacker_terminates demo false [] 5 (by decide) (by decide) 2 (by decide)
  ⟨h.1, h.2.1, h.2.2.1 demo_undo demo_gen, h.2.2.2 demo_undo demo_gen demo_range⟩

/-- Claim C7 (two-ply defender check): with `undoMove` reversing `doMove` and the generator
within the buffer, `mateMoveIn2Ply(P)` returns, with `P` restored, `true` exactly when every
evasion `e` of `MovePicker<false,false>(P)` has `moveGivesCheck(e)` false on `P` and
`mateMoveIn1Ply` on the position after `e` other than `Move::moveNone()`. An evasion that
gives check makes the node return `false` whatever the one-ply oracle says after it, and the
iteration that meets it hands the position back as it found it, on every board: no `doMove`
or `undoMove` is applied on it. -/
theorem c7_two_ply_check (B : Board Position Move CheckInfo Bitboard) (hundo : UndoRestores B)
    (hgen : GeneratorFits B) (P : Position) :
    ∃ ml b, MovePicker B false false P = Res.ok ml ∧
      mateMoveIn2Ply B P = Res.ok (b, P) ∧
      (b = true ↔ ∀ e ∈ ml, evasionGivesCheck B P e = false ∧
        B.mateMoveIn1Ply (B.doMove P e (B.checkInfo P) false) ≠ B.moveNone) ∧
      (∀ e ∈ ml, evasionGivesCheck B P e = true → b = false) ∧
      (∀ (B2 : Board Position Move CheckInfo Bitboard) (ci : CheckInfo) (e : Move)
        (rest : List Move) (pos : Position), B2.moveGivesCheck pos e ci = true →
        mateMoveIn2PlyLoop B2 ci (e :: rest) pos = (false, pos)) := by
  obtain ⟨ml, hml⟩ := MovePicker_ok B hgen false false P
  have hiff := mateMoveIn2PlyLoop_true_iff B hundo (B.checkInfo P) ml P
  have hpos := mateMoveIn2PlyLoop_restores B hundo (B.checkInfo P) ml P
  refine ⟨ml, (mateMoveIn2PlyLoop B (B.checkInfo P) ml P).1, hml, ?_, hiff, ?_, ?_⟩
  · simp only [mateMoveIn2Ply, hml]
    congr 1
    exact Prod.ext rfl hpos
  · intro e he hg
    cases hb : (mateMoveIn2PlyLoop B (B.checkInfo P) ml P).1 with
    | false => rfl
    | true =>
      have hno : evasionGivesCheck B P e = false := (hiff.mp hb e he).1
      rw [hg] at hno
      cases hno
  · intro B2 ci e rest pos hg
    simp [mateMoveIn2PlyLoop, hg]

/-- On `demo`, after the history 4, 3, 5 the only evasion 6 gives check: the two-ply check
returns `false` although the one-ply oracle finds a mate after it; after 1, 3, 5 the same
evasion does not give check and the check returns `true`. -/
theorem c7_two_ply_check_witness :
    MovePicker demo false false [5, 3, 4] = Res.ok [6] ∧
      demo.mateMoveIn1Ply [6, 5, 3, 4] = 8 ∧
      mateMoveIn2Ply demo [5, 3, 4] = Res.ok (false, [5, 3, 4]) ∧
      mateMoveIn2Ply demo [5, 3, 1] = Res.ok (true, [5, 3, 1]) ∧
      ∃ ml b, MovePicker demo false false [5, 3, 4] = Res.ok ml ∧
        mateMoveIn2Ply demo [5, 3, 4] = Res.ok (b, [5, 3, 4]) ∧
        (b = true ↔ ∀ e ∈ ml, evasionGivesCheck demo [5, 3, 4] e = false ∧
          demo.mateMoveIn1Ply (demo.doMove [5, 3, 4] e (demo.checkInfo [5, 3, 4]) false)
            ≠ demo.moveNone) ∧
        (∀ e ∈ ml, evasionGivesCheck demo [5, 3, 4] e = true → b = false) ∧
        (∀ (B2 : Board (List Nat) Nat Unit Unit) (ci : Unit) (e : Nat)
          (rest : List Nat) (pos : List Nat), B2.moveGivesCheck pos e ci = true →
          mateMoveIn2PlyLoop B2 ci (e :: rest) pos = (false, pos)) :=
  ⟨by decide, by decide, by decide, by decide,
    c7_two_ply_check demo demo_undo demo_gen [5, 3, 4]⟩

/-- Claim C8 (three-ply attacker check): with `undoMove` reversing `doMove` and the generator
within the buffer, for both values of `INCHECK`, `mateMoveIn3Ply<INCHECK>(P)` returns, with
`P` restored, `true` exactly when some candidate `m` of `MovePicker<true,INCHECK>(P)` has
`mateMoveIn2Ply` return `true` on the position after `m`; it returns `false` when the
candidate list is empty. -/
theorem c8_three_ply_check (B : Board Position Move CheckInfo Bitboard)
    (hundo : UndoRestores B) (hgen : GeneratorFits B) (INCHECK : Bool) (P : Position) :
    ∃ ml b, MovePicker B true INCHECK P = Res.ok ml ∧
      mateMoveIn3Ply B INCHECK P = Res.ok (b, P) ∧
      (b = true ↔ ∃ m ∈ ml,
        mateMoveIn2Ply B (afterAttack B P m) = Res.ok (true, afterAttack B P m)) ∧
      (ml = [] → b = false) := by
  obtain ⟨ml, hml⟩ := MovePicker_ok B hgen true INCHECK P
  obtain ⟨b, hb, hiff⟩ := attackLoop_total B hundo (B.checkInfo P) (mateMoveIn2Ply B) ml P
    (fun m _ => mateMoveIn2Ply_total B hundo hgen _)
  refine ⟨ml, b, hml, by simp only [mateMoveIn3Ply, hml, hb], hiff, ?_⟩
  intro hnil
  cases b with
  | false => rfl
  | true =>
    obtain ⟨m, hm, _⟩ := hiff.mp rfl
    rw [hnil] at hm
    cases hm

/-- On `demo` the three-ply check succeeds after the history 1, 3 through the candidate 5, and
fails after 1, 4 where there is no candidate. -/
theorem c8_three_ply_check_witness :
    mateMoveIn3Ply demo false [3, 1] = Res.ok (true, [3, 1]) ∧
      mateMoveIn3Ply demo false [4, 1] = Res.ok (false, [4, 1]) ∧
      ∃ ml b, MovePicker demo true false [3, 1] = Res.ok ml ∧
        mateMoveIn3Ply demo false [3, 1] = Res.ok (b, [3, 1]) ∧
        (b = true ↔ ∃ m ∈ ml,
          mateMoveIn2Ply demo (afterAttack demo [3, 1] m)
            = Res.ok (true, afterAttack demo [3, 1] m)) ∧
        (ml = [] → b = false) :=
  ⟨by decide, by decide, c8_three_ply_check demo demo_undo demo_gen false [3, 1]⟩

/-- Claim C9 (selector output): on a position whose generated lists fit the buffer, the list
of `MovePicker` is (i) at an attacker node not in check, `generateMoves<Check>(P)` unchanged
and in generation order; (ii) at an attacker node in check, a rearrangement of the moves of
`generateMoves<Check>(P)` accepted by `pseudoLegalMoveIsEvasion(move, pinnedBB)`; (iii) at a
defender node, a rearrangement of the moves of `generateMoves<Evasion>(P)` accepted by
`pseudoLegalMoveIsLegal<false,false>(move, pinnedBB)`. In (ii) and (iii) every listed move is
accepted and every accepted move is listed as often as it was generated. -/
theorem c9_selector_output (B : Board Position Move CheckInfo Bitboard) (P : Position)
    (hcheck : (B.generateMovesCheck P).length ≤ MaxCheckMoves)
    (hevasion : (B.generateMovesEvasion P).length ≤ MaxCheckMoves) :
    MovePicker B true false P = Res.ok (B.generateMovesCheck P) ∧
      (∃ l, MovePicker B true true P = Res.ok l ∧
        l.Perm ((B.generateMovesCheck P).filter
          (fun m => B.pseudoLegalMoveIsEvasion P m (B.pinnedBB P))) ∧
        (∀ m ∈ l, B.pseudoLegalMoveIsEvasion P m (B.pinnedBB P) = true) ∧
        (∀ m, B.pseudoLegalMoveIsEvasion P m (B.pinnedBB P) = true →
          l.count m = (B.generateMovesCheck P).count m)) ∧
      (∃ l, MovePicker B false false P = Res.ok l ∧
        l.Perm ((B.generateMovesEvasion P).filter
          (fun m => B.pseudoLegalMoveIsLegal P m (B.pinnedBB P))) ∧
        (∀ m ∈ l, B.pseudoLegalMoveIsLegal P m (B.pinnedBB P) = true) ∧
        (∀ m, B.pseudoLegalMoveIsLegal P m (B.pinnedBB P) = true →
          l.count m = (B.generateMovesEvasion P).count m)) := by
  refine ⟨by simp [MovePicker, pickerRange, hcheck], ?_, ?_⟩
  · obtain ⟨l, hl, hperm⟩ := pickFiltered_sound
      (fun m => B.pseudoLegalMoveIsEvasion P m (B.pinnedBB P)) _ hcheck
    refine ⟨l, by simpa [MovePicker] using hl, hperm, ?_, ?_⟩
    · intro m hm
      have := (hperm.mem_iff.mp hm)
      simpa using (List.mem_filter.mp this).2
    · intro m hk
      rw [hperm.count_eq, List.count_filter]
      simpa using hk
  · obtain ⟨l, hl, hperm⟩ := pickFiltered_sound
      (fun m => B.pseudoLegalMoveIsLegal P m (B.pinnedBB P)) _ hevasion
    refine ⟨l, by simpa [MovePicker] using hl, hperm, ?_, ?_⟩
    · intro m hm
      have := (hperm.mem_iff.mp hm)
      simpa using (List.mem_filter.mp this).2
    · intro m hk
      rw [hperm.count_eq, List.count_filter]
      simpa using hk

/-- On `demo` after the check 1 the generated evasions are 3, 9 and 4; the illegal 9 is
overwritten by the last entry and the selector lists 3 and 4. -/
theorem c9_selector_output_witness :
    demo.generateMovesEvasion [1] = [3, 9, 4] ∧
      MovePicker demo false false [1] = Res.ok [3, 4] ∧
      MovePicker demo true true [] = Res.ok [2, 1] ∧
      (MovePicker demo true false [1] = Res.ok (demo.generateMovesCheck [1]) ∧
        (∃ l, MovePicker demo true true [1] = Res.ok l ∧
          l.Perm ((demo.generateMovesCheck [1]).filter
            (fun m => demo.pseudoLegalMoveIsEvasion [1] m (demo.pinnedBB [1]))) ∧
          (∀ m ∈ l, demo.pseudoLegalMoveIsEvasion [1] m (demo.pinnedBB [1]) = true) ∧
          (∀ m, demo.pseudoLegalMoveIsEvasion [1] m (demo.pinnedBB [1]) = true →
            l.count m = (demo.generateMovesCheck [1]).count m)) ∧
        (∃ l, MovePicker demo false false [1] = Res.ok l ∧
          l.Perm ((demo.generateMovesEvasion [1]).filter
            (fun m => demo.pseudoLegalMoveIsLegal [1] m (demo.pinnedBB [1]))) ∧
          (∀ m ∈ l, demo.pseudoLegalMoveIsLegal [1] m (demo.pinnedBB [1]) = true) ∧
          (∀ m, demo.pseudoLegalMoveIsLegal [1] m (demo.pinnedBB [1]) = true →
            l.count m = (demo.generateMovesEvasion [1]).count m))) :=
  ⟨by decide, by decide, by decide, c9_selector_output demo [1] (by decide) (by decide)⟩

end Claims

section Bound

variable {Position Move CheckInfo Bitboard : Type}

/-- Claim C10 (candidate-count bound): for every position and every selector variant, a list
produced by `MovePicker` is never longer than the generated list; and whenever the generator
produces at most `MaxCheckMoves = 73` moves, the constructor completes, so no access of the
filter loop leaves the buffer and `assert(size() <= MaxCheckMoves)` holds, with at most 73
moves listed. -/
theorem c10_candidate_count (B : Board Position Move CheckInfo Bitboard)
    (or_node INCHECK : Bool) (P : Position) :
    (∀ l, MovePicker B or_node INCHECK P = Res.ok l →
      l.length ≤ (generatedMoves B or_node P).length) ∧
    ((generatedMoves B or_node P).length ≤ MaxCheckMoves →
      ∃ l, MovePicker B or_node INCHECK P = Res.ok l ∧ l.length ≤ MaxCheckMoves ∧
        MovePicker B or_node INCHECK P ≠ Res.fault Fault.outOfBounds ∧
        MovePicker B or_node INCHECK P ≠ Res.fault Fault.assertFailed) := by
  have hlen : ∀ l, MovePicker B or_node INCHECK P = Res.ok l →
      l.length ≤ (generatedMoves B or_node P).length := by
    intro l hl
    unfold MovePicker at hl
    unfold generatedMoves
    split at hl
    · rename_i h
      simp only [h, if_true]
      split at hl
      · exact pickFiltered_length_le _ _ _ hl
      · unfold pickerRange at hl
        split at hl
        · injection hl with hl
          subst hl
          simp
        · cases hl
    · rename_i h
      simp only [h, if_false, Bool.false_eq_true]
      exact pickFiltered_length_le _ _ _ hl
  refine ⟨hlen, ?_⟩
  intro hfit
  have hok : ∃ l, MovePicker B or_node INCHECK P = Res.ok l := by
    unfold MovePicker
    unfold generatedMoves at hfit
    split
    · rename_i h
      simp only [h, if_true] at hfit
      split
      · obtain ⟨l, h1, _⟩ := pickFiltered_sound
          (fun m => B.pseudoLegalMoveIsEvasion P m (B.pinnedBB P)) _ hfit
        exact ⟨l, h1⟩
      · exact ⟨(B.generateMovesCheck P).take (B.generateMovesCheck P).length,
          by simp [pickerRange, hfit]⟩
    · rename_i h
      simp only [h, if_false, Bool.false_eq_true] at hfit
      obtain ⟨l, h1, _⟩ := pickFiltered_sound
        (fun m => B.pseudoLegalMoveIsLegal P m (B.pinnedBB P)) _ hfit
      exact ⟨l, h1⟩
  obtain ⟨l, hl⟩ := hok
  exact ⟨l, hl, le_trans (hlen l hl) hfit, by simp [hl], by simp [hl]⟩

/-- On `demo` after the check 1 the generator writes three evasions and the selector lists
two. -/
theorem c10_candidate_count_witness :
    (generatedMoves demo false [1]).length = 3 ∧
      MovePicker demo false false [1] = Res.ok [3, 4] ∧
      (∀ l, MovePicker demo false false [1] = Res.ok l →
        l.length ≤ (generatedMoves demo false [1]).length) ∧
      (∃ l, MovePicker demo false false [1] = Res.ok l ∧ l.length ≤ MaxCheckMoves ∧
        MovePicker demo false false [1] ≠ Res.fault Fault.outOfBounds ∧
        MovePicker demo false false [1] ≠ Res.fault Fault.assertFailed) :=
  ⟨by decide, by decide, (c10_candidate_count demo false false [1]).1,
    (c10_candidate_count demo false false [1]).2 (by decide)⟩

end Bound

/-! ## Facts about `maze` -/

theorem maze_undo : UndoRestores maze := fun _ _ _ _ => rfl

theorem maze_gen : GeneratorFits maze := by
  intro pos
  constructor
  · show (mazeCheck pos).length ≤ MaxCheckMoves
    unfold mazeCheck
    split
    · decide
    · split <;> decide
  · show (mazeEvasion pos).length ≤ MaxCheckMoves
    unfold mazeEvasion
    split
    · decide
    · split <;> decide

theorem maze_range : ClassifierInRange maze := by
  intro pos n raw
  show mazeDraw pos ≠ _
  unfold mazeDraw
  split <;> simp

theorem maze_zone_cons (pos : List Nat) (m : Nat) (h : pos.getLast? = some 7) :
    (m :: pos).getLast? = some 7 := by
  cases pos with
  | nil => simp at h
  | cons b t => simpa [List.getLast?_cons_cons] using h

theorem maze_zone_picker (or_node INCHECK : Bool) (pos : List Nat)
    (h : pos.getLast? = some 7) : MovePicker maze or_node INCHECK pos = Res.ok [1] := by
  cases or_node <;> cases INCHECK <;>
    simp [MovePicker, maze, mazeCheck, mazeEvasion, h, pickFiltered, removeLoop, readAt,
      pickerRange, MaxCheckMoves]

/-- In the perpetual zone of `maze`, a recursor called at a depth below 4 runs out of any
fuel. -/
theorem maze_diverges :
    ∀ fuel : Nat,
      (∀ (INCHECK : Bool) (pos : List Nat) (depth : Int), pos.getLast? = some 7 → depth < 4 →
        mateMoveInOddPly maze fuel INCHECK pos depth = Res.fault Fault.outOfFuel) ∧
      (∀ (pos : List Nat) (depth : Int), pos.getLast? = some 7 → depth < 4 →
        mateMoveInEvenPly maze fuel pos depth = Res.fault Fault.outOfFuel) := by
  intro fuel
  induction fuel with
  | zero => exact ⟨fun _ _ _ _ _ => rfl, fun _ _ _ _ => rfl⟩
  | succ fuel ih =>
    constructor
    · intro INCHECK pos depth hz hd
      have hnext := ih.2 (maze.doMove pos 1 (maze.checkInfo pos) true) (depth - 1)
        (maze_zone_cons pos 1 hz) (by omega)
      rw [mateMoveInOddPly, maze_zone_picker _ _ _ hz]
      simp only [attackLoop, hnext]
    · intro pos depth hz hd
      have h4 : depth ≠ 4 := by omega
      have hnext := ih.1 (maze.moveGivesCheck pos 1 (maze.checkInfo pos))
        (maze.doMove pos 1 (maze.checkInfo pos) (maze.moveGivesCheck pos 1 (maze.checkInfo pos)))
        (depth - 1) (maze_zone_cons pos 1 hz) (by omega)
      rw [mateMoveInEvenPly, maze_zone_picker _ _ _ hz]
      simp only [defendLoop, if_neg h4, hnext]

/-- From the empty history of `maze`, the boolean attacker recursor in its not-in-check
variant, called at depth 3, first tries the check 7 and never returns. -/
theorem maze_odd_diverges (fuel : Nat) :
    mateMoveInOddPly maze fuel false [] 3 = Res.fault Fault.outOfFuel := by
  cases fuel with
  | zero => rfl
  | succ fuel =>
    have hpick : MovePicker maze true false [] = Res.ok [7, 2] := by decide
    have hnext := (maze_diverges fuel).2 (maze.doMove [] 7 (maze.checkInfo []) true) (3 - 1)
      rfl (by decide)
    rw [mateMoveInOddPly, hpick]
    simp only [attackLoop, hnext]

/-! ## Characterisations used by the relations between the searches -/

section Specs

variable {Position Move CheckInfo Bitboard : Type} [DecidableEq Move]
variable (B : Board Position Move CheckInfo Bitboard)

theorem twoPly_spec (hundo : UndoRestores B) (hgen : GeneratorFits B) (P : Position) :
    ∃ ml b, MovePicker B false false P = Res.ok ml ∧ mateMoveIn2Ply B P = Res.ok (b, P) ∧
      (b = true ↔ ∀ e ∈ ml, evasionGivesCheck B P e = false ∧
        B.mateMoveIn1Ply (B.doMove P e (B.checkInfo P) false) ≠ B.moveNone) := by
  obtain ⟨ml, hml⟩ := MovePicker_ok B hgen false false P
  refine ⟨ml, (mateMoveIn2PlyLoop B (B.checkInfo P) ml P).1, hml, ?_,
    mateMoveIn2PlyLoop_true_iff B hundo (B.checkInfo P) ml P⟩
  simp only [mateMoveIn2Ply, hml]
  congr 1
  exact Prod.ext rfl (mateMoveIn2PlyLoop_restores B hundo (B.checkInfo P) ml P)

theorem twoPly_vacuous (P : Position) (hempty : MovePicker B false false P = Res.ok []) :
    mateMoveIn2Ply B P = Res.ok (true, P) := by
  simp only [mateMoveIn2Ply, hempty, mateMoveIn2PlyLoop]

theorem evenPly_vacuous (P : Position) (hempty : MovePicker B false false P = Res.ok [])
    (fuel : Nat) (depth : Int) : mateMoveInEvenPly B (fuel + 1) P depth = Res.ok (true, P) := by
  rw [mateMoveInEvenPly]
  simp only [hempty, defendLoop]

theorem threePly_spec (hundo : UndoRestores B) (hgen : GeneratorFits B) (INCHECK : Bool)
    (P : Position) :
    ∃ ml b, MovePicker B true INCHECK P = Res.ok ml ∧
      mateMoveIn3Ply B INCHECK P = Res.ok (b, P) ∧
      (b = true ↔ ∃ m ∈ ml,
        mateMoveIn2Ply B (afterAttack B P m) = Res.ok (true, afterAttack B P m)) := by
  obtain ⟨ml, hml⟩ := MovePicker_ok B hgen true INCHECK P
  obtain ⟨b, hb, hiff⟩ := attackLoop_total B hundo (B.checkInfo P) (mateMoveIn2Ply B) ml P
    (fun m _ => mateMoveIn2Ply_total B hundo hgen _)
  exact ⟨ml, b, hml, by simp only [mateMoveIn3Ply, hml, hb], hiff⟩

theorem oddPly_spec (hundo : UndoRestores B) (hgen : GeneratorFits B) (INCHECK : Bool)
    (P : Position) (d : Int) (h5 : 5 ≤ d) (hodd : d % 2 = 1) (fuel : Nat)
    (hfuel : d ≤ fuel + 4) :
    ∃ ml b, MovePicker B true INCHECK P = Res.ok ml ∧
      mateMoveInOddPly B (fuel + 1) INCHECK P d = Res.ok (b, P) ∧
      (b = true ↔ ∃ m ∈ ml,
        mateMoveInEvenPly B fuel (afterAttack B P m) (d - 1)
          = Res.ok (true, afterAttack B P m)) := by
  obtain ⟨ml, hml⟩ := MovePicker_ok B hgen true INCHECK P
  obtain ⟨b, hb, hiff⟩ := attackLoop_total B hundo (B.checkInfo P)
    (fun p => mateMoveInEvenPly B fuel p (d - 1)) ml P
    (fun m _ => (recursors_total B hundo hgen fuel).2 _ (d - 1) (by omega) (by omega)
      (by omega))
  refine ⟨ml, b, hml, ?_, hiff⟩
  rw [mateMoveInOddPly]
  simp only [hml]
  exact hb

theorem evenPly_spec (hundo : UndoRestores B) (hgen : GeneratorFits B) (P : Position)
    (d : Int) (h4 : 4 ≤ d) (heven : d % 2 = 0) (fuel : Nat) (hfuel : d ≤ fuel + 4) :
    ∃ ml b, MovePicker B false false P = Res.ok ml ∧
      mateMoveInEvenPly B (fuel + 1) P d = Res.ok (b, P) ∧
      (b = true ↔ ∀ e ∈ ml,
        evenSubSearch B fuel d (evasionGivesCheck B P e) (afterEvasion B P e)
          = Res.ok (true, afterEvasion B P e)) := by
  obtain ⟨ml, hml⟩ := MovePicker_ok B hgen false false P
  obtain ⟨b, hb, hiff⟩ := defendLoop_total B hundo (B.checkInfo P)
    (fun givesCheck p => evenSubSearch B fuel d givesCheck p) ml P
    (by
      intro m _
      unfold evenSubSearch
      by_cases hd : d = 4
      · simp only [hd, if_true]
        exact mateMoveIn3Ply_total B hundo hgen _ _
      · simp only [hd, if_false]
        exact (recursors_total B hundo hgen fuel).1 _ _ (d - 1) (by omega) (by omega)
          (by omega))
  refine ⟨ml, b, hml, ?_, hiff⟩
  rw [mateMoveInEvenPly]
  simp only [hml]
  exact hb

end Specs

section PickerFacts

variable {Position Move CheckInfo Bitboard : Type}
variable (B : Board Position Move CheckInfo Bitboard)

/-- The unfiltered attacker selector lists exactly the generated checks. -/
theorem picker_not_in_check (hgen : GeneratorFits B) (P : Position) :
    MovePicker B true false P = Res.ok (B.generateMovesCheck P) := by
  simp [MovePicker, pickerRange, (hgen P).1]

/-- The in-check attacker selector lists a sub-multiset of the generated checks. -/
theorem picker_in_check_subperm (hgen : GeneratorFits B) (P : Position) :
    ∃ l, MovePicker B true true P = Res.ok l ∧ l.Subperm (B.generateMovesCheck P) := by
  obtain ⟨l, hl, hperm⟩ := pickFiltered_sound
    (fun m => B.pseudoLegalMoveIsEvasion P m (B.pinnedBB P)) _ (hgen P).1
  exact ⟨l, by simpa [MovePicker] using hl,
    hperm.subperm.trans (List.filter_sublist _).subperm⟩

/-- Every attacker selector lists generated checks only. -/
theorem picker_attacker_subset (hgen : GeneratorFits B) (INCHECK : Bool) (P : Position)
    (ml : List Move) (hml : MovePicker B true INCHECK P = Res.ok ml) :
    ∀ m ∈ ml, m ∈ B.generateMovesCheck P := by
  intro m hm
  cases INCHECK with
  | false =>
    rw [picker_not_in_check B hgen P] at hml
    injection hml with hml
    exact hml ▸ hm
  | true =>
    obtain ⟨l, hl, hsub⟩ := picker_in_check_subperm B hgen P
    rw [hl] at hml
    injection hml with hml
    exact hsub.subset (hml ▸ hm)

/-- An attacker loop that reaches a winning candidate returns `true`: the candidates before
it have failed, and the ones after it are not tried. -/
theorem attackLoop_first_win
    (hundo : UndoRestores B) (ci : CheckInfo) (child : Position → Res (Bool × Position))
    (pos : Position) (m : Move) (suf : List Move)
    (hwin : child (B.doMove pos m ci true) = Res.ok (true, B.doMove pos m ci true)) :
    ∀ pre : List Move,
      (∀ x ∈ pre, child (B.doMove pos x ci true) = Res.ok (false, B.doMove pos x ci true)) →
      attackLoop B ci child (pre ++ m :: suf) pos = Res.ok (true, pos) := by
  intro pre
  induction pre with
  | nil =>
    intro _
    simp [attackLoop, hwin, hundo pos m ci true]
  | cons x pre ih =>
    intro hpre
    have hx := hpre x (List.mem_cons_self _ _)
    simp only [List.cons_append, attackLoop, hx, hundo pos x ci true]
    exact ih (fun y hy => hpre y (List.mem_cons_of_mem _ hy))

end PickerFacts

/-! ## Relations between the searches -/

section Relations

variable {Position Move CheckInfo Bitboard : Type} [DecidableEq Move]

/-- Claim C13, as stated for every depth, fails at depth 3: from the empty history of `maze`
the root entry skips the check 7 (a repetition) and returns the check 2, while the boolean
recursor runs the defender check on 7, falls into the perpetual check at depth 2 and never
returns. -/
theorem c13_depth3_counterexample :
    mateMoveInOddPlyReturnMove maze 2 [] 3 = Res.ok (2, []) ∧ (2 : Nat) ≠ maze.moveNone ∧
      ¬ ∃ fuel : Nat, mateMoveInOddPly maze fuel false [] 3 ≠ Res.fault Fault.outOfFuel :=
  ⟨by decide, by decide, fun ⟨fuel, h⟩ => h (maze_odd_diverges fuel)⟩

/-- Claim C13 (root entry versus boolean recursor), amended to odd depths from 5 on: with
`undoMove` reversing `doMove` and the generator within the buffer, if
`mateMoveInOddPlyReturnMove(P, N)` returns a move other than `Move::moveNone()` then
`mateMoveInOddPly<false>(P, N)` returns `true`; if moreover every candidate of
`MovePicker<true,false>(P)` leads to a position classified `NotRepetition` and `moveNone` is
not a candidate, the root entry returns a move other than `moveNone` exactly when the boolean
recursor returns `true`. On some board and position the two differ: the boolean recursor
returns `true` while the root entry returns `moveNone`, the only candidate leading to a
repetition. -/
theorem c13_root_versus_recursor (B : Board Position Move CheckInfo Bitboard)
    (hundo : UndoRestores B) (hgen : GeneratorFits B) (P : Position) (N : Int) (h5 : 5 ≤ N)
    (hodd : N % 2 = 1) (fuel : Nat) (hfuel : N ≤ fuel + 4) :
    (∀ r P2, mateMoveInOddPlyReturnMove B (fuel + 1) P N = Res.ok (r, P2) → r ≠ B.moveNone →
      mateMoveInOddPly B (fuel + 1) false P N = Res.ok (true, P)) ∧
    (∀ ml, MovePicker B true false P = Res.ok ml →
      (∀ x ∈ ml, B.isDraw (afterAttack B P x) 16 = RepetitionType.NotRepetition) →
      B.moveNone ∉ ml →
      ∃ r b, mateMoveInOddPlyReturnMove B (fuel + 1) P N = Res.ok (r, P) ∧
        mateMoveInOddPly B (fuel + 1) false P N = Res.ok (b, P) ∧
        (r ≠ B.moveNone ↔ b = true)) ∧
    (∃ (B2 : Board (List Nat) Nat Unit Unit) (Q : List Nat),
      UndoRestores B2 ∧ GeneratorFits B2 ∧ ClassifierInRange B2 ∧
      MovePicker B2 true false Q = Res.ok [7] ∧
      B2.isDraw (afterAttack B2 Q 7) 16 = RepetitionType.RepetitionDraw ∧
      mateMoveInOddPly B2 2 false Q 5 = Res.ok (true, Q) ∧
      mateMoveInOddPlyReturnMove B2 2 Q 5 = Res.ok (B2.moveNone, Q)) := by
  obtain ⟨ml, b, hml, hodd2, hiff⟩ := oddPly_spec B hundo hgen false P N h5 hodd fuel hfuel
  have hsound : ∀ r P2, mateMoveInOddPlyReturnMove B (fuel + 1) P N = Res.ok (r, P2) →
      r ≠ B.moveNone → mateMoveInOddPly B (fuel + 1) false P N = Res.ok (true, P) := by
    intro r P2 hret hr
    rw [mateMoveInOddPlyReturnMove, hml] at hret
    obtain ⟨hmem, _, hwin⟩ := returnMoveLoop_sound B hundo _ _
      (fun p b p2 hp => (recursors_restore B hundo fuel).2 p _ b p2 hp) _ _ _ _ hret hr
    have hb : b = true := hiff.mpr ⟨r, hmem, hwin⟩
    rw [hodd2, hb]
  refine ⟨hsound, ?_, ⟨maze, [9], maze_undo, maze_gen, maze_range, by decide, by decide,
    by decide, by decide⟩⟩
  intro ml2 hml2 hnorep hnone
  rw [hml] at hml2
  injection hml2 with hml2
  subst hml2
  obtain ⟨r, hr, hcase⟩ := returnMoveLoop_total B hundo (B.checkInfo P)
    (fun p => mateMoveInEvenPly B fuel p (N - 1)) ml P
    (fun m hm raw h => by
      have := hnorep m hm
      unfold afterAttack at this
      rw [this] at h
      cases h)
    (fun m _ _ => (recursors_total B hundo hgen fuel).2 _ (N - 1) (by omega) (by omega)
      (by omega))
  have hroot : mateMoveInOddPlyReturnMove B (fuel + 1) P N = Res.ok (r, P) := by
    rw [mateMoveInOddPlyReturnMove]
    simp only [hml, hr]
  refine ⟨r, b, hroot, hodd2, ?_⟩
  constructor
  · intro hne
    have := hsound r P hroot hne
    rw [hodd2] at this
    injection this with this
    exact congrArg Prod.fst this
  · intro hb hrnone
    obtain ⟨m, hm, hwin⟩ := hiff.mp hb
    rcases hcase with ⟨pre, suf, hsplit, _, _⟩ | ⟨_, hall⟩
    · exact hnone (hrnone ▸ (by rw [hsplit]; simp : r ∈ ml))
    · exact hall m hm ⟨hnorep m hm, hwin⟩

/-- On `demo` at depth 5 the root entry returns the move 2 and the boolean recursor returns
`true`. -/
theorem c13_root_versus_recursor_witness :
    UndoRestores demo ∧ GeneratorFits demo ∧
      mateMoveInOddPlyReturnMove demo 3 [] 5 = Res.ok (2, []) ∧
      mateMoveInOddPly demo (2 + 1) false [] 5 = Res.ok (true, []) :=
  ⟨demo_undo, demo_gen, by decide,
    (c13_root_versus_recursor demo demo_undo demo_gen [] 5 (by decide) (by decide) 2
      (by decide)).1 2 [] (by decide) (by decide)⟩

/-- Claim C14 (non-monotonicity across bounds): on the board `demo`, after the history 1, 3,
`mateMoveIn3Ply<false>` returns `true` while `mateMoveInOddPly<false>` at depth 5 returns
`false`, whatever fuel it is given from the two units it needs: the one-ply oracle reports a
mate after 1, 3, 5, 6 where the generator has no check, so the three-ply check run at depth 4
after the evasion 6 fails. -/
theorem c14_not_monotone_across_bounds :
    ∃ (B : Board (List Nat) Nat Unit Unit) (P : List Nat),
      UndoRestores B ∧ GeneratorFits B ∧
      mateMoveIn3Ply B false P = Res.ok (true, P) ∧
      ∀ fuel : Nat, mateMoveInOddPly B (fuel + 2) false P 5 = Res.ok (false, P) := by
  refine ⟨demo, [3, 1], demo_undo, demo_gen, by decide, ?_⟩
  intro fuel
  have hpick : MovePicker demo true false [3, 1] = Res.ok [5] := by decide
  have hpick2 : MovePicker demo false false [5, 3, 1] = Res.ok [6] := by decide
  have h3 : mateMoveIn3Ply demo false [6, 5, 3, 1] = Res.ok (false, [6, 5, 3, 1]) := by decide
  have heven : mateMoveInEvenPly demo (fuel + 1) [5, 3, 1] 4 = Res.ok (false, [5, 3, 1]) := by
    rw [mateMoveInEvenPly, hpick2]
    have hgc : demo.moveGivesCheck [5, 3, 1] 6 (demo.checkInfo [5, 3, 1]) = false := by decide
    have hdo : demo.doMove [5, 3, 1] 6 (demo.checkInfo [5, 3, 1]) false = [6, 5, 3, 1] := rfl
    simp only [defendLoop, hgc, hdo, if_true, h3]
    rfl
  rw [mateMoveInOddPly, hpick]
  have hdo : demo.doMove [3, 1] 5 (demo.checkInfo [3, 1]) true = [5, 3, 1] := rfl
  have hsub : (5 : Int) - 1 = 4 := by decide
  simp only [attackLoop, hdo, hsub, heven]
  rfl

/-- Claim C16, as stated for every depth, fails at depth 3: from the empty history of `maze`
the in-check variant drops the check 7, which is not an evasion, and returns `true` through
the check 2, while the not-in-check variant first tries 7, falls into the perpetual check at
depth 2 and never returns. -/
theorem c16_depth3_counterexample :
    mateMoveInOddPly maze 2 true [] 3 = Res.ok (true, []) ∧
      ¬ ∃ fuel : Nat, ∃ r, mateMoveInOddPly maze fuel false [] 3 = Res.ok r :=
  ⟨by decide, fun ⟨fuel, r, h⟩ => by rw [maze_odd_diverges fuel] at h; cases h⟩

/-- Claim C16 (the in-check attacker variant is never more permissive), amended to odd depths
from 5 on: with `undoMove` reversing `doMove` and the generator within the buffer, the list of
`MovePicker<true,true>(P)` is a sub-multiset of the list of `MovePicker<true,false>(P)`;
`mateMoveIn3Ply<true>(P) = true` implies `mateMoveIn3Ply<false>(P) = true`; and for every odd
depth `d >= 5`, `mateMoveInOddPly<true>(P, d) = true` implies
`mateMoveInOddPly<false>(P, d) = true`. -/
theorem c16_in_check_not_more_permissive (B : Board Position Move CheckInfo Bitboard)
    (hundo : UndoRestores B) (hgen : GeneratorFits B) (P : Position) :
    (∃ l1 l2, MovePicker B true true P = Res.ok l1 ∧ MovePicker B true false P = Res.ok l2 ∧
      l1.Subperm l2) ∧
    (mateMoveIn3Ply B true P = Res.ok (true, P) →
      mateMoveIn3Ply B false P = Res.ok (true, P)) ∧
    (∀ (d : Int) (fuel : Nat), 5 ≤ d → d % 2 = 1 → d ≤ fuel + 4 →
      mateMoveInOddPly B (fuel + 1) true P d = Res.ok (true, P) →
      mateMoveInOddPly B (fuel + 1) false P d = Res.ok (true, P)) := by
  obtain ⟨l1, hl1, hsub⟩ := picker_in_check_subperm B hgen P
  have hl2 := picker_not_in_check B hgen P
  refine ⟨⟨l1, _, hl1, hl2, hsub⟩, ?_, ?_⟩
  · intro h
    obtain ⟨ml, b, hml, hb, hiff⟩ := threePly_spec B hundo hgen true P
    obtain ⟨ml2, b2, hml2, hb2, hiff2⟩ := threePly_spec B hundo hgen false P
    rw [hl1] at hml
    injection hml with hml
    rw [hl2] at hml2
    injection hml2 with hml2
    subst hml hml2
    rw [hb] at h
    injection h with h
    have hbt : b = true := congrArg Prod.fst h
    obtain ⟨m, hm, hwin⟩ := hiff.mp hbt
    have : b2 = true := hiff2.mpr ⟨m, hsub.subset hm, hwin⟩
    rw [hb2, this]
  · intro d fuel h5 hodd hfuel h
    obtain ⟨ml, b, hml, hb, hiff⟩ := oddPly_spec B hundo hgen true P d h5 hodd fuel hfuel
    obtain ⟨ml2, b2, hml2, hb2, hiff2⟩ := oddPly_spec B hundo hgen false P d h5 hodd fuel hfuel
    rw [hl1] at hml
    injection hml with hml
    rw [hl2] at hml2
    injection hml2 with hml2
    subst hml hml2
    rw [hb] at h
    injection h with h
    have hbt : b = true := congrArg Prod.fst h
    obtain ⟨m, hm, hwin⟩ := hiff.mp hbt
    have : b2 = true := hiff2.mpr ⟨m, hsub.subset hm, hwin⟩
    rw [hb2, this]

/-- On `demo` from the empty history the in-check variant lists 2 and 1 out of the generated
7, 1, 2, and both variants return `true` at depth 5. -/
theorem c16_in_check_not_more_permissive_witness :
    UndoRestores demo ∧ GeneratorFits demo ∧
      MovePicker demo true true [] = Res.ok [2, 1] ∧
      MovePicker demo true false [] = Res.ok [7, 1, 2] ∧
      mateMoveInOddPly demo (1 + 1) true [] 5 = Res.ok (true, []) ∧
      mateMoveInOddPly demo (1 + 1) false [] 5 = Res.ok (true, []) :=
  ⟨demo_undo, demo_gen, by decide, by decide, by decide,
    (c16_in_check_not_more_permissive demo demo_undo demo_gen []).2.2 5 1 (by decide)
      (by decide) (by decide) (by decide)⟩

end Relations

section Monotone

variable {Position Move CheckInfo Bitboard : Type} [DecidableEq Move]

/-- With a faithful oracle, a position on which the two-ply check succeeds passes the
defender node at depth 4. -/
theorem twoPly_to_even4 (B : Board Position Move CheckInfo Bitboard) (hundo : UndoRestores B)
    (hgen : GeneratorFits B) (hfaith : FaithfulOracle B) (Q : Position) (fuel : Nat)
    (h : mateMoveIn2Ply B Q = Res.ok (true, Q)) :
    mateMoveInEvenPly B (fuel + 1) Q 4 = Res.ok (true, Q) := by
  obtain ⟨ml, b, hml, hb, hiff⟩ := twoPly_spec B hundo hgen Q
  obtain ⟨ml2, b2, hml2, hb2, hiff2⟩ :=
    evenPly_spec B hundo hgen Q 4 (by decide) (by decide) fuel (by omega)
  rw [hml] at hml2
  injection hml2 with hml2
  subst hml2
  rw [hb] at h
  injection h with h
  have hbt : b = true := congrArg Prod.fst h
  have hall := hiff.mp hbt
  have : b2 = true := by
    refine hiff2.mpr ?_
    intro e he
    obtain ⟨hgc, horacle⟩ := hall e he
    have hpos : afterEvasion B Q e = B.doMove Q e (B.checkInfo Q) false := by
      unfold afterEvasion
      rw [hgc]
    obtain ⟨hmem, hempty⟩ := hfaith (B.doMove Q e (B.checkInfo Q) false) horacle
    obtain ⟨ml3, b3, hml3, hb3, hiff3⟩ :=
      threePly_spec B hundo hgen false (B.doMove Q e (B.checkInfo Q) false)
    rw [picker_not_in_check B hgen] at hml3
    injection hml3 with hml3
    subst hml3
    have hb3t : b3 = true :=
      hiff3.mpr ⟨_, hmem, twoPly_vacuous B _ hempty⟩
    simp only [evenSubSearch, if_true, hgc, hpos, hb3, hb3t]
  rw [hb2, this]

/-- With a faithful oracle, a success of the three-ply check is a success of the attacker
recursor at depth 5. -/
theorem threePly_to_odd5 (B : Board Position Move CheckInfo Bitboard) (hundo : UndoRestores B)
    (hgen : GeneratorFits B) (hfaith : FaithfulOracle B) (INCHECK : Bool) (P : Position)
    (fuel : Nat) (h : mateMoveIn3Ply B INCHECK P = Res.ok (true, P)) :
    mateMoveInOddPly B (fuel + 2) INCHECK P 5 = Res.ok (true, P) := by
  obtain ⟨ml, b, hml, hb, hiff⟩ := threePly_spec B hundo hgen INCHECK P
  obtain ⟨ml2, b2, hml2, hb2, hiff2⟩ :=
    oddPly_spec B hundo hgen INCHECK P 5 (by decide) (by decide) (fuel + 1)
      (by push_cast; omega)
  rw [hml] at hml2
  injection hml2 with hml2
  subst hml2
  rw [hb] at h
  injection h with h
  have hbt : b = true := congrArg Prod.fst h
  obtain ⟨m, hm, hwin⟩ := hiff.mp hbt
  have : b2 = true :=
    hiff2.mpr ⟨m, hm, twoPly_to_even4 B hundo hgen hfaith _ fuel hwin⟩
  rw [hb2, this]

/-- With a faithful oracle, two more plies never lose a success of either recursor. -/
theorem recursors_monotone (B : Board Position Move CheckInfo Bitboard)
    (hundo : UndoRestores B) (hgen : GeneratorFits B) (hfaith : FaithfulOracle B) :
    ∀ f1 : Nat,
      (∀ (INCHECK : Bool) (P : Position) (d : Int) (f2 : Nat), 5 ≤ d → d % 2 = 1 →
        d ≤ f1 + 3 → d + 2 ≤ f2 + 3 →
        mateMoveInOddPly B f1 INCHECK P d = Res.ok (true, P) →
        mateMoveInOddPly B f2 INCHECK P (d + 2) = Res.ok (true, P)) ∧
      (∀ (P : Position) (d : Int) (f2 : Nat), 4 ≤ d → d % 2 = 0 →
        d ≤ f1 + 3 → d + 2 ≤ f2 + 3 →
        mateMoveInEvenPly B f1 P d = Res.ok (true, P) →
        mateMoveInEvenPly B f2 P (d + 2) = Res.ok (true, P)) := by
  intro f1
  induction f1 with
  | zero =>
    constructor
    · intro _ _ d _ h5 _ hf _ _
      omega
    · intro _ d _ h4 _ hf _ _
      omega
  | succ f1 ih =>
    constructor
    · intro INCHECK P d f2 h5 hodd hf1 hf2 h
      obtain ⟨g2, rfl⟩ : ∃ g, f2 = g + 1 := ⟨f2 - 1, by omega⟩
      obtain ⟨ml, b, hml, hb, hiff⟩ :=
        oddPly_spec B hundo hgen INCHECK P d h5 hodd f1 (by push_cast at hf1 ⊢; omega)
      obtain ⟨ml2, b2, hml2, hb2, hiff2⟩ :=
        oddPly_spec B hundo hgen INCHECK P (d + 2) (by omega) (by omega) g2
          (by push_cast at hf2 ⊢; omega)
      rw [hml] at hml2
      injection hml2 with hml2
      subst hml2
      rw [hb] at h
      injection h with h
      have hbt : b = true := congrArg Prod.fst h
      obtain ⟨m, hm, hwin⟩ := hiff.mp hbt
      have hup := ih.2 (afterAttack B P m) (d - 1) g2 (by omega) (by omega)
        (by push_cast at hf1 ⊢; omega) (by push_cast at hf2 ⊢; omega) hwin
      have hd : d + 2 - 1 = d - 1 + 2 := by omega
      have : b2 = true := hiff2.mpr ⟨m, hm, by rw [hd]; exact hup⟩
      rw [hb2, this]
    · intro P d f2 h4 heven hf1 hf2 h
      obtain ⟨g2, rfl⟩ : ∃ g, f2 = g + 1 := ⟨f2 - 1, by omega⟩
      obtain ⟨ml, b, hml, hb, hiff⟩ :=
        evenPly_spec B hundo hgen P d h4 heven f1 (by push_cast at hf1 ⊢; omega)
      obtain ⟨ml2, b2, hml2, hb2, hiff2⟩ :=
        evenPly_spec B hundo hgen P (d + 2) (by omega) (by omega) g2
          (by push_cast at hf2 ⊢; omega)
      rw [hml] at hml2
      injection hml2 with hml2
      subst hml2
      rw [hb] at h
      injection h with h
      have hbt : b = true := congrArg Prod.fst h
      have hall := hiff.mp hbt
      have hne : d + 2 ≠ 4 := by omega
      have hd : d + 2 - 1 = d - 1 + 2 := by omega
      have : b2 = true := by
        refine hiff2.mpr ?_
        intro e he
        have hsub := hall e he
        unfold evenSubSearch at hsub ⊢
        rw [if_neg hne]
        by_cases hd4 : d = 4
        · rw [if_pos hd4] at hsub
          obtain ⟨g3, rfl⟩ : ∃ g, g2 = g + 2 := ⟨g2 - 2, by push_cast at hf2; omega⟩
          have h5 : d + 2 - 1 = 5 := by omega
          rw [h5]
          exact threePly_to_odd5 B hundo hgen hfaith _ _ g3 hsub
        · rw [if_neg hd4] at hsub
          rw [hd]
          exact ih.1 _ _ (d - 1) g2 (by omega) (by omega)
            (by push_cast at hf1 ⊢; omega) (by push_cast at hf2 ⊢; omega) hsub
      rw [hb2, this]

theorem maze_faithful : FaithfulOracle maze := by
  intro pos h
  have hcases : pos = [5, 4, 8] := by
    by_contra hne
    apply h
    show mazeOracle pos = 0
    unfold mazeOracle
    split
    · exact absurd rfl hne
    · rfl
  subst hcases
  exact ⟨by decide, by decide⟩

/-- Claim C15 (depth monotonicity under a faithful one-ply oracle): assume that whenever
`mateMoveIn1Ply` returns a move other than `Move::moveNone()` on a position, that move is a
generated check after which `MovePicker<false,false>` is empty, that `undoMove` reverses
`doMove` and that the generator stays within the buffer. Then for both values of `INCHECK`,
`mateMoveIn3Ply<INCHECK>(P) = true` implies `mateMoveInOddPly<INCHECK>(P, 5) = true`; for
every odd `d >= 5`, `mateMoveInOddPly<INCHECK>(P, d) = true` implies
`mateMoveInOddPly<INCHECK>(P, d + 2) = true`; and for every even `d >= 4`,
`mateMoveInEvenPly(P, d) = true` implies `mateMoveInEvenPly(P, d + 2) = true`. Each call is
given fuel for its depth. -/
theorem c15_depth_monotone (B : Board Position Move CheckInfo Bitboard)
    (hundo : UndoRestores B) (hgen : GeneratorFits B) (hfaith : FaithfulOracle B) :
    (∀ (INCHECK : Bool) (P : Position) (fuel : Nat),
      mateMoveIn3Ply B INCHECK P = Res.ok (true, P) →
      mateMoveInOddPly B (fuel + 2) INCHECK P 5 = Res.ok (true, P)) ∧
    (∀ (INCHECK : Bool) (P : Position) (d : Int) (f1 f2 : Nat), 5 ≤ d → d % 2 = 1 →
      d ≤ f1 + 3 → d + 2 ≤ f2 + 3 →
      mateMoveInOddPly B f1 INCHECK P d = Res.ok (true, P) →
      mateMoveInOddPly B f2 INCHECK P (d + 2) = Res.ok (true, P)) ∧
    (∀ (P : Position) (d : Int) (f1 f2 : Nat), 4 ≤ d → d % 2 = 0 →
      d ≤ f1 + 3 → d + 2 ≤ f2 + 3 →
      mateMoveInEvenPly B f1 P d = Res.ok (true, P) →
      mateMoveInEvenPly B f2 P (d + 2) = Res.ok (true, P)) :=
  ⟨fun INCHECK P fuel h => threePly_to_odd5 B hundo hgen hfaith INCHECK P fuel h,
    fun INCHECK P d f1 f2 =>
      (recursors_monotone B hundo hgen hfaith f1).1 INCHECK P d f2,
    fun P d f1 f2 => (recursors_monotone B hundo hgen hfaith f1).2 P d f2⟩

/-- On `maze` the oracle is faithful; from the history 8 the three-ply check succeeds through
the oracle, and so do the attacker recursor at depths 5 and 7 and the defender recursor at
depths 4 and 6 after the check 4. -/
theorem c15_depth_monotone_witness :
    UndoRestores maze ∧ GeneratorFits maze ∧ FaithfulOracle maze ∧
      mateMoveIn3Ply maze false [8] = Res.ok (true, [8]) ∧
      mateMoveInOddPly maze (0 + 2) false [8] 5 = Res.ok (true, [8]) ∧
      mateMoveInOddPly maze 4 false [8] (5 + 2) = Res.ok (true, [8]) ∧
      mateMoveInEvenPly maze 3 [4, 8] (4 + 2) = Res.ok (true, [4, 8]) :=
  have h := c15_depth_monotone maze maze_undo maze_gen maze_faithful
  ⟨maze_undo, maze_gen, maze_faithful, by decide,
    h.1 false [8] 0 (by decide),
    h.2.1 false [8] 5 2 4 (by decide) (by decide) (by decide) (by decide) (by decide),
    h.2.2 [4, 8] 4 1 3 (by decide) (by decide) (by decide) (by decide) (by decide)⟩

/-- Claim C17 (vacuous success of defender nodes): on every board, if
`MovePicker<false,false>(P)` is empty then `mateMoveIn2Ply(P)` returns `true` and
`mateMoveInEvenPly(P, d)` returns `true` for every integer depth `d`, handing back `P`
itself. The board is arbitrary: the result does not depend on `doMove`, `undoMove`, the
one-ply oracle or any test of check, none of which is called. Consequently, for a candidate
`m` of an attacker node on `Q` that leads to `P`: `mateMoveIn3Ply` returns `true`;
`mateMoveInOddPly` returns `true` at every odd depth from 5 on; and at any depth
`mateMoveInOddPly` returns `true` as soon as its loop reaches `m`, the candidates before `m`
having failed. -/
theorem c17_vacuous_defender (B : Board Position Move CheckInfo Bitboard) (P : Position)
    (hempty : MovePicker B false false P = Res.ok []) :
    mateMoveIn2Ply B P = Res.ok (true, P) ∧
    (∀ (fuel : Nat) (d : Int), mateMoveInEvenPly B (fuel + 1) P d = Res.ok (true, P)) ∧
    (∀ (INCHECK : Bool) (Q : Position) (ml : List Move) (m : Move),
      UndoRestores B → GeneratorFits B → MovePicker B true INCHECK Q = Res.ok ml → m ∈ ml →
      afterAttack B Q m = P →
      mateMoveIn3Ply B INCHECK Q = Res.ok (true, Q) ∧
      ∀ (d : Int) (fuel : Nat), 5 ≤ d → d % 2 = 1 → d ≤ fuel + 4 →
        mateMoveInOddPly B (fuel + 1) INCHECK Q d = Res.ok (true, Q)) ∧
    (∀ (INCHECK : Bool) (Q : Position) (pre suf : List Move) (m : Move) (d : Int)
      (fuel : Nat), UndoRestores B →
      MovePicker B true INCHECK Q = Res.ok (pre ++ m :: suf) → afterAttack B Q m = P →
      (∀ x ∈ pre, mateMoveInEvenPly B (fuel + 1) (afterAttack B Q x) (d - 1)
        = Res.ok (false, afterAttack B Q x)) →
      mateMoveInOddPly B (fuel + 2) INCHECK Q d = Res.ok (true, Q)) := by
  refine ⟨twoPly_vacuous B P hempty, evenPly_vacuous B P hempty, ?_, ?_⟩
  · intro INCHECK Q ml m hundo hgen hml hm hP
    constructor
    · obtain ⟨ml2, b, hml2, hb, hiff⟩ := threePly_spec B hundo hgen INCHECK Q
      rw [hml] at hml2
      injection hml2 with hml2
      subst hml2
      have : b = true := hiff.mpr ⟨m, hm, by rw [hP]; exact twoPly_vacuous B P hempty⟩
      rw [hb, this]
    · intro d fuel h5 hodd hfuel
      obtain ⟨ml2, b, hml2, hb, hiff⟩ := oddPly_spec B hundo hgen INCHECK Q d h5 hodd fuel hfuel
      rw [hml] at hml2
      injection hml2 with hml2
      subst hml2
      obtain ⟨g, rfl⟩ : ∃ g, fuel = g + 1 := ⟨fuel - 1, by omega⟩
      have : b = true := hiff.mpr ⟨m, hm, by rw [hP]; exact evenPly_vacuous B P hempty g _⟩
      rw [hb, this]
  · intro INCHECK Q pre suf m d fuel hundo hml hP hpre
    rw [mateMoveInOddPly]
    simp only [hml]
    refine attackLoop_first_win B hundo _ _ Q m suf ?_ pre hpre
    have := evenPly_vacuous B P hempty fuel (d - 1)
    rw [← hP] at this
    exact this

/-- On `maze` the defender has no evasion after the check 2 from the empty history: both
defender nodes succeed there, at depth 2 as well, and so do the three-ply check and the
attacker recursor at depth 5 from the empty history. -/
theorem c17_vacuous_defender_witness :
    MovePicker maze false false [2] = Res.ok [] ∧
      mateMoveIn2Ply maze [2] = Res.ok (true, [2]) ∧
      mateMoveInEvenPly maze (0 + 1) [2] 2 = Res.ok (true, [2]) ∧
      mateMoveIn3Ply maze false [] = Res.ok (true, []) ∧
      mateMoveInOddPly maze (1 + 1) false [] 5 = Res.ok (true, []) :=
  have h := c17_vacuous_defender maze [2] (by decide)
  have h3 := h.2.2.1 false [] [7, 2] 2 maze_undo maze_gen (by decide) (by decide) rfl
  ⟨by decide, h.1, h.2.1 0 2, h3.1, h3.2 5 1 (by decide) (by decide) (by decide)⟩

end Monotone

/-! ## The fatal branch of the root entry -/

section Fatal

variable {Position Move CheckInfo Bitboard : Type}

theorem removeLoop_not_unreachable (keep : Move → Bool) :
    ∀ (fuel : Nat) (buf : List Move) (curr last : Nat),
      removeLoop keep fuel buf curr last ≠ Res.fault Fault.unreachable := by
  intro fuel
  induction fuel with
  | zero =>
    intro buf curr last
    simp only [removeLoop]
    split <;> simp
  | succ fuel ih =>
    intro buf curr last
    rw [removeLoop]
    split
    · simp
    · split
      · simp
      · split
        · split
          · simp
          · split
            · simp
            · exact ih _ _ _
        · exact ih _ _ _

theorem pickFiltered_not_unreachable (keep : Move → Bool) (gen : List Move) :
    pickFiltered keep gen ≠ Res.fault Fault.unreachable := by
  unfold pickFiltered
  split
  · unfold pickerRange
    split <;> simp
  · rename_i f heq
    intro hf
    injection hf with hf
    subst hf
    exact removeLoop_not_unreachable keep _ _ _ _ heq

theorem MovePicker_not_unreachable (B : Board Position Move CheckInfo Bitboard)
    (or_node INCHECK : Bool) (pos : Position) :
    MovePicker B or_node INCHECK pos ≠ Res.fault Fault.unreachable := by
  unfold MovePicker
  split
  · split
    · exact pickFiltered_not_unreachable _ _
    · unfold pickerRange
      split <;> simp
  · exact pickFiltered_not_unreachable _ _

theorem attackLoop_not_unreachable (B : Board Position Move CheckInfo Bitboard)
    (ci : CheckInfo) (child : Position → Res (Bool × Position))
    (hchild : ∀ p, child p ≠ Res.fault Fault.unreachable) (ml : List Move) :
    ∀ pos, attackLoop B ci child ml pos ≠ Res.fault Fault.unreachable := by
  induction ml with
  | nil => intro pos; simp [attackLoop]
  | cons m ms ih =>
    intro pos
    simp only [attackLoop]
    split
    · rename_i f hc
      intro hf
      injection hf with hf
      subst hf
      exact hchild _ hc
    · simp
    · exact ih _

theorem defendLoop_not_unreachable (B : Board Position Move CheckInfo Bitboard)
    (ci : CheckInfo) (attack : Bool → Position → Res (Bool × Position))
    (hattack : ∀ g p, attack g p ≠ Res.fault Fault.unreachable) (ml : List Move) :
    ∀ pos, defendLoop B ci attack ml pos ≠ Res.fault Fault.unreachable := by
  induction ml with
  | nil => intro pos; simp [defendLoop]
  | cons m ms ih =>
    intro pos
    simp only [defendLoop]
    split
    · rename_i f hc
      intro hf
      injection hf with hf
      subst hf
      exact hattack _ _ hc
    · simp
    · exact ih _

theorem mateMoveIn3Ply_not_unreachable [DecidableEq Move]
    (B : Board Position Move CheckInfo Bitboard) (INCHECK : Bool) (pos : Position) :
    mateMoveIn3Ply B INCHECK pos ≠ Res.fault Fault.unreachable := by
  unfold mateMoveIn3Ply
  split
  · rename_i f hf
    intro h
    injection h with h
    subst h
    exact MovePicker_not_unreachable B _ _ _ hf
  · refine attackLoop_not_unreachable B _ _ ?_ _ _
    intro p
    unfold mateMoveIn2Ply
    split
    · rename_i f hf
      intro h
      injection h with h
      subst h
      exact MovePicker_not_unreachable B _ _ _ hf
    · simp

/-- The two recursors never end in the fatal branch, which only the root entry has. -/
theorem recursors_not_unreachable [DecidableEq Move]
    (B : Board Position Move CheckInfo Bitboard) :
    ∀ fuel : Nat,
      (∀ (INCHECK : Bool) (pos : Position) (depth : Int),
        mateMoveInOddPly B fuel INCHECK pos depth ≠ Res.fault Fault.unreachable) ∧
      (∀ (pos : Position) (depth : Int),
        mateMoveInEvenPly B fuel pos depth ≠ Res.fault Fault.unreachable) := by
  intro fuel
  induction fuel with
  | zero =>
    constructor
    · intro _ _ _
      simp [mateMoveInOddPly]
    · intro _ _
      simp [mateMoveInEvenPly]
  | succ fuel ih =>
    constructor
    · intro INCHECK pos depth
      rw [mateMoveInOddPly]
      split
      · rename_i f hf
        intro h
        injection h with h
        subst h
        exact MovePicker_not_unreachable B _ _ _ hf
      · exact attackLoop_not_unreachable B _ _ (fun p => ih.2 p _) _ _
    · intro pos depth
      rw [mateMoveInEvenPly]
      split
      · rename_i f hf
        intro h
        injection h with h
        subst h
        exact MovePicker_not_unreachable B _ _ _ hf
      · refine defendLoop_not_unreachable B _ _ ?_ _ _
        intro g p
        split
        · exact mateMoveIn3Ply_not_unreachable B _ _
        · exact ih.1 _ _ _

/-- The loop of the root entry ends in the fatal branch exactly when some candidate is
classified outside the enumeration and every candidate before it has been passed over: its
position is one of the five repetitions, or the defender check returned `false` on it. -/
theorem returnMoveLoop_unreachable_iff (B : Board Position Move CheckInfo Bitboard)
    (hundo : UndoRestores B) (ci : CheckInfo) (child : Position → Res (Bool × Position))
    (hrest : ∀ p b p2, child p = Res.ok (b, p2) → p2 = p)
    (hnever : ∀ p, child p ≠ Res.fault Fault.unreachable) (pos : Position)
    (ml : List Move) :
    returnMoveLoop B ci child ml pos = Res.fault Fault.unreachable ↔
      ∃ pre m suf raw, ml = pre ++ m :: suf ∧
        B.isDraw (B.doMove pos m ci true) 16 = RepetitionType.other raw ∧
        ∀ x ∈ pre,
          B.isDraw (B.doMove pos x ci true) 16 = RepetitionType.RepetitionDraw ∨
          B.isDraw (B.doMove pos x ci true) 16 = RepetitionType.RepetitionWin ∨
          B.isDraw (B.doMove pos x ci true) 16 = RepetitionType.RepetitionLose ∨
          B.isDraw (B.doMove pos x ci true) 16 = RepetitionType.RepetitionSuperior ∨
          B.isDraw (B.doMove pos x ci true) 16 = RepetitionType.RepetitionInferior ∨
          (B.isDraw (B.doMove pos x ci true) 16 = RepetitionType.NotRepetition ∧
            child (B.doMove pos x ci true) = Res.ok (false, B.doMove pos x ci true)) := by
  induction ml with
  | nil =>
    constructor
    · intro h
      simp [returnMoveLoop] at h
    · rintro ⟨pre, m, suf, raw, hsplit, _⟩
      cases pre <;> simp at hsplit
  | cons a ms ih =>
    -- a candidate that is passed over hands the question to the rest of the list
    have hpass : returnMoveLoop B ci child (a :: ms) pos = returnMoveLoop B ci child ms pos →
        (∀ raw, B.isDraw (B.doMove pos a ci true) 16 ≠ RepetitionType.other raw) →
        (B.isDraw (B.doMove pos a ci true) 16 = RepetitionType.RepetitionDraw ∨
          B.isDraw (B.doMove pos a ci true) 16 = RepetitionType.RepetitionWin ∨
          B.isDraw (B.doMove pos a ci true) 16 = RepetitionType.RepetitionLose ∨
          B.isDraw (B.doMove pos a ci true) 16 = RepetitionType.RepetitionSuperior ∨
          B.isDraw (B.doMove pos a ci true) 16 = RepetitionType.RepetitionInferior ∨
          (B.isDraw (B.doMove pos a ci true) 16 = RepetitionType.NotRepetition ∧
            child (B.doMove pos a ci true) = Res.ok (false, B.doMove pos a ci true))) →
        (returnMoveLoop B ci child (a :: ms) pos = Res.fault Fault.unreachable ↔
          ∃ pre m suf raw, a :: ms = pre ++ m :: suf ∧
            B.isDraw (B.doMove pos m ci true) 16 = RepetitionType.other raw ∧
            ∀ x ∈ pre,
              B.isDraw (B.doMove pos x ci true) 16 = RepetitionType.RepetitionDraw ∨
              B.isDraw (B.doMove pos x ci true) 16 = RepetitionType.RepetitionWin ∨
              B.isDraw (B.doMove pos x ci true) 16 = RepetitionType.RepetitionLose ∨
              B.isDraw (B.doMove pos x ci true) 16 = RepetitionType.RepetitionSuperior ∨
              B.isDraw (B.doMove pos x ci true) 16 = RepetitionType.RepetitionInferior ∨
              (B.isDraw (B.doMove pos x ci true) 16 = RepetitionType.NotRepetition ∧
                child (B.doMove pos x ci true) = Res.ok (false, B.doMove pos x ci true))) := by
      intro heq hin hok
      rw [heq, ih]
      constructor
      · rintro ⟨pre, m, suf, raw, hsplit, hraw, hpre⟩
        refine ⟨a :: pre, m, suf, raw, by simp [hsplit], hraw, ?_⟩
        intro x hx
        rcases List.mem_cons.mp hx with rfl | hx
        · exact hok
        · exact hpre x hx
      · rintro ⟨pre, m, suf, raw, hsplit, hraw, hpre⟩
        cases pre with
        | nil =>
          simp only [List.nil_append, List.cons.injEq] at hsplit
          exact absurd (hsplit.1 ▸ hraw) (hin raw)
        | cons b pre =>
          simp only [List.cons_append, List.cons.injEq] at hsplit
          exact ⟨pre, m, suf, raw, hsplit.2, hraw,
            fun x hx => hpre x (List.mem_cons_of_mem _ hx)⟩
    -- a candidate on which the loop stops without the fatal branch
    have hstop : returnMoveLoop B ci child (a :: ms) pos ≠ Res.fault Fault.unreachable →
        B.isDraw (B.doMove pos a ci true) 16 = RepetitionType.NotRepetition →
        child (B.doMove pos a ci true) ≠ Res.ok (false, B.doMove pos a ci true) →
        (returnMoveLoop B ci child (a :: ms) pos = Res.fault Fault.unreachable ↔
          ∃ pre m suf raw, a :: ms = pre ++ m :: suf ∧
            B.isDraw (B.doMove pos m ci true) 16 = RepetitionType.other raw ∧
            ∀ x ∈ pre,
              B.isDraw (B.doMove pos x ci true) 16 = RepetitionType.RepetitionDraw ∨
              B.isDraw (B.doMove pos x ci true) 16 = RepetitionType.RepetitionWin ∨
              B.isDraw (B.doMove pos x ci true) 16 = RepetitionType.RepetitionLose ∨
              B.isDraw (B.doMove pos x ci true) 16 = RepetitionType.RepetitionSuperior ∨
              B.isDraw (B.doMove pos x ci true) 16 = RepetitionType.RepetitionInferior ∨
              (B.isDraw (B.doMove pos x ci true) 16 = RepetitionType.NotRepetition ∧
                child (B.doMove pos x ci true) = Res.ok (false, B.doMove pos x ci true))) := by
      intro hne hd hc
      constructor
      · intro h
        exact absurd h hne
      · rintro ⟨pre, m, suf, raw, hsplit, hraw, hpre⟩
        exfalso
        cases pre with
        | nil =>
          simp only [List.nil_append, List.cons.injEq] at hsplit
          rw [← hsplit.1, hd] at hraw
          cases hraw
        | cons b pre =>
          simp only [List.cons_append, List.cons.injEq] at hsplit
          have hb := hpre b (List.mem_cons_self _ _)
          rw [← hsplit.1, hd] at hb
          rcases hb with h | h | h | h | h | ⟨_, h⟩
          · cases h
          · cases h
          · cases h
          · cases h
          · cases h
          · exact hc h
    cases hd : B.isDraw (B.doMove pos a ci true) 16 with
    | NotRepetition =>
      cases hc : child (B.doMove pos a ci true) with
      | fault f =>
        refine hstop ?_ hd (by simp [hc])
        simp only [returnMoveLoop, hd, hc]
        intro h
        injection h with h
        subst h
        exact hnever _ hc
      | ok r =>
        obtain ⟨b, p2⟩ := r
        have hp2 := hrest _ _ _ hc
        subst hp2
        cases b with
        | true =>
          exact hstop (by simp [returnMoveLoop, hd, hc]) hd (by simp [hc])
        | false =>
          exact hpass (by simp [returnMoveLoop, hd, hc, hundo pos a ci true])
            (by simp [hd]) (by simp [hd, hc])
    | RepetitionDraw =>
      exact hpass (by simp [returnMoveLoop, hd, hundo pos a ci true]) (by simp [hd])
        (by simp [hd])
    | RepetitionWin =>
      exact hpass (by simp [returnMoveLoop, hd, hundo pos a ci true]) (by simp [hd])
        (by simp [hd])
    | RepetitionLose =>
      exact hpass (by simp [returnMoveLoop, hd, hundo pos a ci true]) (by simp [hd])
        (by simp [hd])
    | RepetitionSuperior =>
      exact hpass (by simp [returnMoveLoop, hd, hundo pos a ci true]) (by simp [hd])
        (by simp [hd])
    | RepetitionInferior =>
      exact hpass (by simp [returnMoveLoop, hd, hundo pos a ci true]) (by simp [hd])
        (by simp [hd])
    | other raw =>
      constructor
      · intro _
        exact ⟨[], a, ms, raw, rfl, hd, by simp⟩
      · intro _
        simp [returnMoveLoop, hd]

end Fatal

section FatalClaim

variable {Position Move CheckInfo Bitboard : Type} [DecidableEq Move]

theorem glitch_undo : UndoRestores glitch := fun _ _ _ _ => rfl

theorem chase_range : ClassifierInRange chase := by
  intro pos n raw h
  cases h

/-- Claim C11, as stated for every call, fails at depth 3: the classifier of the perpetual
check only returns `NotRepetition`, yet the root entry called at depth 3 never completes,
with a move or with `moveNone`: it calls `mateMoveInEvenPly` at depth 2, which never meets
`depth == 4`. -/
theorem c11_depth3_counterexample :
    ClassifierInRange chase ∧
      ¬ ∃ fuel : Nat, ∃ r, mateMoveInOddPlyReturnMove chase fuel 0 3 = Res.ok r :=
  ⟨chase_range, fun ⟨fuel, r, h⟩ => by
    rw [chase_root_diverges fuel 0 3 (by decide)] at h
    cases h⟩

/-- Claim C11 (fatal condition on the repetition classifier), amended in its last part to odd
depths from 5 on: with `undoMove` reversing `doMove`, `mateMoveInOddPlyReturnMove` ends in the
fatal `UNREACHABLE` branch exactly when `isDraw(16)` returns a value outside its six
enumerators for some candidate that the loop examines, every candidate before it having been
passed over (a repetition, or a defender check that returned `false`) and none having won.
When the classifier only returns enumerators the fatal branch is never reached, and at an odd
depth from 5 on, with the generator within the buffer, the root entry completes with a move
or `Move::moveNone()`. -/
theorem c11_fatal_branch (B : Board Position Move CheckInfo Bitboard) (hundo : UndoRestores B)
    (P : Position) (N : Int) (fuel : Nat) :
    (mateMoveInOddPlyReturnMove B (fuel + 1) P N = Res.fault Fault.unreachable ↔
      ∃ ml pre m suf raw, MovePicker B true false P = Res.ok ml ∧ ml = pre ++ m :: suf ∧
        B.isDraw (afterAttack B P m) 16 = RepetitionType.other raw ∧
        ∀ x ∈ pre, RootPasses B fuel P N x) ∧
    (ClassifierInRange B →
      mateMoveInOddPlyReturnMove B (fuel + 1) P N ≠ Res.fault Fault.unreachable) ∧
    (ClassifierInRange B → GeneratorFits B → 5 ≤ N → N % 2 = 1 → N ≤ fuel + 4 →
      ∃ r, mateMoveInOddPlyReturnMove B (fuel + 1) P N = Res.ok (r, P)) := by
  have hiff : mateMoveInOddPlyReturnMove B (fuel + 1) P N = Res.fault Fault.unreachable ↔
      ∃ ml pre m suf raw, MovePicker B true false P = Res.ok ml ∧ ml = pre ++ m :: suf ∧
        B.isDraw (afterAttack B P m) 16 = RepetitionType.other raw ∧
        ∀ x ∈ pre, RootPasses B fuel P N x := by
    rw [mateMoveInOddPlyReturnMove]
    cases hml : MovePicker B true false P with
    | fault f =>
      constructor
      · intro h
        injection h with h
        subst h
        exact absurd hml (MovePicker_not_unreachable B _ _ _)
      · rintro ⟨ml, _, _, _, _, h, _⟩
        cases h
    | ok ml =>
      have hloop := returnMoveLoop_unreachable_iff B hundo (B.checkInfo P)
        (fun p => mateMoveInEvenPly B fuel p (N - 1))
        (fun p b p2 hp => (recursors_restore B hundo fuel).2 p _ b p2 hp)
        (fun p => (recursors_not_unreachable B fuel).2 p _) P ml
      rw [hloop]
      constructor
      · rintro ⟨pre, m, suf, raw, hsplit, hraw, hpre⟩
        exact ⟨ml, pre, m, suf, raw, rfl, hsplit, hraw, hpre⟩
      · rintro ⟨ml2, pre, m, suf, raw, hml2, hsplit, hraw, hpre⟩
        injection hml2 with hml2
        subst hml2
        exact ⟨pre, m, suf, raw, hsplit, hraw, hpre⟩
  refine ⟨hiff, ?_, ?_⟩
  · intro hrange h
    obtain ⟨_, _, m, _, raw, _, _, hraw, _⟩ := hiff.mp h
    exact hrange _ _ raw hraw
  · intro hrange hgen h5 hodd hfuel
    obtain ⟨ml, hml⟩ := MovePicker_ok B hgen true false P
    obtain ⟨r, hr, _⟩ := returnMoveLoop_total B hundo (B.checkInfo P)
      (fun p => mateMoveInEvenPly B fuel p (N - 1)) ml P
      (fun m _ raw => hrange _ _ raw)
      (fun m _ _ => (recursors_total B hundo hgen fuel).2 _ (N - 1) (by omega) (by omega)
        (by omega))
    exact ⟨r, by rw [mateMoveInOddPlyReturnMove]; simp only [hml, hr]⟩

/-- On `glitch` at depth 5 the root entry passes over the refuted check 5, meets the check 7
that the classifier places outside its enumeration, and ends in the fatal branch; on `demo`,
whose classifier stays in range, it returns a move. -/
theorem c11_fatal_branch_witness :
    UndoRestores glitch ∧
      mateMoveInOddPlyReturnMove glitch (2 + 1) [] 5 = Res.fault Fault.unreachable ∧
      (∃ ml pre m suf raw, MovePicker glitch true false [] = Res.ok ml ∧
        ml = pre ++ m :: suf ∧
        glitch.isDraw (afterAttack glitch [] m) 16 = RepetitionType.other raw ∧
        ∀ x ∈ pre, RootPasses glitch 2 [] 5 x) ∧
      mateMoveInOddPlyReturnMove demo (2 + 1) [] 5 ≠ Res.fault Fault.unreachable ∧
      (∃ r, mateMoveInOddPlyReturnMove demo (2 + 1) [] 5 = Res.ok (r, [])) :=
  have h := c11_fatal_branch glitch glitch_undo [] 5 2
  have h2 := c11_fatal_branch demo demo_undo [] 5 2
  ⟨glitch_undo, by decide, h.1.mp (by decide), h2.2.1 demo_range,
    h2.2.2 demo_range demo_gen (by decide) (by decide) (by decide)⟩

end FatalClaim

/-! ## Searches on instrumented positions -/

section ProbeLoops

variable {Position Move CheckInfo Bitboard : Type}
variable (B : Board Position Move CheckInfo Bitboard)

theorem probe_picker (or_node INCHECK : Bool) (s : Probe Position Move CheckInfo) :
    MovePicker (probe B) or_node INCHECK s = MovePicker B or_node INCHECK s.pos := rfl

theorem Probe.Extends.rfl (Q : Event Position Move CheckInfo → Prop)
    (s : Probe Position Move CheckInfo) : Probe.Extends Q s s :=
  ⟨Eq.refl _, Eq.refl _, [], by simp, by simp⟩

theorem Probe.Extends.trans {Q : Event Position Move CheckInfo → Prop}
    {s s2 s3 : Probe Position Move CheckInfo} (h12 : Probe.Extends Q s s2)
    (h23 : Probe.Extends Q s2 s3) : Probe.Extends Q s s3 := by
  obtain ⟨hp, ha, new, hl, hq⟩ := h12
  obtain ⟨hp2, ha2, new2, hl2, hq2⟩ := h23
  refine ⟨hp2.trans hp, ha2.trans ha, new ++ new2, by rw [hl2, hl, List.append_assoc], ?_⟩
  intro e he
  rcases List.mem_append.mp he with h | h
  · exact hq e h
  · exact hq2 e h

theorem Probe.Extends.note {Q : Event Position Move CheckInfo → Prop}
    (s : Probe Position Move CheckInfo) (e : Event Position Move CheckInfo) (he : Q e) :
    Probe.Extends Q s (s.note e) :=
  ⟨Eq.refl _, Eq.refl _, [e], Eq.refl _, by simpa using he⟩

/-- One bracket of a loop: a logged `doMove`, a sub-search that hands its position back, and
the `undoMove`, bring the instrumented position back with a longer log. -/
theorem Probe.Extends.bracket (hundo : UndoRestores B)
    {Q : Event Position Move CheckInfo → Prop} (s s2 : Probe Position Move CheckInfo)
    (m : Move) (ci : CheckInfo) (givesCheck : Bool)
    (hdo : Q (Event.doMove s.pos m ci givesCheck (s.applied + 1)))
    (hsub : Probe.Extends Q ((probe B).doMove s m ci givesCheck) s2) :
    Probe.Extends Q s ((probe B).undoMove s2 m) := by
  obtain ⟨hp, ha, new, hl, hq⟩ := hsub
  refine ⟨?_, ?_, Event.doMove s.pos m ci givesCheck (s.applied + 1) :: new, ?_, ?_⟩
  · show B.undoMove s2.pos m = s.pos
    rw [hp]
    exact hundo s.pos m ci givesCheck
  · show s2.applied - 1 = s.applied
    rw [ha]
    show s.applied + 1 - 1 = s.applied
    omega
  · show s2.log = _
    rw [hl]
    show s.log ++ [_] ++ new = _
    simp
  · intro e he
    rcases List.mem_cons.mp he with rfl | h
    · exact hdo
    · exact hq e h

theorem attackLoop_probe (hundo : UndoRestores B) (Q : Event Position Move CheckInfo → Prop)
    (ci : CheckInfo)
    (child : Probe Position Move CheckInfo → Res (Bool × Probe Position Move CheckInfo))
    (p : Position) (a : Nat) (ml : List Move)
    (hdo : ∀ m ∈ ml, Q (Event.doMove p m ci true (a + 1)))
    (hchild : ∀ m ∈ ml, ∀ s1 : Probe Position Move CheckInfo,
      s1.pos = B.doMove p m ci true → s1.applied = a + 1 →
      ∀ b s2, child s1 = Res.ok (b, s2) → Probe.Extends Q s1 s2) :
    ∀ s : Probe Position Move CheckInfo, s.pos = p → s.applied = a →
      ∀ b s2, attackLoop (probe B) ci child ml s = Res.ok (b, s2) → Probe.Extends Q s s2 := by
  induction ml with
  | nil =>
    intro s _ _ b s2 h
    simp only [attackLoop] at h
    injection h with h
    injection h with _ h
    subst h
    exact Probe.Extends.rfl Q s
  | cons m ms ih =>
    intro s hp ha b s2 h
    have hstep : ∀ b1 s1, child ((probe B).doMove s m ci true) = Res.ok (b1, s1) →
        Probe.Extends Q s ((probe B).undoMove s1 m) := by
      intro b1 s1 hc
      refine Probe.Extends.bracket B hundo s s1 m ci true ?_ ?_
      · rw [hp, ha]
        exact hdo m (List.mem_cons_self _ _)
      · exact hchild m (List.mem_cons_self _ _) _ (by rw [← hp]; rfl) (by rw [← ha]; rfl) _ _ hc
    simp only [attackLoop] at h
    split at h
    · cases h
    · rename_i s1 hc
      injection h with h
      injection h with _ h
      subst h
      exact hstep _ _ hc
    · rename_i s1 hc
      have h1 := hstep _ _ hc
      exact h1.trans (ih (fun x hx => hdo x (List.mem_cons_of_mem _ hx))
        (fun x hx => hchild x (List.mem_cons_of_mem _ hx)) _ (h1.1.trans hp) (h1.2.1.trans ha)
        _ _ h)

theorem defendLoop_probe (hundo : UndoRestores B) (Q : Event Position Move CheckInfo → Prop)
    (ci : CheckInfo)
    (attack : Bool → Probe Position Move CheckInfo →
      Res (Bool × Probe Position Move CheckInfo))
    (p : Position) (a : Nat) (ml : List Move)
    (hdo : ∀ m ∈ ml, Q (Event.doMove p m ci (B.moveGivesCheck p m ci) (a + 1)))
    (hattack : ∀ m ∈ ml, ∀ s1 : Probe Position Move CheckInfo,
      s1.pos = B.doMove p m ci (B.moveGivesCheck p m ci) → s1.applied = a + 1 →
      ∀ b s2, attack (B.moveGivesCheck p m ci) s1 = Res.ok (b, s2) → Probe.Extends Q s1 s2) :
    ∀ s : Probe Position Move CheckInfo, s.pos = p → s.applied = a →
      ∀ b s2, defendLoop (probe B) ci attack ml s = Res.ok (b, s2) → Probe.Extends Q s s2 := by
  induction ml with
  | nil =>
    intro s _ _ b s2 h
    simp only [defendLoop] at h
    injection h with h
    injection h with _ h
    subst h
    exact Probe.Extends.rfl Q s
  | cons m ms ih =>
    intro s hp ha b s2 h
    have hgc : (probe B).moveGivesCheck s m ci = B.moveGivesCheck p m ci := by
      rw [← hp]
      rfl
    have hstep : ∀ b1 s1,
        attack (B.moveGivesCheck p m ci)
          ((probe B).doMove s m ci (B.moveGivesCheck p m ci)) = Res.ok (b1, s1) →
        Probe.Extends Q s ((probe B).undoMove s1 m) := by
      intro b1 s1 hc
      refine Probe.Extends.bracket B hundo s s1 m ci (B.moveGivesCheck p m ci) ?_ ?_
      · rw [hp, ha]
        exact hdo m (List.mem_cons_self _ _)
      · exact hattack m (List.mem_cons_self _ _) _ (by rw [← hp]; rfl) (by rw [← ha]; rfl)
          _ _ hc
    simp only [defendLoop, hgc] at h
    split at h
    · cases h
    · rename_i s1 hc
      injection h with h
      injection h with _ h
      subst h
      exact hstep _ _ hc
    · rename_i s1 hc
      have h1 := hstep _ _ hc
      exact h1.trans (ih (fun x hx => hdo x (List.mem_cons_of_mem _ hx))
        (fun x hx => hattack x (List.mem_cons_of_mem _ hx)) _ (h1.1.trans hp)
        (h1.2.1.trans ha) _ _ h)

theorem returnMoveLoop_probe (hundo : UndoRestores B)
    (Q : Event Position Move CheckInfo → Prop) (ci : CheckInfo)
    (child : Probe Position Move CheckInfo → Res (Bool × Probe Position Move CheckInfo))
    (p : Position) (a : Nat) (ml : List Move)
    (hdo : ∀ m ∈ ml, Q (Event.doMove p m ci true (a + 1)))
    (hchild : ∀ m ∈ ml, ∀ s1 : Probe Position Move CheckInfo,
      s1.pos = B.doMove p m ci true → s1.applied = a + 1 →
      ∀ b s2, child s1 = Res.ok (b, s2) → Probe.Extends Q s1 s2) :
    ∀ s : Probe Position Move CheckInfo, s.pos = p → s.applied = a →
      ∀ r s2, returnMoveLoop (probe B) ci child ml s = Res.ok (r, s2) →
        Probe.Extends Q s s2 := by
  induction ml with
  | nil =>
    intro s _ _ r s2 h
    simp only [returnMoveLoop] at h
    injection h with h
    injection h with _ h
    subst h
    exact Probe.Extends.rfl Q s
  | cons m ms ih =>
    intro s hp ha r s2 h
    have hq : Q (Event.doMove s.pos m ci true (s.applied + 1)) := by
      rw [hp, ha]
      exact hdo m (List.mem_cons_self _ _)
    have hstep : ∀ b1 s1, child ((probe B).doMove s m ci true) = Res.ok (b1, s1) →
        Probe.Extends Q s ((probe B).undoMove s1 m) := by
      intro b1 s1 hc
      exact Probe.Extends.bracket B hundo s s1 m ci true hq
        (hchild m (List.mem_cons_self _ _) _ (by rw [← hp]; rfl) (by rw [← ha]; rfl) _ _ hc)
    have hskip : Probe.Extends Q s ((probe B).undoMove ((probe B).doMove s m ci true) m) :=
      Probe.Extends.bracket B hundo s _ m ci true hq (Probe.Extends.rfl Q _)
    have hrest : ∀ s3, Probe.Extends Q s s3 →
        returnMoveLoop (probe B) ci child ms s3 = Res.ok (r, s2) → Probe.Extends Q s s2 := by
      intro s3 h1 h3
      exact h1.trans (ih (fun x hx => hdo x (List.mem_cons_of_mem _ hx))
        (fun x hx => hchild x (List.mem_cons_of_mem _ hx)) _ (h1.1.trans hp)
        (h1.2.1.trans ha) _ _ h3)
    simp only [returnMoveLoop] at h
    split at h
    · split at h
      · cases h
      · rename_i s1 hc
        injection h with h
        injection h with _ h
        subst h
        exact hstep _ _ hc
      · rename_i s1 hc
        exact hrest _ (hstep _ _ hc) h
    all_goals first
      | exact hrest _ hskip h
      | cases h

theorem mateMoveIn2PlyLoop_probe [DecidableEq Move] (hundo : UndoRestores B)
    (Q : Event Position Move CheckInfo → Prop) (ci : CheckInfo) (p : Position) (a : Nat)
    (ml : List Move)
    (hdo : ∀ m ∈ ml, B.moveGivesCheck p m ci = false → Q (Event.doMove p m ci false (a + 1))) :
    ∀ s : Probe Position Move CheckInfo, s.pos = p → s.applied = a →
      Probe.Extends Q s (mateMoveIn2PlyLoop (probe B) ci ml s).2 := by
  induction ml with
  | nil =>
    intro s _ _
    exact Probe.Extends.rfl Q s
  | cons m ms ih =>
    intro s hp ha
    have hgc : (probe B).moveGivesCheck s m ci = B.moveGivesCheck p m ci := by
      rw [← hp]
      rfl
    simp only [mateMoveIn2PlyLoop, hgc]
    split
    · exact Probe.Extends.rfl Q s
    · rename_i hno
      have hno2 : B.moveGivesCheck p m ci = false := by simpa using hno
      have h1 : Probe.Extends Q s ((probe B).undoMove ((probe B).doMove s m ci false) m) :=
        Probe.Extends.bracket B hundo s _ m ci false
          (by rw [hp, ha]; exact hdo m (List.mem_cons_self _ _) hno2)
          (Probe.Extends.rfl Q _)
      split
      · exact h1
      · exact h1.trans (ih (fun x hx => hdo x (List.mem_cons_of_mem _ hx)) _
          (h1.1.trans hp) (h1.2.1.trans ha))

end ProbeLoops

section Erasure

variable {Position Move CheckInfo Bitboard : Type}
variable (B : Board Position Move CheckInfo Bitboard)

theorem attackLoop_erase (ci : CheckInfo)
    (child2 : Probe Position Move CheckInfo → Res (Bool × Probe Position Move CheckInfo))
    (child : Position → Res (Bool × Position))
    (hchild : ∀ s, eraseProbe (child2 s) = child s.pos) (ml : List Move) :
    ∀ s : Probe Position Move CheckInfo,
      eraseProbe (attackLoop (probe B) ci child2 ml s) = attackLoop B ci child ml s.pos := by
  induction ml with
  | nil => intro s; rfl
  | cons m ms ih =>
    intro s
    have hc := hchild ((probe B).doMove s m ci true)
    have hpos : ((probe B).doMove s m ci true).pos = B.doMove s.pos m ci true := rfl
    rw [hpos] at hc
    simp only [attackLoop]
    rw [← hc]
    cases hres : child2 ((probe B).doMove s m ci true) with
    | fault f => rfl
    | ok r =>
      obtain ⟨b, s2⟩ := r
      cases b with
      | true => rfl
      | false => exact ih _

theorem defendLoop_erase (ci : CheckInfo)
    (attack2 : Bool → Probe Position Move CheckInfo →
      Res (Bool × Probe Position Move CheckInfo))
    (attack : Bool → Position → Res (Bool × Position))
    (hattack : ∀ g s, eraseProbe (attack2 g s) = attack g s.pos) (ml : List Move) :
    ∀ s : Probe Position Move CheckInfo,
      eraseProbe (defendLoop (probe B) ci attack2 ml s) = defendLoop B ci attack ml s.pos := by
  induction ml with
  | nil => intro s; rfl
  | cons m ms ih =>
    intro s
    have hgc : (probe B).moveGivesCheck s m ci = B.moveGivesCheck s.pos m ci := rfl
    have hc := hattack (B.moveGivesCheck s.pos m ci)
      ((probe B).doMove s m ci (B.moveGivesCheck s.pos m ci))
    have hpos : ((probe B).doMove s m ci (B.moveGivesCheck s.pos m ci)).pos
        = B.doMove s.pos m ci (B.moveGivesCheck s.pos m ci) := rfl
    rw [hpos] at hc
    simp only [defendLoop, hgc]
    rw [← hc]
    cases hres : attack2 (B.moveGivesCheck s.pos m ci)
        ((probe B).doMove s m ci (B.moveGivesCheck s.pos m ci)) with
    | fault f => rfl
    | ok r =>
      obtain ⟨b, s2⟩ := r
      cases b with
      | false => rfl
      | true => exact ih _

theorem returnMoveLoop_erase (ci : CheckInfo)
    (child2 : Probe Position Move CheckInfo → Res (Bool × Probe Position Move CheckInfo))
    (child : Position → Res (Bool × Position))
    (hchild : ∀ s, eraseProbe (child2 s) = child s.pos) (ml : List Move) :
    ∀ s : Probe Position Move CheckInfo,
      eraseProbe (returnMoveLoop (probe B) ci child2 ml s)
        = returnMoveLoop B ci child ml s.pos := by
  induction ml with
  | nil => intro s; rfl
  | cons m ms ih =>
    intro s
    have hc := hchild ((probe B).doMove s m ci true)
    have hpos : ((probe B).doMove s m ci true).pos = B.doMove s.pos m ci true := rfl
    have hdraw : (probe B).isDraw ((probe B).doMove s m ci true) 16
        = B.isDraw (B.doMove s.pos m ci true) 16 := rfl
    rw [hpos] at hc
    simp only [returnMoveLoop, hdraw]
    rw [← hc]
    cases B.isDraw (B.doMove s.pos m ci true) 16 with
    | NotRepetition =>
      cases hres : child2 ((probe B).doMove s m ci true) with
      | fault f => rfl
      | ok r =>
        obtain ⟨b, s2⟩ := r
        cases b with
        | true => rfl
        | false => exact ih _
    | RepetitionDraw => exact ih _
    | RepetitionWin => exact ih _
    | RepetitionLose => exact ih _
    | RepetitionSuperior => exact ih _
    | RepetitionInferior => exact ih _
    | other raw => rfl

theorem mateMoveIn2PlyLoop_erase [DecidableEq Move] (ci : CheckInfo) (ml : List Move) :
    ∀ s : Probe Position Move CheckInfo,
      ((mateMoveIn2PlyLoop (probe B) ci ml s).1, (mateMoveIn2PlyLoop (probe B) ci ml s).2.pos)
        = mateMoveIn2PlyLoop B ci ml s.pos := by
  induction ml with
  | nil => intro s; rfl
  | cons m ms ih =>
    intro s
    have hgc : (probe B).moveGivesCheck s m ci = B.moveGivesCheck s.pos m ci := rfl
    have horacle : (probe B).mateMoveIn1Ply ((probe B).doMove s m ci false)
        = B.mateMoveIn1Ply (B.doMove s.pos m ci false) := rfl
    have hnone : (probe B).moveNone = B.moveNone := rfl
    simp only [mateMoveIn2PlyLoop, hgc, horacle, hnone]
    split
    · rfl
    · split
      · rfl
      · exact ih _

theorem mateMoveIn2Ply_erase [DecidableEq Move] (s : Probe Position Move CheckInfo) :
    eraseProbe (mateMoveIn2Ply (probe B) s) = mateMoveIn2Ply B s.pos := by
  simp only [mateMoveIn2Ply, probe_picker]
  cases MovePicker B false false s.pos with
  | fault f => rfl
  | ok ml =>
    simp only [eraseProbe]
    congr 1
    exact mateMoveIn2PlyLoop_erase B _ ml s

theorem mateMoveIn3Ply_erase [DecidableEq Move] (INCHECK : Bool)
    (s : Probe Position Move CheckInfo) :
    eraseProbe (mateMoveIn3Ply (probe B) INCHECK s) = mateMoveIn3Ply B INCHECK s.pos := by
  simp only [mateMoveIn3Ply, probe_picker]
  cases MovePicker B true INCHECK s.pos with
  | fault f => rfl
  | ok ml =>
    exact attackLoop_erase B _ _ _ (mateMoveIn2Ply_erase B) ml s

/-- Forgetting the record, the traced recursors are the recursors. -/
theorem traced_erase [DecidableEq Move] :
    ∀ fuel : Nat,
      (∀ (INCHECK : Bool) (s : Probe Position Move CheckInfo) (depth : Int),
        eraseProbe (tracedOddPly B fuel INCHECK s depth)
          = mateMoveInOddPly B fuel INCHECK s.pos depth) ∧
      (∀ (s : Probe Position Move CheckInfo) (depth : Int),
        eraseProbe (tracedEvenPly B fuel s depth) = mateMoveInEvenPly B fuel s.pos depth) := by
  intro fuel
  induction fuel with
  | zero => exact ⟨fun _ _ _ => rfl, fun _ _ => rfl⟩
  | succ fuel ih =>
    constructor
    · intro INCHECK s depth
      rw [tracedOddPly, mateMoveInOddPly]
      simp only [probe_picker]
      have hpos : (s.note (Event.enterOddPly depth)).pos = s.pos := rfl
      rw [hpos]
      cases MovePicker B true INCHECK s.pos with
      | fault f => rfl
      | ok ml =>
        exact attackLoop_erase B _ _ _ (fun p => ih.2 p (depth - 1)) ml _
    · intro s depth
      rw [tracedEvenPly, mateMoveInEvenPly]
      simp only [probe_picker]
      have hpos : (s.note (Event.enterEvenPly depth)).pos = s.pos := rfl
      rw [hpos]
      cases MovePicker B false false s.pos with
      | fault f => rfl
      | ok ml =>
        refine defendLoop_erase B _ _ _ ?_ ml _
        intro g p
        split
        · exact mateMoveIn3Ply_erase B g p
        · exact ih.1 g p (depth - 1)

end Erasure

section ProbeSearch

variable {Position Move CheckInfo Bitboard : Type} [DecidableEq Move]
variable (B : Board Position Move CheckInfo Bitboard)

theorem mateMoveIn2Ply_probe (hundo : UndoRestores B)
    (Q : Event Position Move CheckInfo → Prop) (s : Probe Position Move CheckInfo)
    (hdo : ∀ m, B.moveGivesCheck s.pos m (B.checkInfo s.pos) = false →
      Q (Event.doMove s.pos m (B.checkInfo s.pos) false (s.applied + 1)))
    (b : Bool) (s2 : Probe Position Move CheckInfo)
    (h : mateMoveIn2Ply (probe B) s = Res.ok (b, s2)) : Probe.Extends Q s s2 := by
  unfold mateMoveIn2Ply at h
  split at h
  · cases h
  · rename_i ml _
    injection h with h
    have := mateMoveIn2PlyLoop_probe B hundo Q ((probe B).checkInfo s) s.pos s.applied ml
      (fun m _ => hdo m) s rfl rfl
    rw [h] at this
    exact this

theorem mateMoveIn3Ply_probe (hundo : UndoRestores B)
    (Q : Event Position Move CheckInfo → Prop) (INCHECK : Bool)
    (s : Probe Position Move CheckInfo)
    (hdo3 : ∀ ml, MovePicker B true INCHECK s.pos = Res.ok ml → ∀ m ∈ ml,
      Q (Event.doMove s.pos m (B.checkInfo s.pos) true (s.applied + 1)))
    (hdo2 : ∀ p2 m, B.moveGivesCheck p2 m (B.checkInfo p2) = false →
      Q (Event.doMove p2 m (B.checkInfo p2) false (s.applied + 1 + 1)))
    (b : Bool) (s2 : Probe Position Move CheckInfo)
    (h : mateMoveIn3Ply (probe B) INCHECK s = Res.ok (b, s2)) : Probe.Extends Q s s2 := by
  unfold mateMoveIn3Ply at h
  split at h
  · cases h
  · rename_i ml hml
    refine attackLoop_probe B hundo Q ((probe B).checkInfo s) (mateMoveIn2Ply (probe B))
      s.pos s.applied ml (hdo3 ml hml) ?_ s rfl rfl b s2 h
    intro m _ s1 _ ha b1 s3 h1
    refine mateMoveIn2Ply_probe B hundo Q s1 ?_ b1 s3 h1
    intro e he
    rw [ha]
    exact hdo2 s1.pos e he

/-- Every `doMove` call of a returning run of the two recursors is consistent. -/
theorem recursors_good_calls (hundo : UndoRestores B) (hgen : GeneratorFits B)
    (hcheck : ChecksGiveCheck B) :
    ∀ fuel : Nat,
      (∀ (INCHECK : Bool) (s : Probe Position Move CheckInfo) (depth : Int) (b : Bool)
        (s2 : Probe Position Move CheckInfo),
        mateMoveInOddPly (probe B) fuel INCHECK s depth = Res.ok (b, s2) →
        Probe.Extends (GoodCall B) s s2) ∧
      (∀ (s : Probe Position Move CheckInfo) (depth : Int) (b : Bool)
        (s2 : Probe Position Move CheckInfo),
        mateMoveInEvenPly (probe B) fuel s depth = Res.ok (b, s2) →
        Probe.Extends (GoodCall B) s s2) := by
  have hattacker : ∀ (INCHECK : Bool) (p : Position) (a : Nat) (ml : List Move),
      MovePicker B true INCHECK p = Res.ok ml → ∀ m ∈ ml,
      GoodCall B (Event.doMove p m (B.checkInfo p) true a) := by
    intro INCHECK p a ml hml m hm
    exact ⟨rfl, (hcheck p m (picker_attacker_subset B hgen INCHECK p ml hml m hm)).symm⟩
  intro fuel
  induction fuel with
  | zero =>
    constructor
    · intro _ _ _ _ _ h
      simp [mateMoveInOddPly] at h
    · intro _ _ _ _ h
      simp [mateMoveInEvenPly] at h
  | succ fuel ih =>
    constructor
    · intro INCHECK s depth b s2 h
      rw [mateMoveInOddPly] at h
      split at h
      · cases h
      · rename_i ml hml
        exact attackLoop_probe B hundo (GoodCall B) _ _ s.pos s.applied ml
          (hattacker INCHECK s.pos _ ml hml)
          (fun m _ s1 _ _ b1 s3 h1 => ih.2 s1 _ b1 s3 h1) s rfl rfl b s2 h
    · intro s depth b s2 h
      rw [mateMoveInEvenPly] at h
      split at h
      · cases h
      · rename_i ml hml
        refine defendLoop_probe B hundo (GoodCall B) _ _ s.pos s.applied ml
          (fun m _ => ⟨rfl, rfl⟩) ?_ s rfl rfl b s2 h
        intro m _ s1 _ _ b1 s3 h1
        split at h1
        · exact mateMoveIn3Ply_probe B hundo (GoodCall B) _ s1
            (fun ml2 hml2 => hattacker _ s1.pos _ ml2 hml2)
            (fun p2 e he => ⟨rfl, he.symm⟩) b1 s3 h1
        · exact ih.1 _ s1 _ b1 s3 h1

/-- Every observation of a returning run of the traced recursors entered within the bounds
of a defender search at depth `d` is within these bounds. -/
theorem traced_within (hundo : UndoRestores B) (d : Int) (most : Nat) :
    ∀ fuel : Nat,
      (∀ (INCHECK : Bool) (s : Probe Position Move CheckInfo) (k : Int) (b : Bool)
        (s2 : Probe Position Move CheckInfo), 5 ≤ k → k % 2 = 1 → k ≤ d →
        (s.applied : Int) + k ≤ most + 1 →
        tracedOddPly B fuel INCHECK s k = Res.ok (b, s2) →
        Probe.Extends (WithinDepth d most) s s2) ∧
      (∀ (s : Probe Position Move CheckInfo) (k : Int) (b : Bool)
        (s2 : Probe Position Move CheckInfo), 4 ≤ k → k % 2 = 0 → k ≤ d →
        (s.applied : Int) + k ≤ most + 1 →
        tracedEvenPly B fuel s k = Res.ok (b, s2) →
        Probe.Extends (WithinDepth d most) s s2) := by
  intro fuel
  induction fuel with
  | zero =>
    constructor
    · intro _ _ _ _ _ _ _ _ _ h
      simp [tracedOddPly] at h
    · intro _ _ _ _ _ _ _ _ h
      simp [tracedEvenPly] at h
  | succ fuel ih =>
    constructor
    · intro INCHECK s k b s2 h5 hodd hk hmost h
      rw [tracedOddPly] at h
      split at h
      · cases h
      · rename_i ml hml
        have hnote : Probe.Extends (WithinDepth d most) s (s.note (Event.enterOddPly k)) :=
          Probe.Extends.note s _ ⟨h5, hk, hodd⟩
        refine hnote.trans (attackLoop_probe B hundo (WithinDepth d most) _ _ s.pos s.applied
          ml ?_ ?_ (s.note (Event.enterOddPly k)) rfl rfl b s2 h)
        · intro m _
          show s.applied + 1 ≤ most
          omega
        · intro m _ s1 _ ha b1 s3 h1
          exact ih.2 s1 (k - 1) b1 s3 (by omega) (by omega) (by omega)
            (by rw [ha]; push_cast; omega) h1
    · intro s k b s2 h4 heven hk hmost h
      rw [tracedEvenPly] at h
      split at h
      · cases h
      · rename_i ml hml
        have hnote : Probe.Extends (WithinDepth d most) s (s.note (Event.enterEvenPly k)) :=
          Probe.Extends.note s _ ⟨h4, hk, heven⟩
        refine hnote.trans (defendLoop_probe B hundo (WithinDepth d most) _ _ s.pos s.applied
          ml ?_ ?_ (s.note (Event.enterEvenPly k)) rfl rfl b s2 h)
        · intro m _
          show s.applied + 1 ≤ most
          omega
        · intro m _ s1 _ ha b1 s3 h1
          split at h1
          · refine mateMoveIn3Ply_probe B hundo (WithinDepth d most) _ s1 ?_ ?_ b1 s3 h1
            · intro _ _ m2 _
              show s1.applied + 1 ≤ most
              omega
            · intro _ _ _
              show s1.applied + 1 + 1 ≤ most
              omega
          · exact ih.1 _ s1 (k - 1) b1 s3 (by omega) (by omega) (by omega)
              (by rw [ha]; push_cast; omega) h1

end ProbeSearch

section ProbeClaims

variable {Position Move CheckInfo Bitboard : Type} [DecidableEq Move]

/-- Forgetting the record, the recursors run on the board `probe B` are the recursors run on
`B`. -/
theorem probe_erase (B : Board Position Move CheckInfo Bitboard) :
    ∀ fuel : Nat,
      (∀ (INCHECK : Bool) (s : Probe Position Move CheckInfo) (depth : Int),
        eraseProbe (mateMoveInOddPly (probe B) fuel INCHECK s depth)
          = mateMoveInOddPly B fuel INCHECK s.pos depth) ∧
      (∀ (s : Probe Position Move CheckInfo) (depth : Int),
        eraseProbe (mateMoveInEvenPly (probe B) fuel s depth)
          = mateMoveInEvenPly B fuel s.pos depth) := by
  intro fuel
  induction fuel with
  | zero => exact ⟨fun _ _ _ => rfl, fun _ _ => rfl⟩
  | succ fuel ih =>
    constructor
    · intro INCHECK s depth
      rw [mateMoveInOddPly, mateMoveInOddPly]
      simp only [probe_picker]
      cases MovePicker B true INCHECK s.pos with
      | fault f => rfl
      | ok ml =>
        exact attackLoop_erase B _ _ _ (fun p => ih.2 p (depth - 1)) ml _
    · intro s depth
      rw [mateMoveInEvenPly, mateMoveInEvenPly]
      simp only [probe_picker]
      cases MovePicker B false false s.pos with
      | fault f => rfl
      | ok ml =>
        refine defendLoop_erase B _ _ _ ?_ ml _
        intro g p
        split
        · exact mateMoveIn3Ply_erase B g p
        · exact ih.1 g p (depth - 1)

theorem probe_root_erase (B : Board Position Move CheckInfo Bitboard) (fuel : Nat)
    (s : Probe Position Move CheckInfo) (depth : Int) :
    eraseProbe (mateMoveInOddPlyReturnMove (probe B) fuel s depth)
      = mateMoveInOddPlyReturnMove B fuel s.pos depth := by
  cases fuel with
  | zero => rfl
  | succ fuel =>
    rw [mateMoveInOddPlyReturnMove, mateMoveInOddPlyReturnMove]
    simp only [probe_picker]
    cases MovePicker B true false s.pos with
    | fault f => rfl
    | ok ml =>
      exact returnMoveLoop_erase B _ _ _ (fun p => (probe_erase B fuel).2 p (depth - 1)) ml _

theorem honest_undo : UndoRestores honest := fun _ _ _ _ => rfl

theorem honest_gen : GeneratorFits honest := by
  intro pos
  constructor
  · show (honestCheck pos).length ≤ MaxCheckMoves
    unfold honestCheck
    split <;> decide
  · show (honestEvasion pos).length ≤ MaxCheckMoves
    unfold honestEvasion
    split <;> decide

theorem honest_checks : ChecksGiveCheck honest := by
  intro pos m hm
  show decide (m ∈ honestCheck pos) = true
  exact decide_eq_true hm

/-- Claim C18 (consistency of the gives-check flag passed to `doMove`): assume that every
generated check gives check, that `undoMove` reverses `doMove` and that the generator stays
within the buffer. Run on positions that log the `doMove` calls they receive, each of
`mateMoveIn2Ply`, `mateMoveIn3Ply`, `mateMoveInOddPly`, `mateMoveInEvenPly` and
`mateMoveInOddPlyReturnMove` is the same search once the log is forgotten, and in every
returning run each logged call carries the `CheckInfo` computed from the position the move is
applied to and a flag equal to `moveGivesCheck(move, ci)` on that position. -/
theorem c18_gives_check_flag (B : Board Position Move CheckInfo Bitboard)
    (hundo : UndoRestores B) (hgen : GeneratorFits B) (hcheck : ChecksGiveCheck B)
    (s : Probe Position Move CheckInfo) :
    (eraseProbe (mateMoveIn2Ply (probe B) s) = mateMoveIn2Ply B s.pos ∧
      ∀ b s2, mateMoveIn2Ply (probe B) s = Res.ok (b, s2) →
        Probe.Extends (GoodCall B) s s2) ∧
    (∀ INCHECK,
      eraseProbe (mateMoveIn3Ply (probe B) INCHECK s) = mateMoveIn3Ply B INCHECK s.pos ∧
      ∀ b s2, mateMoveIn3Ply (probe B) INCHECK s = Res.ok (b, s2) →
        Probe.Extends (GoodCall B) s s2) ∧
    (∀ fuel INCHECK depth,
      eraseProbe (mateMoveInOddPly (probe B) fuel INCHECK s depth)
        = mateMoveInOddPly B fuel INCHECK s.pos depth ∧
      ∀ b s2, mateMoveInOddPly (probe B) fuel INCHECK s depth = Res.ok (b, s2) →
        Probe.Extends (GoodCall B) s s2) ∧
    (∀ fuel depth,
      eraseProbe (mateMoveInEvenPly (probe B) fuel s depth)
        = mateMoveInEvenPly B fuel s.pos depth ∧
      ∀ b s2, mateMoveInEvenPly (probe B) fuel s depth = Res.ok (b, s2) →
        Probe.Extends (GoodCall B) s s2) ∧
    (∀ fuel depth,
      eraseProbe (mateMoveInOddPlyReturnMove (probe B) fuel s depth)
        = mateMoveInOddPlyReturnMove B fuel s.pos depth ∧
      ∀ r s2, mateMoveInOddPlyReturnMove (probe B) fuel s depth = Res.ok (r, s2) →
        Probe.Extends (GoodCall B) s s2) := by
  have hattacker : ∀ (INCHECK : Bool) (p : Position) (a : Nat) (ml : List Move),
      MovePicker B true INCHECK p = Res.ok ml → ∀ m ∈ ml,
      GoodCall B (Event.doMove p m (B.checkInfo p) true a) := by
    intro INCHECK p a ml hml m hm
    exact ⟨rfl, (hcheck p m (picker_attacker_subset B hgen INCHECK p ml hml m hm)).symm⟩
  refine ⟨⟨mateMoveIn2Ply_erase B s, ?_⟩, fun INCHECK => ⟨mateMoveIn3Ply_erase B INCHECK s, ?_⟩,
    fun fuel INCHECK depth => ⟨(probe_erase B fuel).1 INCHECK s depth,
      (recursors_good_calls B hundo hgen hcheck fuel).1 INCHECK s depth⟩,
    fun fuel depth => ⟨(probe_erase B fuel).2 s depth,
      (recursors_good_calls B hundo hgen hcheck fuel).2 s depth⟩,
    fun fuel depth => ⟨probe_root_erase B fuel s depth, ?_⟩⟩
  · intro b s2 h
    exact mateMoveIn2Ply_probe B hundo (GoodCall B) s (fun m hm => ⟨rfl, hm.symm⟩) b s2 h
  · intro b s2 h
    exact mateMoveIn3Ply_probe B hundo (GoodCall B) INCHECK s
      (fun ml hml => hattacker INCHECK s.pos _ ml hml)
      (fun p2 e he => ⟨rfl, he.symm⟩) b s2 h
  · intro r s2 h
    cases fuel with
    | zero => simp [mateMoveInOddPlyReturnMove] at h
    | succ fuel =>
      rw [mateMoveInOddPlyReturnMove] at h
      split at h
      · cases h
      · rename_i ml hml
        exact returnMoveLoop_probe B hundo (GoodCall B) _ _ s.pos s.applied ml
          (hattacker false s.pos _ ml hml)
          (fun m _ s1 _ _ b1 s3 h1 =>
            (recursors_good_calls B hundo hgen hcheck fuel).2 s1 _ b1 s3 h1)
          s rfl rfl r s2 h

/-- On `honest` the root entry at depth 5 makes four `doMove` calls, in the root entry, the
defender recursor, the three-ply check and the two-ply check; the evasion 3 gives check and is
applied with the flag `true`, the evasion 6 does not and is applied with `false`. -/
theorem c18_gives_check_flag_witness :
    UndoRestores honest ∧ GeneratorFits honest ∧ ChecksGiveCheck honest ∧
      mateMoveInOddPlyReturnMove (probe honest) 2 { pos := [], applied := 0, log := [] } 5
        = Res.ok (1, { pos := [], applied := 0, log :=
            [Event.doMove [] 1 () true 1, Event.doMove [1] 3 () true 2,
             Event.doMove [3, 1] 5 () true 3, Event.doMove [5, 3, 1] 6 () false 4] }) ∧
      Probe.Extends (GoodCall honest) { pos := [], applied := 0, log := [] }
        { pos := [], applied := 0, log :=
            [Event.doMove [] 1 () true 1, Event.doMove [1] 3 () true 2,
             Event.doMove [3, 1] 5 () true 3, Event.doMove [5, 3, 1] 6 () false 4] } :=
  ⟨honest_undo, honest_gen, honest_checks, by decide,
    ((c18_gives_check_flag honest honest_undo honest_gen honest_checks
      { pos := [], applied := 0, log := [] }).2.2.2.2 2 5).2 1 _ (by decide)⟩

/-- Claim C12 (termination of the defender recursor and reachability of the base cases): for
every even depth `d >= 4`, with fuel for `d - 3` nested calls, `mateMoveInEvenPly(P, d)` never
runs out of fuel on any board, and when `undoMove` reverses `doMove` and the generator stays
within the buffer it returns with `P` restored. Its traced run returns the same result, and
every observation of it is within bounds: `mateMoveInEvenPly` is entered at even depths from
4 to `d` only and never below 4, `mateMoveInOddPly` at odd depths from 5 to `d` only, and
every `doMove` call leaves at most `d - 1` moves applied on top of `P`. At depth 4 one unit of
fuel is enough: the sub-search is `mateMoveIn3Ply`, which runs `mateMoveIn2Ply`, which asks
the one-ply oracle, none of which recurses. -/
theorem c12_defender_terminates (B : Board Position Move CheckInfo Bitboard)
    (hundo : UndoRestores B) (hgen : GeneratorFits B) (P : Position) (d : Int) (h4 : 4 ≤ d)
    (heven : d % 2 = 0) (fuel : Nat) (hfuel : d ≤ fuel + 3) :
    (∀ (B2 : Board Position Move CheckInfo Bitboard),
      mateMoveInEvenPly B2 fuel P d ≠ Res.fault Fault.outOfFuel) ∧
    ∃ b s2, mateMoveInEvenPly B fuel P d = Res.ok (b, P) ∧
      tracedEvenPly B fuel { pos := P, applied := 0, log := [] } d = Res.ok (b, s2) ∧
      s2.pos = P ∧ s2.applied = 0 ∧
      ∀ e ∈ s2.log, WithinDepth d (d - 1).toNat e := by
  refine ⟨fun B2 => (recursors_fuel B2 fuel).2 P d h4 heven hfuel, ?_⟩
  obtain ⟨b, hb⟩ := (recursors_total B hundo hgen fuel).2 P d h4 heven hfuel
  have herase := (traced_erase B fuel).2 { pos := P, applied := 0, log := [] } d
  rw [hb] at herase
  cases htr : tracedEvenPly B fuel { pos := P, applied := 0, log := [] } d with
  | fault f =>
    rw [htr] at herase
    cases herase
  | ok r =>
    obtain ⟨b2, s2⟩ := r
    rw [htr] at herase
    simp only [eraseProbe] at herase
    injection herase with herase
    injection herase with hb2 hpos
    subst hb2
    obtain ⟨_, happ, new, hlog, hq⟩ := (traced_within B hundo d (d - 1).toNat fuel).2
      { pos := P, applied := 0, log := [] } d b2 s2 h4 heven (le_refl _)
      (by simp only [Nat.cast_zero]; omega) htr
    refine ⟨b2, s2, hb, rfl, hpos, happ, ?_⟩
    intro e he
    rw [hlog] at he
    exact hq e (by simpa using he)

/-- On `honest` the defender recursor at depth 6 after the check 1 enters the recursors at
depths 6, 5 and 4 and applies three moves at most. -/
theorem c12_defender_terminates_witness :
    UndoRestores honest ∧ GeneratorFits honest ∧
      tracedEvenPly honest 3 { pos := [1], applied := 0, log := [] } 6
        = Res.ok (false, { pos := [1], applied := 0, log :=
            [Event.enterEvenPly 6, Event.doMove [1] 3 () true 1, Event.enterOddPly 5,
             Event.doMove [3, 1] 5 () true 2, Event.enterEvenPly 4,
             Event.doMove [5, 3, 1] 6 () false 3] }) ∧
      ∃ b s2, mateMoveInEvenPly honest 3 [1] 6 = Res.ok (b, [1]) ∧
        tracedEvenPly honest 3 { pos := [1], applied := 0, log := [] } 6 = Res.ok (b, s2) ∧
        s2.pos = [1] ∧ s2.applied = 0 ∧
        ∀ e ∈ s2.log, WithinDepth 6 5 e :=
  ⟨honest_undo, honest_gen, by decide,
    (c12_defender_terminates honest honest_undo honest_gen [1] 6 (by decide) (by decide) 3
      (by decide)).2⟩

end ProbeClaims

end Mate
